import Mathlib

/-!
# aruodas_analyzer: a shallow embedding of `aruodas_analyzer.cpp`

Modelling conventions, used throughout.

* A `std::string` is the list of its `char`s (`Str`); a `Char` with code `c < 256` stands for the
  byte `c`, so the byte `0xA0` is the character `'\xa0'`.
* A `double` is a value of `Dbl`: a finite binary64 number, given by the rational number it
  denotes, one of the two infinities, or NaN.  Sums and quotients are rounded to the nearest
  double, ties to even (`Dbl.round`), overflow gives an infinity, and a comparison with NaN is
  false.  The two zeros are one value: the program compares doubles and divides by values that
  passed `eur <= 0.0`, so it cannot tell them apart.
* `std::stod` is `strtod` followed by the range check: decimal and hexadecimal numbers, `inf` and
  `nan` are read, the value is rounded correctly, and text whose value overflows, or underflows
  inexactly, is an exception (`stod`).
* The `int` that `to_int` writes is 32 bits wide: the cast `(int)` wraps (`to_int32`).  Container
  sizes and row counters are mathematical integers; `(int)v.size()` is the length of the list.
* `std::sort` is any function meeting the library contract (`StdSort`): the result is a sorted
  rearrangement provided the comparator is a strict weak order on the elements.  Nothing is
  assumed about a call on data that breaks this, such as numbers mixed with NaN.
* `std::unordered_map<std::string, V>` is an association list with distinct keys (`Map V`).
* Reading `flds[i]` outside the vector is the failure `none` of the row functions.
-/


namespace Aruodas

/-- A `std::string`, as the list of its characters. -/
abbrev Str := List Char

/-! ## Text helpers -/

/-- The C-locale `std::isspace`: space, `\t`, `\n`, `\v`, `\f`, `\r`. -/
def isspace (c : Char) : Bool :=
  c == ' ' || c == '\t' || c == '\n' || c == '\x0b' || c == '\x0c' || c == '\r'

/-- The function `trim`: erase whitespace from the front, then pop whitespace from the back. -/
def trim (s : Str) : Str :=
  (s.dropWhile isspace).rdropWhile isspace

/-- First loop of `norm_space`: every byte `0xA0` becomes a space. -/
def replace_nbsp (s : Str) : Str :=
  s.map (fun c => if c = '\xa0' then ' ' else c)

/-- One iteration of the second loop of `norm_space`, on the state `(out, prev_sp)`. -/
def norm_step (st : Str × Bool) (c : Char) : Str × Bool :=
  let sp := isspace c
  (if sp then (if !st.2 then st.1 ++ [' '] else st.1) else st.1 ++ [c], sp)

/-- The function `norm_space`. -/
def norm_space (inp : Str) : Str :=
  let s := replace_nbsp inp
  let r := s.foldl norm_step ([], false)
  trim r.1

/-- The second loop of `norm_space` as a recursion over the input: the output written from a
state with `prev_sp = prev` on. -/
def collapse (prev : Bool) : Str → Str
  | [] => []
  | c :: r =>
    if isspace c then (if prev then collapse true r else ' ' :: collapse true r)
    else c :: collapse false r

/-- A word separator of the normalizer: a C-locale whitespace character or the byte `0xA0`. -/
def is_sep (c : Char) : Bool := isspace c || c == '\xa0'

/-- The whitespace-separated words of a string: the non-empty pieces between separators. -/
def words (s : Str) : List Str :=
  (s.splitOnP is_sep).filter fun w => !w.isEmpty

/-! ## CSV tokenizer -/

/-- The loop of `parse_csv_line` over the characters from position `i` on: the first argument is
`line[i..]`, then `in_quotes`, `cur` and `fields`.  The look-ahead `line[i + 1] == '"'` inspects
the head of the remaining characters, and `++i` drops it. -/
def parse_loop : Str → Bool → Str → List Str → List Str
  | [], _, cur, fields => fields ++ [cur]
  | c :: rest, in_quotes, cur, fields =>
    if in_quotes then
      if c = '"' then
        match rest with
        | [] => parse_loop [] false cur fields
        | d :: rest2 =>
          if d = '"' then parse_loop rest2 true (cur ++ ['"']) fields
          else parse_loop (d :: rest2) false cur fields
      else parse_loop rest true (cur ++ [c]) fields
    else
      if c = '"' then parse_loop rest true cur fields
      else if c = ',' then parse_loop rest false [] (fields ++ [cur])
      else if c = '\r' ∨ c = '\n' then parse_loop rest false cur fields
      else parse_loop rest false (cur ++ [c]) fields

/-- The function `parse_csv_line`. -/
def parse_csv_line (line : Str) : List Str :=
  parse_loop line false [] []

/-- Encoding of one field as a quoted field: every double-quote character is doubled and the
result is wrapped in double quotes. -/
def quote_field (f : Str) : Str :=
  '"' :: (f.flatMap fun c => if c = '"' then ['"', '"'] else [c]) ++ ['"']

/-- Joining fields with commas. -/
def join_commas : List Str → Str
  | [] => []
  | [f] => f
  | f :: g :: rest => f ++ ',' :: join_commas (g :: rest)

/-! ## Doubles -/

/-- A `double`: a finite value (the rational number it denotes), an infinity, or NaN. -/
inductive Dbl where
  | fin (q : ℚ)
  | pinf
  | ninf
  | nan
  deriving DecidableEq

/-- The comparison `a < b` of two doubles: false as soon as one of them is NaN. -/
def Dbl.lt : Dbl → Dbl → Bool
  | .fin a, .fin b => decide (a < b)
  | .fin _, .pinf => true
  | .ninf, .fin _ => true
  | .ninf, .pinf => true
  | _, _ => false

/-- The comparison `a <= b` of two doubles: false as soon as one of them is NaN. -/
def Dbl.le : Dbl → Dbl → Bool
  | .fin a, .fin b => decide (a ≤ b)
  | .fin _, .pinf => true
  | .ninf, .fin _ => true
  | .ninf, .pinf => true
  | .pinf, .pinf => true
  | .ninf, .ninf => true
  | _, _ => false

instance : LT Dbl := ⟨fun a b => Dbl.lt a b = true⟩

instance : LE Dbl := ⟨fun a b => Dbl.le a b = true⟩

instance (a b : Dbl) : Decidable (a < b) := inferInstanceAs (Decidable (Dbl.lt a b = true))

instance (a b : Dbl) : Decidable (a ≤ b) := inferInstanceAs (Decidable (Dbl.le a b = true))

/-- Descending order of doubles with NaN last: a total order that agrees with `>=` on numbers.
It names the sorted rearrangement of a list of numbers. -/
def Dbl.desc (a b : Dbl) : Prop := b ≤ a ∨ b = .nan

instance (a b : Dbl) : Decidable (Dbl.desc a b) :=
  inferInstanceAs (Decidable (b ≤ a ∨ b = .nan))

/-- A numeral is the double of that value (the numerals of the program, such as `0.0`, `2.0`
and `-1.0`, are small integers). -/
instance (n : Nat) : OfNat Dbl n := ⟨.fin n⟩

/-- Number of halvings that bring `n` below 2, with `fuel` bounding the recursion. -/
def log2_fuel : Nat → Nat → Nat
  | 0, _ => 0
  | fuel + 1, n => if n < 2 then 0 else log2_fuel fuel (n / 2) + 1

/-- The greatest `k` with `2 ^ k ≤ n`, for `n > 0`. -/
def nat_log2 (n : Nat) : Nat := log2_fuel n n

/-- The greatest `e` with `2 ^ e ≤ q`, for `q > 0`. -/
def ilog2 (q : ℚ) : Int :=
  let e0 : Int := (nat_log2 q.num.natAbs : Int) - (nat_log2 q.den : Int)
  if q < (2 : ℚ) ^ e0 then e0 - 1 else e0

/-- The nearest integer, a tie going to the even one. -/
def round_even (x : ℚ) : Int :=
  if x - ⌊x⌋ < 1 / 2 then ⌊x⌋
  else if 1 / 2 < x - ⌊x⌋ then ⌊x⌋ + 1
  else if ⌊x⌋ % 2 = 0 then ⌊x⌋ else ⌊x⌋ + 1

/-- Rounding of `q` to a multiple of `2 ^ (e - 52)`, the spacing of the doubles whose binary
exponent is `e`. -/
def round_at (e : Int) (q : ℚ) : ℚ :=
  (round_even (q / (2 : ℚ) ^ (e - 52)) : ℚ) * (2 : ℚ) ^ (e - 52)

/-- The binary exponent of the doubles next to `q ≠ 0`: the exponent of `q`, and `-1022` for
the subnormal range. -/
def dbl_exp (q : ℚ) : Int := max (ilog2 |q|) (-1022)

/-- The double nearest to the real number `q` (binary64, round to nearest, ties to even): 53
significant bits, least exponent `-1022` with gradual underflow, and an infinity once the rounded
magnitude reaches `2 ^ 1024`. -/
def Dbl.round (q : ℚ) : Dbl :=
  if q = 0 then .fin 0
  else
    let r := round_at (dbl_exp q) q
    if (2 : ℚ) ^ (1024 : Int) ≤ |r| then (if 0 < q then .pinf else .ninf) else .fin r

/-- Negation of a double. -/
def Dbl.neg : Dbl → Dbl
  | .fin q => .fin (-q)
  | .pinf => .ninf
  | .ninf => .pinf
  | .nan => .nan

/-- The sum `a + b` of two doubles. -/
def Dbl.add : Dbl → Dbl → Dbl
  | .fin a, .fin b => Dbl.round (a + b)
  | .nan, _ => .nan
  | _, .nan => .nan
  | .pinf, .ninf => .nan
  | .ninf, .pinf => .nan
  | .pinf, _ => .pinf
  | _, .pinf => .pinf
  | .ninf, _ => .ninf
  | _, .ninf => .ninf

/-- The quotient `a / b` of two doubles. -/
def Dbl.div : Dbl → Dbl → Dbl
  | .nan, _ => .nan
  | _, .nan => .nan
  | .fin a, .fin b =>
    if b = 0 then (if a = 0 then .nan else if 0 < a then .pinf else .ninf)
    else Dbl.round (a / b)
  | .fin _, .pinf => .fin 0
  | .fin _, .ninf => .fin 0
  | .pinf, .fin b => if 0 ≤ b then .pinf else .ninf
  | .ninf, .fin b => if 0 ≤ b then .ninf else .pinf
  | .pinf, .pinf => .nan
  | .pinf, .ninf => .nan
  | .ninf, .pinf => .nan
  | .ninf, .ninf => .nan

instance : Neg Dbl := ⟨Dbl.neg⟩

instance : Add Dbl := ⟨Dbl.add⟩

instance : Div Dbl := ⟨Dbl.div⟩

/-- The rational number `q` is a double: rounding leaves it as it is. -/
def is_double (q : ℚ) : Prop := Dbl.round q = .fin q

/-- A value that the type `double` holds: a finite value is a binary64 number. -/
def Dbl.valid : Dbl → Prop
  | .fin q => is_double q
  | _ => True

/-! ## Scalar parsers -/

/-- The C-locale `isdigit`. -/
def isdigit (c : Char) : Bool := decide ('0' ≤ c) && decide (c ≤ '9')

/-- The C-locale `isxdigit`. -/
def isxdigit (c : Char) : Bool :=
  isdigit c || (decide ('a' ≤ c) && decide (c ≤ 'f')) || (decide ('A' ≤ c) && decide (c ≤ 'F'))

/-- The C-locale `tolower`. -/
def tolower (c : Char) : Char :=
  if 'A' ≤ c ∧ c ≤ 'Z' then Char.ofNat (c.toNat + 32) else c

/-- Value of a run of decimal digits. -/
def decVal (ds : Str) : Nat :=
  ds.foldl (fun a c => 10 * a + (c.toNat - 48)) 0

/-- Value of one hexadecimal digit. -/
def hexDigitVal (c : Char) : Nat :=
  if isdigit c = true then c.toNat - 48
  else if 'a' ≤ c then c.toNat - 87
  else c.toNat - 55

/-- Value of a run of hexadecimal digits. -/
def hexVal (ds : Str) : Nat :=
  ds.foldl (fun a c => 16 * a + hexDigitVal c) 0

/-- The exponent part that `strtod` reads after the mantissa: the marker (`e`, `E` of a decimal
number; `p`, `P` of a hexadecimal one), an optional sign and at least one decimal digit; anything
else is no exponent. -/
def stod_exp (lo up : Char) (s : Str) : Int :=
  match s with
  | [] => 0
  | e :: r =>
    if e = lo ∨ e = up then
      match r with
      | [] => 0
      | g :: r2 =>
        if g = '-' then -(decVal (r2.takeWhile isdigit) : Int)
        else if g = '+' then (decVal (r2.takeWhile isdigit) : Int)
        else (decVal (r.takeWhile isdigit) : Int)
    else 0

/-- The text begins with the word `w` (given in lower case), letter case ignored. -/
def starts_word (w s : Str) : Bool :=
  (s.take w.length).map tolower == w

/-- The magnitude of the decimal number at the head of `s`: digits with at most one decimal
point (at least one digit in all) and an optional exponent; `none` when no digit is there. -/
def dec_number (s : Str) : Option ℚ :=
  let ip := s.takeWhile isdigit
  let s3 := s.dropWhile isdigit
  let fp := if s3.head? = some '.' then s3.tail.takeWhile isdigit else []
  let s4 := if s3.head? = some '.' then s3.tail.dropWhile isdigit else s3
  if ip = [] ∧ fp = [] then none
  else some ((decVal (ip ++ fp) : ℚ) * (10 : ℚ) ^ (stod_exp 'e' 'E' s4 - (fp.length : Int)))

/-- The text begins with a hexadecimal number: `0x` or `0X` and then a hexadecimal digit, or a
point followed by one. -/
def is_hex (s : Str) : Bool :=
  match s with
  | z :: x :: c :: r =>
    z == '0' && (x == 'x' || x == 'X') &&
      (isxdigit c || (c == '.' && (match r with
        | [] => false
        | d :: _ => isxdigit d)))
  | _ => false

/-- The magnitude of the hexadecimal number at the head of `s`, where `is_hex s`: hexadecimal
digits with at most one point, and an optional binary exponent. -/
def hex_number (s : Str) : ℚ :=
  let t := s.drop 2
  let ip := t.takeWhile isxdigit
  let s3 := t.dropWhile isxdigit
  let fp := if s3.head? = some '.' then s3.tail.takeWhile isxdigit else []
  let s4 := if s3.head? = some '.' then s3.tail.dropWhile isxdigit else s3
  (hexVal (ip ++ fp) : ℚ) * (2 : ℚ) ^ (stod_exp 'p' 'P' s4 - 4 * (fp.length : Int))

/-- The range error of `strtod` (`ERANGE`) for text of exact value `q`: the rounded value
overflows, or it is below the least normal magnitude `2 ^ (-1022)` and not exact. -/
def range_error (q : ℚ) : Bool :=
  decide (q ≠ 0) &&
    (decide (Dbl.round q = .pinf) || decide (Dbl.round q = .ninf) ||
      (decide (|round_at (ilog2 |q|) q| < (2 : ℚ) ^ (-1022 : Int)) &&
        decide (Dbl.round q ≠ .fin q)))

/-- The library function `std::stod`: leading whitespace is skipped, then an optional sign and
the longest number are read (`inf` or `nan` in any letter case, a hexadecimal number, or a
decimal number); whatever follows is left unread.  `none` is the exception thrown when no
conversion can be performed (`std::invalid_argument`) or when `strtod` reports a range error
(`std::out_of_range`). -/
def stod (s : Str) : Option Dbl :=
  let s1 := s.dropWhile isspace
  let neg : Bool := s1.head? = some '-'
  let s2 := if s1.head? = some '-' ∨ s1.head? = some '+' then s1.tail else s1
  if starts_word "inf".toList s2 = true then some (if neg then .ninf else .pinf)
  else if starts_word "nan".toList s2 = true then some .nan
  else
    match (if is_hex s2 = true then some (hex_number s2) else dec_number s2) with
    | none => none
    | some m =>
      let q : ℚ := if neg then -m else m
      if range_error q = true then none else some (Dbl.round q)

/-- The text begins with a number that `strtod` reads: after an optional sign comes a digit, a
decimal point followed by a digit, or one of the words `inf` and `nan`. -/
def starts_number (t : Str) : Bool :=
  match (if t.head? = some '-' ∨ t.head? = some '+' then t.tail else t) with
  | [] => false
  | c :: r =>
    isdigit c || (c == '.' && (match r with
      | [] => false
      | d :: _ => isdigit d)) || starts_word "inf".toList (c :: r) || starts_word "nan".toList (c :: r)

/-- The function `to_double`: `some x` when it returns true with `out = x`, `none` when it returns
false (and leaves `out` as it was). -/
def to_double (s : Str) : Option Dbl :=
  let t := trim s
  if t = [] then none else stod t

/-- Rounding to the nearest integer, halves away from zero. -/
def round_half_away (x : ℚ) : Int :=
  if 0 ≤ x then ⌊x + 1 / 2⌋ else -⌊-x + 1 / 2⌋

/-- The library function `std::lround`, with a 64-bit `long`: the nearest integer, halves away
from zero.  For an infinity, NaN, or a value that rounds outside `long`, the result is left
unspecified by the library; it is `LONG_MIN` here, as on x86-64. -/
def lround (x : Dbl) : Int :=
  match x with
  | .fin q =>
    if -(2 : Int) ^ 63 ≤ round_half_away q ∧ round_half_away q < (2 : Int) ^ 63 then
      round_half_away q
    else -(2 : Int) ^ 63
  | _ => -(2 : Int) ^ 63

/-- The cast `(int)` of a `long` to the 32-bit `int`: the value modulo `2 ^ 32`, taken in
`[-2 ^ 31, 2 ^ 31)`. -/
def to_int32 (n : Int) : Int :=
  (n + 2 ^ 31) % 2 ^ 32 - 2 ^ 31

/-- The function `to_int`. -/
def to_int (s : Str) : Option Int :=
  let t := trim s
  if t = [] then none else (stod t).map fun x => to_int32 (lround x)

/-- Rounding to the nearest integer with halves away from zero, in the words of the
specification: `n` is nearer to `x` than any other integer, or `n` is one of the two integers
at distance one half and the one farther from zero. -/
def rounds_half_away (x : ℚ) (n : Int) : Prop :=
  |(n : ℚ) - x| < 1 / 2 ∨ (|(n : ℚ) - x| = 1 / 2 ∧ |x| < |(n : ℚ)|)


/-! ## Sorting -/

/-- The comparator `comp` is a strict weak order on the elements of `l`: it is irreflexive and
transitive, and so is the incomparability it induces. -/
def strict_weak_on {α : Type} (comp : α → α → Bool) (l : List α) : Prop :=
  (∀ a ∈ l, comp a a = false)
    ∧ (∀ a ∈ l, ∀ b ∈ l, ∀ c ∈ l, comp a b = true → comp b c = true → comp a c = true)
    ∧ (∀ a ∈ l, ∀ b ∈ l, ∀ c ∈ l, comp a b = false → comp b a = false →
        comp b c = false → comp c b = false → comp a c = false ∧ comp c a = false)

/-- The library contract of `std::sort(first, last, comp)`: when `comp` is a strict weak order
on the elements, the result is a rearrangement of the input in which no element precedes one
that `comp` puts before it.  The order of equivalent elements is left open, and so is the whole
result when the comparator is no strict weak order on the data. -/
structure StdSort (α : Type) (comp : α → α → Bool) where
  run : List α → List α
  perm : ∀ l, strict_weak_on comp l → (run l).Perm l
  sorted : ∀ l, strict_weak_on comp l → (run l).Pairwise (fun a b => comp b a = false)

/-- The loop `std::__unguarded_linear_insert` of libstdc++, on the sorted range given back to
front: `val` moves ahead of every element that `comp` puts after it. -/
def linear_insert {α : Type} (comp : α → α → Bool) (val : α) : List α → List α
  | [] => [val]
  | x :: r => if comp val x = true then x :: linear_insert comp val r else val :: x :: r

/-- One round of `std::__insertion_sort` of libstdc++, on the sorted range `done` given back to
front: an element that `comp` puts before the first one moves to the front, any other element is
inserted from the back. -/
def insertion_step {α : Type} (comp : α → α → Bool) (done : List α) (x : α) : List α :=
  match done.getLast? with
  | none => [x]
  | some first => if comp x first = true then done ++ [x] else linear_insert comp x done

/-- The function `std::__insertion_sort` of libstdc++, which is what `std::sort` performs on a
range of at most 16 elements. -/
def insertion_sort {α : Type} (comp : α → α → Bool) (l : List α) : List α :=
  (l.foldl (insertion_step comp) []).reverse

/-- A conforming `std::sort`: insertion sort. -/
def insertion_std_sort {α : Type} (comp : α → α → Bool) : StdSort α comp where
  run := insertion_sort comp
  perm := fun l _ => by
    have h1 : ∀ (val : α) (d : List α), (linear_insert comp val d).Perm (val :: d) := by
      intro val d
      induction d with
      | nil => simp [linear_insert]
      | cons x r ih =>
        simp only [linear_insert]
        split
        · exact (List.Perm.cons x ih).trans (List.Perm.swap val x r)
        · exact List.Perm.refl _
    have h2 : ∀ (d : List α) (x : α), (insertion_step comp d x).Perm (x :: d) := by
      intro d x
      unfold insertion_step
      split
      · next h =>
        rw [List.getLast?_eq_none_iff] at h
        subst h
        exact List.Perm.refl _
      · split
        · exact List.perm_append_singleton x d
        · exact h1 x d
    have h3 : ∀ (r d : List α), (r.foldl (insertion_step comp) d).Perm (d ++ r) := by
      intro r
      induction r with
      | nil => intro d; simp
      | cons x r ih =>
        intro d
        simp only [List.foldl_cons]
        refine (ih _).trans ?_
        refine ((h2 d x).append_right r).trans ?_
        simpa using (@List.perm_middle _ x d r).symm
    unfold insertion_sort
    exact (List.reverse_perm _).trans (by simpa using h3 l [])
  sorted := fun l hswo => by
    obtain ⟨hirr, htr, heq⟩ := hswo
    have hasym : ∀ a ∈ l, ∀ b ∈ l, comp a b = true → comp b a = false := by
      intro a ha b hb hab
      cases hba : comp b a
      · rfl
      · have := htr a ha b hb a ha hab hba
        rw [hirr a ha] at this
        exact absurd this (by simp)
    have hneg : ∀ a ∈ l, ∀ b ∈ l, ∀ c ∈ l, comp a b = false → comp b c = false →
        comp a c = false := by
      intro a ha b hb c hc hab hbc
      cases hac : comp a c
      · rfl
      · have hcb : comp c b = false := by
          cases hcb : comp c b
          · rfl
          · have := htr a ha c hc b hb hac hcb
            rw [hab] at this
            exact absurd this (by simp)
        have hba : comp b a = false := by
          cases hba : comp b a
          · rfl
          · have := htr b hb a ha c hc hba hac
            rw [hbc] at this
            exact absurd this (by simp)
        have := (heq a ha b hb c hc hab hba hbc hcb).1
        rw [hac] at this
        exact absurd this (by simp)
    have h1 : ∀ (val : α) (d : List α), (linear_insert comp val d).Perm (val :: d) := by
      intro val d
      induction d with
      | nil => simp [linear_insert]
      | cons x r ih =>
        simp only [linear_insert]
        split
        · exact (List.Perm.cons x ih).trans (List.Perm.swap val x r)
        · exact List.Perm.refl _
    have h4 : ∀ (val : α) (d : List α), val ∈ l → (∀ a ∈ d, a ∈ l) →
        d.Pairwise (fun a b => comp a b = false) →
        (linear_insert comp val d).Pairwise (fun a b => comp a b = false) := by
      intro val d hval
      induction d with
      | nil => intro _ _; simp [linear_insert]
      | cons x r ih =>
        intro hd hp
        have hx : x ∈ l := hd x (List.mem_cons_self _ _)
        have hr : ∀ a ∈ r, a ∈ l := fun a ha => hd a (List.mem_cons_of_mem _ ha)
        rw [List.pairwise_cons] at hp
        simp only [linear_insert]
        split
        · next hc =>
          rw [List.pairwise_cons]
          refine ⟨?_, ih hr hp.2⟩
          intro y hy
          rcases List.mem_cons.mp ((h1 val r).subset hy) with rfl | hy2
          · exact hasym _ hval x hx hc
          · exact hp.1 y hy2
        · next hc =>
          have hc2 : comp val x = false := by simpa using hc
          rw [List.pairwise_cons]
          refine ⟨?_, List.pairwise_cons.mpr hp⟩
          intro y hy
          rcases List.mem_cons.mp hy with rfl | hy2
          · exact hc2
          · exact hneg val hval x hx y (hr y hy2) hc2 (hp.1 y hy2)
    have h5 : ∀ (d : List α) (x : α), x ∈ l → (∀ a ∈ d, a ∈ l) →
        d.Pairwise (fun a b => comp a b = false) →
        (insertion_step comp d x).Pairwise (fun a b => comp a b = false)
          ∧ ∀ a ∈ insertion_step comp d x, a ∈ l := by
      intro d x hx hd hp
      unfold insertion_step
      split
      · refine ⟨by simp, ?_⟩
        intro a ha
        rcases List.mem_singleton.mp ha with rfl
        exact hx
      · next first hf =>
        have hfm : first ∈ d := List.mem_of_getLast?_eq_some hf
        split
        · next hc =>
          refine ⟨?_, ?_⟩
          · rw [List.pairwise_append]
            refine ⟨hp, by simp, ?_⟩
            intro a ha b hb
            rcases List.mem_singleton.mp hb with rfl
            cases hab : comp a b
            · rfl
            · have haf : comp a first = true := htr a (hd a ha) b hx first (hd _ hfm) hab hc
              obtain ⟨pre, rfl⟩ : ∃ pre, d = pre ++ [first] := by
                have hne : d ≠ [] := List.ne_nil_of_mem hfm
                refine ⟨d.dropLast, ?_⟩
                have := List.dropLast_append_getLast hne
                rw [List.getLast?_eq_getLast _ hne] at hf
                rw [Option.some.inj hf] at this
                exact this.symm
              rw [List.pairwise_append] at hp
              rcases List.mem_append.mp ha with ha1 | ha2
              · have := hp.2.2 a ha1 first (List.mem_singleton_self _)
                rw [haf] at this
                exact absurd this (by simp)
              · rcases List.mem_singleton.mp ha2 with rfl
                rw [hirr _ (hd _ hfm)] at haf
                exact absurd haf (by simp)
          · intro a ha
            rcases List.mem_append.mp ha with h | h
            · exact hd a h
            · rcases List.mem_singleton.mp h with rfl
              exact hx
        · refine ⟨h4 x d hx hd hp, ?_⟩
          intro a ha
          rcases List.mem_cons.mp ((h1 x d).subset ha) with rfl | h
          · exact hx
          · exact hd a h
    have h6 : ∀ (r d : List α), (∀ a ∈ r, a ∈ l) → (∀ a ∈ d, a ∈ l) →
        d.Pairwise (fun a b => comp a b = false) →
        (r.foldl (insertion_step comp) d).Pairwise (fun a b => comp a b = false) := by
      intro r
      induction r with
      | nil => intro d _ _ hp; simpa using hp
      | cons x r ih =>
        intro d hr hd hp
        simp only [List.foldl_cons]
        have := h5 d x (hr x (List.mem_cons_self _ _)) hd hp
        exact ih _ (fun a ha => hr a (List.mem_cons_of_mem _ ha)) this.2 this.1
    unfold insertion_sort
    rw [List.pairwise_reverse]
    exact h6 l [] (fun a ha => ha) (by simp) List.Pairwise.nil


/-! ## Median -/

/-- The comparator `operator<` of `std::sort(v.begin(), v.end())` on doubles. -/
abbrev DblSort := StdSort Dbl Dbl.lt

/-- A conforming `std::sort` on doubles: insertion sort. -/
def insertionDblSort : DblSort := insertion_std_sort Dbl.lt

/-- The function `median_inplace`; only the returned value is modelled (the sorted vector is not
read again by the caller). -/
def median_inplace (D : DblSort) (v : List Dbl) : Dbl :=
  if v = [] then 0
  else
    let s := D.run v
    let n := v.length
    if n % 2 = 1 then s.getD (n / 2) 0
    else (s.getD (n / 2 - 1) 0 + s.getD (n / 2) 0) / 2

/-! ## Records -/

/-- The struct `Listing`, with its default member initialisers. -/
structure Listing where
  scraped_at : Str := []
  url : Str := []
  price_eur : Int := 0
  eur_per_m2 : Dbl := 0
  rooms : Int := -1
  area_m2 : Dbl := -1
  irengtas : Int := 0
  location : Str := []
  street : Str := []
  deriving DecidableEq

/-- The struct `Scored`. -/
structure Scored where
  deal : Dbl := 0
  street_median : Dbl := 0
  street_n : Int := 0
  it : Listing := {}
  key : Str := []
  deriving DecidableEq

/-! ## Maps -/

/-- A `std::unordered_map` keyed by strings. -/
abbrev Map (V : Type) := List (Str × V)

/-- The call `m.find(k)`: the mapped value, or `none` for `m.end()`. -/
def Map.find {V : Type} (m : Map V) (k : Str) : Option V :=
  match m with
  | [] => none
  | (k1, v) :: r => if k1 = k then some v else Map.find r k

/-- The assignment `m[k] = v`. -/
def Map.set {V : Type} (m : Map V) (k : Str) (v : V) : Map V :=
  match m with
  | [] => [(k, v)]
  | (k1, v1) :: r => if k1 = k then (k, v) :: r else (k1, v1) :: Map.set r k v


/-! ## Top-N buffer -/

/-- The comparator of `push_best`: `a.deal > b.deal`. -/
def deal_gt (a b : Scored) : Bool := decide (a.deal > b.deal)

/-- The library contract of `std::sort(best.begin(), best.end(), comp)` with
`comp(a, b) = a.deal > b.deal`. -/
abbrev DealSort := StdSort Scored deal_gt

/-- A conforming sort of the buffer: insertion sort. -/
def insertionDealSort : DealSort := insertion_std_sort deal_gt

/-- The lambda `push_best`, on the buffer `best` with the configured `top_n`. -/
def push_best (S : DealSort) (top_n : Int) (best : List Scored) (s : Scored) : List Scored :=
  let b := S.run (best ++ [s])
  if (b.length : Int) > top_n then b.take top_n.toNat else b

/-- Offering a sequence of entries one by one to an initially empty buffer. -/
def push_all (S : DealSort) (top_n : Int) (xs : List Scored) : List Scored :=
  xs.foldl (push_best S top_n) []

/-! ## Reference pass -/

/-- The element `flds[i]`; `none` when `i` is outside the vector. -/
def fieldAt (flds : List Str) (i : Int) : Option Str :=
  if 0 ≤ i then flds[i.toNat]? else none

/-- The grouping key `street_only ? st : (loc + " | " + st)`. -/
def grouping_key (street_only : Bool) (loc st : Str) : Str :=
  if street_only then st else loc ++ [' ', '|', ' '] ++ st

/-- The variables of the reference loop: `by_key_vals`, `by_key_count`, `market_rows`. -/
structure RefState where
  by_key_vals : Map (List Dbl) := []
  by_key_count : Map Int := []
  market_rows : Int := 0

/-- The body of the reference loop of `main` for one line; `some st` unchanged is `continue`. -/
def ref_row (i_eur i_loc i_st : Int) (street_only : Bool) (st : RefState) (line : Str) :
    Option RefState :=
  if trim line = [] then some st
  else
    let flds := parse_csv_line line
    if (flds.length : Int) ≤ max i_eur (max i_loc i_st) then some st
    else
      (fieldAt flds i_eur).bind fun fe =>
      match to_double fe with
      | none => some st
      | some eur =>
        if eur ≤ 0 then some st
        else
          (fieldAt flds i_loc).bind fun floc =>
          (fieldAt flds i_st).bind fun fst =>
          let loc := norm_space floc
          let street := norm_space fst
          if street = [] then some st
          else
            let key := grouping_key street_only loc street
            some
              { by_key_vals :=
                  st.by_key_vals.set key ((st.by_key_vals.find key).getD [] ++ [eur])
                by_key_count := st.by_key_count.set key ((st.by_key_count.find key).getD 0 + 1)
                market_rows := st.market_rows + 1 }

/-- The lookup tables `key_median` and `key_n`. -/
structure Tables where
  key_median : Map Dbl := []
  key_n : Map Int := []
  deriving DecidableEq

/-- One iteration of the finalization loop of `main`, for the entry `kv` of `by_key_vals`. -/
def finalize_step (D : DblSort) (min_street_n : Int) (t : Tables) (kv : Str × List Dbl) :
    Tables :=
  let n : Int := kv.2.length
  if n < min_street_n then t
  else { key_median := t.key_median.set kv.1 (median_inplace D kv.2), key_n := t.key_n.set kv.1 n }

/-- The finalization loop of `main` over `by_key_vals`. -/
def finalize (D : DblSort) (min_street_n : Int) (by_key_vals : Map (List Dbl)) : Tables :=
  by_key_vals.foldl (finalize_step D min_street_n) {}

/-- The reference pass of `main` over the data lines, with the resolved column indices. -/
def reference_pass (D : DblSort) (i_eur i_loc i_st : Int) (street_only : Bool)
    (min_street_n : Int) (lines : List Str) : Option Tables :=
  (lines.foldlM (ref_row i_eur i_loc i_st street_only) {}).map
    fun st => finalize D min_street_n st.by_key_vals

/-- An accepted reference row: the line is not blank, has enough fields, its price-per-area
parses to a value that is not `<= 0`, and its street normalizes to a non-empty string.  The
result is the row's grouping key and price-per-area. -/
def accepted_row (i_eur i_loc i_st : Int) (street_only : Bool) (line : Str) :
    Option (Str × Dbl) :=
  let flds := parse_csv_line line
  if trim line ≠ [] ∧ max i_eur (max i_loc i_st) < (flds.length : Int) then
    match to_double (flds.getD i_eur.toNat []) with
    | none => none
    | some eur =>
      if ¬ (eur ≤ 0) ∧ norm_space (flds.getD i_st.toNat []) ≠ [] then
        some (grouping_key street_only (norm_space (flds.getD i_loc.toNat []))
          (norm_space (flds.getD i_st.toNat [])), eur)
      else none
  else none

/-- The price-per-area values of the accepted reference rows with grouping key `k`, in input
order. -/
def accepted_values (i_eur i_loc i_st : Int) (street_only : Bool) (lines : List Str) (k : Str) :
    List Dbl :=
  ((lines.filterMap (accepted_row i_eur i_loc i_st street_only)).filter
    (fun kv => decide (kv.1 = k))).map Prod.snd

/-- The price-per-area values of the reference rows with grouping key `k` that are accepted in
the words of the specification: the row is not blank, has enough fields, its price-per-area
parses and is `> 0`, and its street normalizes to a non-empty string. -/
def positive_values (i_eur i_loc i_st : Int) (street_only : Bool) (lines : List Str) (k : Str) :
    List Dbl :=
  ((lines.filterMap fun line =>
      let flds := parse_csv_line line
      if trim line ≠ [] ∧ max i_eur (max i_loc i_st) < (flds.length : Int) then
        match to_double (flds.getD i_eur.toNat []) with
        | none => none
        | some eur =>
          if 0 < eur ∧ norm_space (flds.getD i_st.toNat []) ≠ [] then
            some (grouping_key street_only (norm_space (flds.getD i_loc.toNat []))
              (norm_space (flds.getD i_st.toNat [])), eur)
          else none
      else none).filter
    (fun kv => decide (kv.1 = k))).map Prod.snd

/-! ## Candidate pass -/

/-- The run parameters and tables read by the candidate loop: the resolved column indices
(`-1` for an absent column), the grouping mode, `top_n` and the two lookup tables. -/
structure CandCfg where
  in_scr : Int
  in_url : Int
  in_price : Int
  in_eur : Int
  in_rooms : Int
  in_area : Int
  in_ir : Int
  in_loc : Int
  in_st : Int
  street_only : Bool
  top_n : Int
  key_median : Map Dbl
  key_n : Map Int

/-- The variables of the candidate loop: `best`, `in_rows`, `scored_rows`. -/
structure CandState where
  best : List Scored := []
  in_rows : Int := 0
  scored_rows : Int := 0

/-- The guarded read of an optional column,
`if (i >= 0 && i < (int)flds.size()) parse(flds[i], out)`: the new value of `out`, which stays
as it was when the column is absent or the parser returns false. -/
def opt_field {α : Type} (flds : List Str) (i : Int) (parse : Str → Option α) (out : α) :
    Option α :=
  if 0 ≤ i ∧ i < (flds.length : Int) then (fieldAt flds i).map fun f => (parse f).getD out
  else some out

/-- The body of the candidate loop of `main` for one line.  The read `key_n[key]` is the mapped
count, or `0` for a key that `key_n` does not hold. -/
def cand_row (S : DealSort) (c : CandCfg) (st : CandState) (line : Str) : Option CandState :=
  if trim line = [] then some st
  else
    let flds := parse_csv_line line
    if (flds.length : Int) ≤ max c.in_url (max c.in_eur (max c.in_loc c.in_st)) then some st
    else
      (if 0 ≤ c.in_scr ∧ c.in_scr < (flds.length : Int) then fieldAt flds c.in_scr
        else some []).bind fun scraped_at =>
      (fieldAt flds c.in_url).bind fun url =>
      (fieldAt flds c.in_eur).bind fun fe =>
      match to_double fe with
      | none => some st
      | some eur =>
        if eur ≤ 0 then some st
        else
          (fieldAt flds c.in_loc).bind fun floc =>
          (fieldAt flds c.in_st).bind fun fst =>
          let location := norm_space floc
          let street := norm_space fst
          if street = [] then some { st with in_rows := st.in_rows + 1 }
          else
            (opt_field flds c.in_price to_int 0).bind fun price_eur =>
            (opt_field flds c.in_rooms to_int (-1)).bind fun rooms =>
            (opt_field flds c.in_area to_double (-1)).bind fun area_m2 =>
            (opt_field flds c.in_ir to_int 0).bind fun irengtas =>
            let it : Listing :=
              { scraped_at := scraped_at, url := url, price_eur := price_eur, eur_per_m2 := eur,
                rooms := rooms, area_m2 := area_m2, irengtas := irengtas, location := location,
                street := street }
            let key := grouping_key c.street_only location street
            match c.key_median.find key with
            | none => some { st with in_rows := st.in_rows + 1 }
            | some med =>
              let s : Scored :=
                { deal := med / eur, street_median := med,
                  street_n := (c.key_n.find key).getD 0, it := it, key := key }
              some
                { best := push_best S c.top_n st.best s
                  in_rows := st.in_rows + 1
                  scored_rows := st.scored_rows + 1 }

/-- The entry `s` that the candidate loop body builds and offers for a row with fields `flds`,
parsed price-per-area `eur` and looked-up median `med`, as a function of its own (the theorem
`cand_row_eq` shows that `cand_row` offers exactly this entry). -/
def scored_entry (c : CandCfg) (flds : List Str) (eur med : Dbl) : Scored :=
  { deal := med / eur
    street_median := med
    street_n := (c.key_n.find (grouping_key c.street_only
      (norm_space (flds.getD c.in_loc.toNat [])) (norm_space (flds.getD c.in_st.toNat [])))).getD 0
    it :=
      { scraped_at :=
          if 0 ≤ c.in_scr ∧ c.in_scr < (flds.length : Int) then flds.getD c.in_scr.toNat []
          else []
        url := flds.getD c.in_url.toNat []
        price_eur :=
          if 0 ≤ c.in_price ∧ c.in_price < (flds.length : Int) then
            (to_int (flds.getD c.in_price.toNat [])).getD 0
          else 0
        eur_per_m2 := eur
        rooms :=
          if 0 ≤ c.in_rooms ∧ c.in_rooms < (flds.length : Int) then
            (to_int (flds.getD c.in_rooms.toNat [])).getD (-1)
          else -1
        area_m2 :=
          if 0 ≤ c.in_area ∧ c.in_area < (flds.length : Int) then
            (to_double (flds.getD c.in_area.toNat [])).getD (-1)
          else -1
        irengtas :=
          if 0 ≤ c.in_ir ∧ c.in_ir < (flds.length : Int) then
            (to_int (flds.getD c.in_ir.toNat [])).getD 0
          else 0
        location := norm_space (flds.getD c.in_loc.toNat [])
        street := norm_space (flds.getD c.in_st.toNat []) }
    key := grouping_key c.street_only
      (norm_space (flds.getD c.in_loc.toNat [])) (norm_space (flds.getD c.in_st.toNat [])) }

/-- A scored candidate: the line passes the required-field checks of the candidate loop (not
blank, enough fields, a price-per-area `eur` that parses and is not `<= 0`, non-empty normalized
street) and `key_median` holds the median `med` for its grouping key. -/
def scorable (c : CandCfg) (line : Str) (eur med : Dbl) : Prop :=
  trim line ≠ []
    ∧ max c.in_url (max c.in_eur (max c.in_loc c.in_st)) < ((parse_csv_line line).length : Int)
    ∧ to_double ((parse_csv_line line).getD c.in_eur.toNat []) = some eur
    ∧ ¬ (eur ≤ 0)
    ∧ norm_space ((parse_csv_line line).getD c.in_st.toNat []) ≠ []
    ∧ c.key_median.find (grouping_key c.street_only
        (norm_space ((parse_csv_line line).getD c.in_loc.toNat []))
        (norm_space ((parse_csv_line line).getD c.in_st.toNat []))) = some med

/-! ## Header resolution and the run -/

/-- The loop `idx[trim(header[i])] = i` over the header fields. -/
def build_idx (header : List Str) : Map Int :=
  header.enum.foldl (fun m p => m.set (trim p.2) (p.1 : Int)) []

/-- The lambdas `need` and `in_need`: the column index, or `-1` for an absent column. -/
def need (idx : Map Int) (col : Str) : Int :=
  match idx.find col with
  | none => -1
  | some i => i

/-- The candidate loop of `main` over the data lines of the standard input. -/
def candidate_pass (S : DealSort) (c : CandCfg) (lines : List Str) : Option CandState :=
  lines.foldlM (cand_row S c) {}

/-- What a run of `main` leaves behind: the exit status, and the vector `top` handed to
`write_top` (`none` when `write_top` is not called). -/
structure Outcome where
  exit_code : Int
  report : Option (List Scored)
  deriving DecidableEq

/-- The resolution of the candidate header by `in_need`, together with the run parameters and
the tables that the candidate loop reads. -/
def candidate_cfg (in_header_line : Str) (street_only : Bool) (top_n : Int) (t : Tables) :
    CandCfg :=
  let in_idx := build_idx (parse_csv_line in_header_line)
  { in_scr := need in_idx "scraped_at".toList
    in_url := need in_idx "url".toList
    in_price := need in_idx "price_eur".toList
    in_eur := need in_idx "eur_per_m2".toList
    in_rooms := need in_idx "rooms".toList
    in_area := need in_idx "area_m2".toList
    in_ir := need in_idx "irengtas".toList
    in_loc := need in_idx "location".toList
    in_st := need in_idx "street".toList
    street_only := street_only
    top_n := top_n
    key_median := t.key_median
    key_n := t.key_n }

/-- The function `main` after argument parsing, on the lines of the reference file (`none`
when the file cannot be opened) and the lines of the standard input, as `std::getline`
delivers them.  The result `none` is a read outside a vector. -/
def main_run (S : DealSort) (D : DblSort) (street_only : Bool) (min_street_n top_n : Int)
    (market : Option (List Str)) (input : List Str) : Option Outcome :=
  match market with
  | none => some { exit_code := 3, report := none }
  | some [] => some { exit_code := 4, report := none }
  | some (header_line :: lines) =>
    let idx := build_idx (parse_csv_line header_line)
    let i_eur := need idx "eur_per_m2".toList
    let i_loc := need idx "location".toList
    let i_st := need idx "street".toList
    if i_eur < 0 ∨ i_loc < 0 ∨ i_st < 0 then some { exit_code := 5, report := none }
    else
      (reference_pass D i_eur i_loc i_st street_only min_street_n lines).bind fun t =>
      match input with
      | [] => some { exit_code := 6, report := none }
      | in_header_line :: rows =>
        let c := candidate_cfg in_header_line street_only top_n t
        if c.in_url < 0 ∨ c.in_eur < 0 ∨ c.in_loc < 0 ∨ c.in_st < 0 then
          some { exit_code := 7, report := none }
        else
          (candidate_pass S c rows).bind fun cs =>
          if cs.best = [] then some { exit_code := 8, report := none }
          else some { exit_code := 0, report := some cs.best }

/-! ## Sample data -/

/-- A candidate header `url,eur_per_m2,location,street` with no optional column, the default
grouping mode, `top_n = 3` and a table holding one group. -/
def sample_cfg : CandCfg where
  in_scr := -1
  in_url := 0
  in_price := -1
  in_eur := 1
  in_rooms := -1
  in_area := -1
  in_ir := -1
  in_loc := 2
  in_st := 3
  street_only := false
  top_n := 3
  key_median := [("Town | Oak".toList, 1200)]
  key_n := [("Town | Oak".toList, 5)]

/-- A state of the candidate loop with one scored row. -/
def sample_state : CandState where
  best := [{ deal := 2, street_median := 1200, street_n := 5, key := "Town | Oak".toList }]
  in_rows := 4
  scored_rows := 1

/-- The candidate header `url,eur_per_m2,location,street,rooms,area_m2`: two of the optional
columns are present, the other three are absent. -/
def sample_cfg_opt : CandCfg :=
  { sample_cfg with in_rooms := 4, in_area := 5 }

/-- The reference file of the end-to-end scenario: five rows on street `Oak` in `Town`. -/
def oak_market : List Str :=
  ["eur_per_m2,location,street".toList, "1000,Town,Oak".toList, "1100,Town,Oak".toList,
    "1200,Town,Oak".toList, "1300,Town,Oak".toList, "1400,Town,Oak".toList]

/-- The candidate header of the end-to-end scenario. -/
def oak_header : Str := "url,eur_per_m2,location,street".toList

/-- The candidate of the end-to-end scenario priced at 800. -/
def oak_row_800 : Str := "u1,800,Town,Oak".toList

/-- The candidate of the end-to-end scenario priced at 1150. -/
def oak_row_1150 : Str := "u2,1150,Town,Oak".toList

/-- The entry expected for the candidate priced at 800. -/
def oak_entry_800 : Scored :=
  { deal := 3 / 2
    street_median := 1200
    street_n := 5
    it := { url := "u1".toList, eur_per_m2 := 800, location := "Town".toList,
            street := "Oak".toList }
    key := "Town | Oak".toList }

/-- The run parameters of the end-to-end scenario after header resolution and the reference
pass: default grouping, `top_n = 1`, one group with median 1200 and count 5. -/
def oak_cfg : CandCfg :=
  { sample_cfg with top_n := 1 }

/-- The run parameters of a candidate pass against a table holding one group with median 950
and count 1. -/
def near_cfg : CandCfg :=
  { sample_cfg with key_median := [("Town | Oak".toList, 950)],
                    key_n := [("Town | Oak".toList, 1)] }

/-- A candidate priced 3777.5420537981086. -/
def near_row_low : Str := "u1,3777.5420537981086,Town,Oak".toList

/-- A candidate priced 3777.542053798109, the next double after 3777.5420537981086. -/
def near_row_high : Str := "u2,3777.542053798109,Town,Oak".toList


/-! ## Maps: lemmas -/

/-- Reading a map after the assignment `m[k] = v`. -/
theorem Map.find_set {V : Type} (m : Map V) (k k2 : Str) (v : V) :
    (m.set k v).find k2 = if k = k2 then some v else m.find k2 := by
  induction m with
  | nil => simp [Map.set, Map.find]
  | cons kv r ih =>
    obtain ⟨k1, v1⟩ := kv
    by_cases h1 : k1 = k
    · subst h1
      by_cases h2 : k1 = k2 <;> simp [Map.set, Map.find, h2]
    · by_cases h2 : k1 = k2
      · subst h2
        simp [Map.set, Map.find, h1, Ne.symm h1]
      · simp [Map.set, Map.find, h1, h2, ih]

/-- The keys after the assignment `m[k] = v`. -/
theorem Map.mem_keys_set {V : Type} (m : Map V) (k k2 : Str) (v : V) :
    k2 ∈ (m.set k v).map Prod.fst ↔ k2 = k ∨ k2 ∈ m.map Prod.fst := by
  induction m with
  | nil => simp [Map.set]
  | cons kv r ih =>
    obtain ⟨k1, v1⟩ := kv
    by_cases h1 : k1 = k
    · subst h1
      simp only [Map.set, if_true, List.map_cons, List.mem_cons]
      tauto
    · simp only [Map.set, h1, if_false, List.map_cons, List.mem_cons, ih]
      tauto

/-- The assignment `m[k] = v` keeps the keys distinct. -/
theorem Map.nodup_keys_set {V : Type} (m : Map V) (k : Str) (v : V)
    (h : (m.map Prod.fst).Nodup) : ((m.set k v).map Prod.fst).Nodup := by
  induction m with
  | nil => simp [Map.set]
  | cons kv r ih =>
    obtain ⟨k1, v1⟩ := kv
    simp only [List.map_cons, List.nodup_cons] at h
    by_cases h1 : k1 = k
    · subst h1
      simp only [Map.set, if_true, List.map_cons, List.nodup_cons]
      exact h
    · simp only [Map.set, h1, if_false, List.map_cons, List.nodup_cons]
      refine ⟨?_, ih h.2⟩
      rw [Map.mem_keys_set]
      rintro (h2 | h2)
      · exact h1 h2
      · exact h.1 h2

/-- A key that the map does not hold is not found. -/
theorem Map.find_eq_none {V : Type} (m : Map V) (k : Str) (h : k ∉ m.map Prod.fst) :
    m.find k = none := by
  induction m with
  | nil => rfl
  | cons kv r ih =>
    obtain ⟨k1, v1⟩ := kv
    simp only [List.map_cons, List.mem_cons, not_or] at h
    simp [Map.find, Ne.symm h.1, ih h.2]

/-! ## CSV tokenizer: lemmas -/

/-- One step of the tokenizer outside quotes. -/
theorem parse_loop_outside (c : Char) (rest cur : Str) (fields : List Str) :
    parse_loop (c :: rest) false cur fields
      = if c = '"' then parse_loop rest true cur fields
        else if c = ',' then parse_loop rest false [] (fields ++ [cur])
        else if c = '\r' ∨ c = '\n' then parse_loop rest false cur fields
        else parse_loop rest false (cur ++ [c]) fields := by
  cases rest <;> simp [parse_loop]

/-- Inside quotes a character other than the quote is appended. -/
theorem parse_loop_inside_char (c : Char) (rest cur : Str) (fields : List Str) (hc : c ≠ '"') :
    parse_loop (c :: rest) true cur fields = parse_loop rest true (cur ++ [c]) fields := by
  cases rest <;> simp [parse_loop, hc]

/-- Inside quotes a doubled quote appends one quote and consumes both characters. -/
theorem parse_loop_inside_doubled (rest cur : Str) (fields : List Str) :
    parse_loop ('"' :: '"' :: rest) true cur fields
      = parse_loop rest true (cur ++ ['"']) fields := by
  simp [parse_loop]

/-- Inside quotes a quote that is not followed by a quote leaves quote mode. -/
theorem parse_loop_inside_close (rest cur : Str) (fields : List Str)
    (ht : rest.head? ≠ some '"') :
    parse_loop ('"' :: rest) true cur fields = parse_loop rest false cur fields := by
  cases rest with
  | nil => simp [parse_loop]
  | cons d r =>
    have hd : d ≠ '"' := fun h => ht (by simp [h])
    simp [parse_loop, hd]

/-- Inside quotes the encoded body of a field, up to its closing quote, appends the field. -/
theorem parse_loop_quoted_body (f tail : Str) (cur : Str) (fields : List Str)
    (ht : tail.head? ≠ some '"') :
    parse_loop ((f.flatMap fun c => if c = '"' then ['"', '"'] else [c]) ++ '"' :: tail)
        true cur fields
      = parse_loop tail false (cur ++ f) fields := by
  induction f generalizing cur with
  | nil => simpa using parse_loop_inside_close tail cur fields ht
  | cons c f ih =>
    by_cases hc : c = '"'
    · subst hc
      simp only [List.flatMap_cons, if_true, List.cons_append, List.nil_append]
      rw [parse_loop_inside_doubled, ih]
      simp
    · simp only [List.flatMap_cons, hc, if_false, List.cons_append, List.nil_append]
      rw [parse_loop_inside_char _ _ _ _ hc, ih]
      simp

/-- A quoted field at the start of a field is decoded into `cur`. -/
theorem parse_loop_quote_field (f tail : Str) (fields : List Str)
    (ht : tail.head? ≠ some '"') :
    parse_loop (quote_field f ++ tail) false [] fields = parse_loop tail false f fields := by
  unfold quote_field
  simp only [List.cons_append, List.append_assoc, List.singleton_append, List.nil_append]
  rw [parse_loop_outside, if_pos rfl, parse_loop_quoted_body f tail [] fields ht]
  simp

/-- Tokenizing comma-joined quoted fields appends the fields. -/
theorem parse_loop_join_quoted (fs : List Str) (hne : fs ≠ []) (fields : List Str) :
    parse_loop (join_commas (fs.map quote_field)) false [] fields = fields ++ fs := by
  induction fs generalizing fields with
  | nil => exact absurd rfl hne
  | cons f rest ih =>
    cases rest with
    | nil =>
      have := parse_loop_quote_field f [] fields (by simp)
      simp only [List.append_nil] at this
      simp [join_commas, this, parse_loop]
    | cons g rest2 =>
      simp only [List.map_cons, join_commas]
      rw [parse_loop_quote_field f _ fields (by simp)]
      rw [parse_loop_outside, if_neg (by decide), if_pos rfl]
      have := ih (by simp) (fields ++ [f])
      simp only [List.map_cons] at this
      rw [this]
      simp

/-- C5: for every non-empty list of fields `fs`, whatever characters the fields contain,
encoding each field as a quoted field, joining with commas and tokenizing with `parse_csv_line`
returns exactly `fs`. -/
theorem parse_csv_line_quoted (fs : List Str) :
    fs ≠ [] → parse_csv_line (join_commas (fs.map quote_field)) = fs := by
  intro hne
  unfold parse_csv_line
  rw [parse_loop_join_quoted fs hne []]
  rfl

/-- C5 on the field `a"b`, encoded as `"a""b"`, next to a field holding a comma and a CR. -/
theorem parse_csv_line_quoted_witness :
    quote_field ['a', '"', 'b'] = ['"', 'a', '"', '"', 'b', '"']
      ∧ parse_csv_line ['"', 'a', '"', '"', 'b', '"'] = [['a', '"', 'b']]
      ∧ parse_csv_line (join_commas ([['a', '"', 'b'], [',', '\r']].map quote_field))
          = [['a', '"', 'b'], [',', '\r']] :=
  ⟨by decide, parse_csv_line_quoted [['a', '"', 'b']] (by decide),
    parse_csv_line_quoted [['a', '"', 'b'], [',', '\r']] (by decide)⟩


/-- Outside quotes, characters other than comma, quote, CR and LF are appended to `cur`. -/
theorem parse_loop_clean (f tail cur : Str) (fields : List Str)
    (hf : ∀ c ∈ f, c ≠ ',' ∧ c ≠ '"' ∧ c ≠ '\r' ∧ c ≠ '\n') :
    parse_loop (f ++ tail) false cur fields = parse_loop tail false (cur ++ f) fields := by
  induction f generalizing cur with
  | nil => simp
  | cons c f ih =>
    obtain ⟨h1, h2, h3, h4⟩ := hf c (List.mem_cons_self _ _)
    rw [List.cons_append, parse_loop_outside, if_neg h2, if_neg h1, if_neg (by simp [h3, h4]),
      ih _ (fun d hd => hf d (List.mem_cons_of_mem _ hd))]
    simp

/-- Tokenizing comma-joined fields free of comma, quote, CR and LF appends the fields. -/
theorem parse_loop_join_clean (fs : List Str) (hne : fs ≠ []) (fields : List Str)
    (hf : ∀ f ∈ fs, ∀ c ∈ f, c ≠ ',' ∧ c ≠ '"' ∧ c ≠ '\r' ∧ c ≠ '\n') :
    parse_loop (join_commas fs) false [] fields = fields ++ fs := by
  induction fs generalizing fields with
  | nil => exact absurd rfl hne
  | cons f rest ih =>
    cases rest with
    | nil =>
      have := parse_loop_clean f [] [] fields (hf f (List.mem_cons_self _ _))
      simp only [List.append_nil, List.nil_append] at this
      simp [join_commas, this, parse_loop]
    | cons g rest2 =>
      simp only [join_commas]
      rw [parse_loop_clean f _ [] fields (hf f (List.mem_cons_self _ _)), List.nil_append,
        parse_loop_outside, if_neg (by decide), if_pos rfl,
        ih (by simp) (fields ++ [f]) (fun f2 h2 => hf f2 (List.mem_cons_of_mem _ h2))]
      simp

/-- The tokenizer always returns at least one field. -/
theorem parse_loop_ne_nil (s : Str) (q : Bool) (cur : Str) (fields : List Str) :
    parse_loop s q cur fields ≠ [] := by
  induction s, q, cur, fields using parse_loop.induct with
  | case1 q cur fields => simp [parse_loop]
  | case2 cur fields ih => simp [parse_loop]
  | case3 cur fields rest2 ih => rw [parse_loop_inside_doubled]; exact ih
  | case4 cur fields d rest2 hd ih =>
    rw [parse_loop_inside_close _ _ _ (by simp [hd])]; exact ih
  | case5 c rest cur fields hc ih => rw [parse_loop_inside_char _ _ _ _ hc]; exact ih
  | case6 rest q cur fields hq ih =>
    have : q = false := by simpa using hq
    subst this
    rw [parse_loop_outside, if_pos rfl]; exact ih
  | case7 rest q cur fields hq _ ih =>
    have : q = false := by simpa using hq
    subst this
    rw [parse_loop_outside, if_neg (by decide), if_pos rfl]; exact ih
  | case8 c rest q cur fields hq h1 h2 h3 ih =>
    have : q = false := by simpa using hq
    subst this
    rw [parse_loop_outside, if_neg h1, if_neg h2, if_pos h3]; exact ih
  | case9 c rest q cur fields hq h1 h2 h3 ih =>
    have : q = false := by simpa using hq
    subst this
    rw [parse_loop_outside, if_neg h1, if_neg h2, if_neg h3]; exact ih

/-- C6, as stated, fails: the line `a,"b<CR>"` tokenizes to the fields `a` and `b<CR>`, neither
of which holds a comma or a quote, but the re-joined line `a,b<CR>` tokenizes to `a` and `b`,
because a CR outside quotes is dropped. -/
theorem parse_csv_line_rejoin_counterexample :
    (∀ f ∈ parse_csv_line ['a', ',', '"', 'b', '\r', '"'], ',' ∉ f ∧ '"' ∉ f)
      ∧ parse_csv_line (join_commas (parse_csv_line ['a', ',', '"', 'b', '\r', '"']))
          ≠ parse_csv_line ['a', ',', '"', 'b', '\r', '"'] := by
  decide

/-- C6, amended: for every line, if no field of `parse_csv_line line` contains a comma, a
double quote, a CR or an LF, then joining the fields with commas and tokenizing again returns
the same fields. -/
theorem parse_csv_line_rejoin (line : Str) :
    (∀ f ∈ parse_csv_line line, ∀ c ∈ f, c ≠ ',' ∧ c ≠ '"' ∧ c ≠ '\r' ∧ c ≠ '\n') →
    parse_csv_line (join_commas (parse_csv_line line)) = parse_csv_line line := by
  intro hf
  have hne : parse_csv_line line ≠ [] := parse_loop_ne_nil line false [] []
  have := parse_loop_join_clean (parse_csv_line line) hne [] hf
  simpa [parse_csv_line] using this

/-- C6, amended, on the line `x,"y z",<CR>`: three fields, the last one empty. -/
theorem parse_csv_line_rejoin_witness :
    (∀ f ∈ parse_csv_line ['x', ',', '"', 'y', ' ', 'z', '"', ',', '\r'],
        ∀ c ∈ f, c ≠ ',' ∧ c ≠ '"' ∧ c ≠ '\r' ∧ c ≠ '\n')
      ∧ parse_csv_line (join_commas (parse_csv_line ['x', ',', '"', 'y', ' ', 'z', '"', ',', '\r']))
          = [['x'], ['y', ' ', 'z'], []] :=
  ⟨by decide,
    (parse_csv_line_rejoin ['x', ',', '"', 'y', ' ', 'z', '"', ',', '\r'] (by decide)).trans
      (by decide)⟩

/-! ## Normalization: lemmas -/

/-- The second loop of `norm_space` appends `collapse prev s` to `out`. -/
theorem foldl_norm_step (s out : Str) (prev : Bool) :
    (s.foldl norm_step (out, prev)).1 = out ++ collapse prev s := by
  induction s generalizing out prev with
  | nil => simp [collapse]
  | cons c r ih =>
    rw [List.foldl_cons]
    have hstep : norm_step (out, prev) c
        = (if isspace c then (if !prev then out ++ [' '] else out) else out ++ [c], isspace c) :=
      rfl
    rw [hstep, ih]
    by_cases hc : isspace c = true
    · cases prev <;> simp [collapse, hc]
    · simp [collapse, hc]

/-- The function `norm_space` is: replace, collapse, trim. -/
theorem norm_space_eq (s : Str) : norm_space s = trim (collapse false (replace_nbsp s)) := by
  unfold norm_space
  simp only
  rw [foldl_norm_step]
  rfl

/-- Every character written by the second loop is an input character or a space. -/
theorem collapse_mem (p : Bool) (s : Str) (c : Char) (h : c ∈ collapse p s) :
    c ∈ s ∨ c = ' ' := by
  induction s generalizing p with
  | nil => simp [collapse] at h
  | cons a r ih =>
    unfold collapse at h
    by_cases ha : isspace a = true
    · cases p
      · simp only [ha, if_true, Bool.false_eq_true, if_false, List.mem_cons] at h
        rcases h with h | h
        · exact Or.inr h
        · rcases ih _ h with h2 | h2
          · exact Or.inl (List.mem_cons_of_mem _ h2)
          · exact Or.inr h2
      · simp only [ha, if_true] at h
        rcases ih _ h with h2 | h2
        · exact Or.inl (List.mem_cons_of_mem _ h2)
        · exact Or.inr h2
    · simp only [ha, if_false, List.mem_cons, Bool.false_eq_true] at h
      rcases h with h | h
      · exact Or.inl (h ▸ List.mem_cons_self _ _)
      · rcases ih _ h with h2 | h2
        · exact Or.inl (List.mem_cons_of_mem _ h2)
        · exact Or.inr h2

/-- The only whitespace character written by the second loop is the space. -/
theorem collapse_space (p : Bool) (s : Str) (c : Char) (h : c ∈ collapse p s)
    (hc : isspace c = true) : c = ' ' := by
  induction s generalizing p with
  | nil => simp [collapse] at h
  | cons a r ih =>
    unfold collapse at h
    by_cases ha : isspace a = true
    · cases p
      · simp only [ha, if_true, Bool.false_eq_true, if_false, List.mem_cons] at h
        rcases h with h | h
        · exact h
        · exact ih _ h
      · simp only [ha, if_true] at h
        exact ih _ h
    · simp only [ha, if_false, List.mem_cons, Bool.false_eq_true] at h
      rcases h with h | h
      · subst h; exact absurd hc ha
      · exact ih _ h

/-- The second loop never writes two whitespace characters in a row, and writes no whitespace
first when the previous character was whitespace. -/
theorem collapse_chain (p : Bool) (s : Str) :
    (collapse p s).Chain' (fun a b => ¬ (isspace a = true ∧ isspace b = true))
      ∧ (p = true → ∀ c, (collapse p s).head? = some c → isspace c = false) := by
  induction s generalizing p with
  | nil => simp [collapse]
  | cons a r ih =>
    unfold collapse
    by_cases ha : isspace a = true
    · cases p
      · simp only [ha, if_true, Bool.false_eq_true, if_false, false_implies, and_true]
        rw [List.chain'_cons']
        refine ⟨fun y hy => ?_, (ih true).1⟩
        have := (ih true).2 rfl y (by simpa using hy)
        simp [this]
      · simp only [ha, if_true]
        exact ⟨(ih true).1, fun _ => (ih true).2 rfl⟩
    · simp only [ha, if_false, Bool.false_eq_true]
      refine ⟨?_, fun _ c hc => ?_⟩
      · rw [List.chain'_cons']
        refine ⟨fun y _ => ?_, (ih false).1⟩
        simp [ha]
      · simp only [List.head?_cons, Option.some.injEq] at hc
        subst hc
        simpa using ha

/-- The second loop leaves a string alone that has no whitespace but single spaces. -/
theorem collapse_fixed (p : Bool) (v : Str)
    (hch : v.Chain' (fun a b => ¬ (isspace a = true ∧ isspace b = true)))
    (hsp : ∀ c ∈ v, isspace c = true → c = ' ')
    (hp : p = true → ∀ c, v.head? = some c → isspace c = false) :
    collapse p v = v := by
  induction v generalizing p with
  | nil => rfl
  | cons a r ih =>
    rw [List.chain'_cons'] at hch
    unfold collapse
    by_cases ha : isspace a = true
    · have hpf : p = false := by
        cases p
        · rfl
        · have := hp rfl a rfl
          rw [ha] at this
          exact absurd this (by decide)
      subst hpf
      simp only [ha, if_true, Bool.false_eq_true, if_false]
      rw [ih true hch.2 (fun c hc => hsp c (List.mem_cons_of_mem _ hc))
        (fun _ c hc => by
          have := hch.1 c (by simpa using hc)
          simpa [ha] using this)]
      rw [hsp a (List.mem_cons_self _ _) ha]
    · simp only [ha, if_false, Bool.false_eq_true]
      rw [ih false hch.2 (fun c hc => hsp c (List.mem_cons_of_mem _ hc))
        (fun h => absurd h (by decide))]

/-- The first loop leaves a string alone that has no byte `0xA0`. -/
theorem replace_nbsp_fixed (v : Str) (h : ∀ c ∈ v, c ≠ '\xa0') : replace_nbsp v = v := by
  unfold replace_nbsp
  induction v with
  | nil => rfl
  | cons a r ih =>
    simp only [List.map_cons, h a (List.mem_cons_self _ _), if_false]
    rw [ih (fun c hc => h c (List.mem_cons_of_mem _ hc))]

/-- After the first loop no byte `0xA0` is left. -/
theorem replace_nbsp_mem (s : Str) (c : Char) (h : c ∈ replace_nbsp s) : c ≠ '\xa0' := by
  unfold replace_nbsp at h
  rw [List.mem_map] at h
  obtain ⟨a, _, ha⟩ := h
  by_cases h1 : a = '\xa0'
  · simp only [h1, if_true] at ha
    rw [← ha]; decide
  · simp only [h1, if_false] at ha
    rw [← ha]; exact h1

/-- The result of `trim` is a contiguous part of its argument. -/
theorem trim_is_part (v : Str) : trim v <:+: v := by
  unfold trim
  exact List.IsInfix.trans (List.rdropWhile_prefix _ _).isInfix
    (List.dropWhile_suffix _).isInfix

/-- What is left after erasing leading whitespace does not start with whitespace. -/
theorem head_dropWhile_isspace (v : Str) (a : Char)
    (h : (v.dropWhile isspace).head? = some a) : isspace a = false := by
  induction v with
  | nil => simp at h
  | cons b r ih =>
    by_cases hb : isspace b = true
    · rw [List.dropWhile_cons_of_pos hb] at h
      exact ih h
    · rw [List.dropWhile_cons_of_neg hb] at h
      simp only [List.head?_cons, Option.some.injEq] at h
      subst h
      simpa using hb

/-- Erasing leading whitespace leaves alone a prefix of a list that starts with none. -/
theorem dropWhile_prefix_fixed (w d : Str) (hpre : w <+: d)
    (hd : ∀ a, d.head? = some a → isspace a = false) : w.dropWhile isspace = w := by
  cases w with
  | nil => rfl
  | cons a r =>
    obtain ⟨t, ht⟩ := hpre
    have := hd a (by rw [← ht]; rfl)
    simp [List.dropWhile, this]

/-- Trimming twice is trimming once. -/
theorem trim_trim (v : Str) : trim (trim v) = trim v := by
  unfold trim
  rw [dropWhile_prefix_fixed _ _ (List.rdropWhile_prefix isspace (v.dropWhile isspace))
    (head_dropWhile_isspace v), List.rdropWhile_idempotent]

/-- C7: for every string `s`, `norm_space (norm_space s) = norm_space s`. -/
theorem norm_space_idempotent (s : Str) : norm_space (norm_space s) = norm_space s := by
  have hinf := trim_is_part (collapse false (replace_nbsp s))
  have hsub : ∀ c ∈ norm_space s, c ∈ collapse false (replace_nbsp s) := by
    intro c hc
    rw [norm_space_eq] at hc
    exact hinf.subset hc
  have h1 : replace_nbsp (norm_space s) = norm_space s := by
    apply replace_nbsp_fixed
    intro c hc
    rcases collapse_mem _ _ _ (hsub c hc) with h | h
    · exact replace_nbsp_mem _ _ h
    · rw [h]; decide
  have h2 : collapse false (norm_space s) = norm_space s := by
    apply collapse_fixed
    · rw [norm_space_eq]
      exact List.Chain'.infix (collapse_chain false (replace_nbsp s)).1 hinf
    · intro c hc hsp
      exact collapse_space _ _ _ (hsub c hc) hsp
    · intro h; exact absurd h (by decide)
  have h3 : trim (norm_space s) = norm_space s := by
    rw [norm_space_eq, trim_trim]
  rw [norm_space_eq (norm_space s), h1, h2, h3]

/-! ## CSV tokenizer without quotes -/

/-- Splitting yields one more piece than there are separators. -/
theorem length_splitOnP (p : Char → Bool) (l : Str) :
    (l.splitOnP p).length = (l.filter p).length + 1 := by
  induction l with
  | nil => simp
  | cons c r ih =>
    rw [List.splitOnP_cons]
    by_cases hc : p c = true
    · simp [hc, ih]
    · simp [hc, ih]

/-- Outside quotes and on a text without quotes, the tokenizer appends to `fields` the pieces
between commas of the text without CR and LF, the first piece after `cur`. -/
theorem parse_loop_unquoted (s cur : Str) (fields : List Str) (hq : ∀ c ∈ s, c ≠ '"') :
    parse_loop s false cur fields
      = fields ++ ((s.filter fun c => !(c == '\r' || c == '\n')).splitOnP
          (· == ',')).modifyHead (cur ++ ·) := by
  induction s generalizing cur fields with
  | nil => simp [parse_loop]
  | cons c r ih =>
    have hc : c ≠ '"' := hq c (List.mem_cons_self _ _)
    have hr : ∀ d ∈ r, d ≠ '"' := fun d hd => hq d (List.mem_cons_of_mem _ hd)
    rw [parse_loop_outside, if_neg hc]
    by_cases h1 : c = ','
    · subst h1
      rw [if_pos rfl, ih _ _ hr]
      have : (List.filter (fun c => !(c == '\r' || c == '\n')) (',' :: r))
          = ',' :: List.filter (fun c => !(c == '\r' || c == '\n')) r := by
        rw [List.filter_cons_of_pos (by decide)]
      rw [this, List.splitOnP_cons]
      generalize List.splitOnP (· == ',')
        (List.filter (fun c => !(c == '\r' || c == '\n')) r) = L
      cases L <;> simp
    · rw [if_neg h1]
      by_cases h2 : c = '\r' ∨ c = '\n'
      · rw [if_pos h2, ih _ _ hr]
        have : (List.filter (fun c => !(c == '\r' || c == '\n')) (c :: r))
            = List.filter (fun c => !(c == '\r' || c == '\n')) r := by
          rw [List.filter_cons_of_neg]
          rcases h2 with h2 | h2 <;> simp [h2]
        rw [this]
      · rw [if_neg h2, ih _ _ hr]
        have h3 : c ≠ '\r' ∧ c ≠ '\n' := by
          constructor
          · exact fun h => h2 (Or.inl h)
          · exact fun h => h2 (Or.inr h)
        have : (List.filter (fun c => !(c == '\r' || c == '\n')) (c :: r))
            = c :: List.filter (fun c => !(c == '\r' || c == '\n')) r := by
          rw [List.filter_cons_of_pos]
          simp [h3.1, h3.2]
        rw [this, List.splitOnP_cons]
        generalize List.splitOnP (· == ',')
          (List.filter (fun c => !(c == '\r' || c == '\n')) r) = L
        cases L <;> simp [h1]

/-- C15: for every line without a double-quote character, `parse_csv_line` returns the line
with every CR and LF deleted, split at every comma (empty pieces kept); the number of fields
is the number of commas plus one, so at least one; the empty line gives one empty field. -/
theorem parse_csv_line_unquoted (line : Str) :
    (∀ c ∈ line, c ≠ '"') →
    parse_csv_line line = (line.filter fun c => !(c == '\r' || c == '\n')).splitOn ','
      ∧ (parse_csv_line line).length = line.count ',' + 1
      ∧ 1 ≤ (parse_csv_line line).length
      ∧ parse_csv_line [] = [[]] := by
  intro hq
  have h := parse_loop_unquoted line [] [] hq
  have hid : (fun x : Str => [] ++ x) = id := by funext x; simp
  have heq : parse_csv_line line
      = (line.filter fun c => !(c == '\r' || c == '\n')).splitOn ',' := by
    unfold parse_csv_line
    rw [h, hid]
    simp [List.splitOn]
  have hlen : (parse_csv_line line).length = line.count ',' + 1 := by
    rw [heq]
    show (List.splitOnP (· == ',') _).length = _
    rw [length_splitOnP, List.filter_filter, List.count, List.countP_eq_length_filter]
    congr 2
    apply List.filter_congr
    intro c _
    by_cases hc : c = ','
    · subst hc; decide
    · simp [hc]
  exact ⟨heq, hlen, by omega, rfl⟩

/-- C15 on the line `a,,b<CR><LF>`: three fields, the second one empty. -/
theorem parse_csv_line_unquoted_witness :
    parse_csv_line ['a', ',', ',', 'b', '\r', '\n'] = [['a'], [], ['b']]
      ∧ (parse_csv_line ['a', ',', ',', 'b', '\r', '\n']).length = 3 := by
  have h := parse_csv_line_unquoted ['a', ',', ',', 'b', '\r', '\n'] (by decide)
  exact ⟨h.1.trans (by decide), h.2.1.trans (by decide)⟩

/-! ## Normalization and words -/

/-- A C-locale whitespace character is a word separator. -/
theorem is_sep_of_isspace (c : Char) (h : isspace c = true) : is_sep c = true := by
  simp [is_sep, h]

/-- The first loop of `norm_space` does not change the pieces between separators. -/
theorem splitOnP_replace_nbsp (s : Str) :
    (replace_nbsp s).splitOnP is_sep = s.splitOnP is_sep := by
  unfold replace_nbsp
  induction s with
  | nil => rfl
  | cons c r ih =>
    rw [List.map_cons, List.splitOnP_cons, List.splitOnP_cons, ih]
    by_cases hc : c = '\xa0'
    · subst hc
      have h1 : is_sep ' ' = true := by decide
      have h2 : is_sep '\xa0' = true := by decide
      simp [h1, h2]
    · simp [hc]

/-- Two lists of pieces with the same first piece and the same non-empty later pieces have
the same non-empty pieces. -/
theorem filter_eq_of_head_tail (L M : List Str) (hh : L.head? = M.head?)
    (ht : L.tail.filter (fun w => !w.isEmpty) = M.tail.filter (fun w => !w.isEmpty)) :
    L.filter (fun w => !w.isEmpty) = M.filter (fun w => !w.isEmpty) := by
  cases L with
  | nil =>
    cases M with
    | nil => rfl
    | cons b M2 => simp at hh
  | cons a L2 =>
    cases M with
    | nil => simp at hh
    | cons b M2 =>
      simp only [List.head?_cons, Option.some.injEq] at hh
      simp only [List.tail_cons] at ht
      subst hh
      simp only [List.filter_cons, ht]

/-- The second loop of `norm_space` keeps the words: from a state after whitespace it keeps
the non-empty pieces, and from a state after a character it keeps the first piece too. -/
theorem words_collapse_aux (s : Str) :
    words (collapse true s) = words s
      ∧ ((collapse false s).splitOnP is_sep).head? = (s.splitOnP is_sep).head?
      ∧ ((collapse false s).splitOnP is_sep).tail.filter (fun w => !w.isEmpty)
          = (s.splitOnP is_sep).tail.filter (fun w => !w.isEmpty) := by
  induction s with
  | nil => simp [collapse, words]
  | cons c r ih =>
    obtain ⟨ih1, ih2, ih3⟩ := ih
    have ihw : words (collapse false r) = words r := filter_eq_of_head_tail _ _ ih2 ih3
    have hsp : is_sep ' ' = true := by decide
    by_cases hc : isspace c = true
    · have hs := is_sep_of_isspace c hc
      refine ⟨?_, ?_, ?_⟩
      · simp only [collapse, hc, if_true]
        rw [ih1]
        simp [words, List.splitOnP_cons, hs]
      · simp [collapse, hc, List.splitOnP_cons, hs, hsp]
      · simp only [collapse, hc, if_true, Bool.false_eq_true, if_false, List.splitOnP_cons, hs,
          hsp, List.tail_cons]
        exact ih1
    · by_cases hs : is_sep c = true
      · refine ⟨?_, ?_, ?_⟩
        · simp only [collapse, hc, if_false, Bool.false_eq_true]
          simp only [words, List.splitOnP_cons, hs, if_true]
          simpa [words] using ihw
        · simp [collapse, hc, List.splitOnP_cons, hs]
        · simp only [collapse, hc, if_false, Bool.false_eq_true, List.splitOnP_cons, hs, if_true,
            List.tail_cons]
          exact ihw
      · obtain ⟨h1, t1, e1⟩ := List.exists_cons_of_ne_nil
          (List.splitOnP_ne_nil is_sep (collapse false r))
        obtain ⟨h2, t2, e2⟩ := List.exists_cons_of_ne_nil (List.splitOnP_ne_nil is_sep r)
        rw [e1, e2] at ih2 ih3
        simp only [List.head?_cons, Option.some.injEq] at ih2
        simp only [List.tail_cons] at ih3
        subst ih2
        refine ⟨?_, ?_, ?_⟩
        · simp only [collapse, hc, if_false, Bool.false_eq_true]
          simp only [words, List.splitOnP_cons, hs, if_false, Bool.false_eq_true, e1, e2,
            List.modifyHead_cons, List.filter_cons, ih3]
        · simp [collapse, hc, List.splitOnP_cons, hs, e1, e2]
        · simp only [collapse, hc, if_false, Bool.false_eq_true, List.splitOnP_cons, hs, e1, e2,
            List.modifyHead_cons, List.tail_cons]
          exact ih3

/-- The second loop of `norm_space` keeps the words. -/
theorem words_collapse (s : Str) : words (collapse false s) = words s :=
  filter_eq_of_head_tail _ _ (words_collapse_aux s).2.1 (words_collapse_aux s).2.2

/-- A separator at the end adds one empty piece. -/
theorem splitOnP_append_sep (v : Str) (x : Char) (hx : is_sep x = true) :
    (v ++ [x]).splitOnP is_sep = v.splitOnP is_sep ++ [[]] := by
  induction v with
  | nil => simp [List.splitOnP_cons, hx]
  | cons c r ih =>
    rw [List.cons_append, List.splitOnP_cons, List.splitOnP_cons, ih]
    obtain ⟨h2, t2, e2⟩ := List.exists_cons_of_ne_nil (List.splitOnP_ne_nil is_sep r)
    by_cases hc : is_sep c = true
    · simp [hc]
    · simp [hc, e2]

/-- Erasing leading whitespace keeps the words. -/
theorem words_dropWhile (u : Str) : words (u.dropWhile isspace) = words u := by
  induction u with
  | nil => rfl
  | cons c r ih =>
    by_cases hc : isspace c = true
    · rw [List.dropWhile_cons_of_pos hc, ih]
      simp [words, List.splitOnP_cons, is_sep_of_isspace c hc]
    · rw [List.dropWhile_cons_of_neg hc]

/-- Popping trailing whitespace keeps the words. -/
theorem words_rdropWhile (u : Str) : words (u.rdropWhile isspace) = words u := by
  induction u using List.reverseRecOn with
  | nil => rfl
  | append_singleton v x ih =>
    by_cases hx : isspace x = true
    · rw [List.rdropWhile_concat_pos _ _ _ hx, ih]
      simp [words, splitOnP_append_sep v x (is_sep_of_isspace x hx)]
    · rw [List.rdropWhile_concat_neg _ _ _ hx]

/-- The function `norm_space` keeps the words. -/
theorem words_norm_space (s : Str) : words (norm_space s) = words s := by
  rw [norm_space_eq]
  unfold trim
  rw [words_rdropWhile, words_dropWhile, words_collapse]
  unfold words
  rw [splitOnP_replace_nbsp]

/-- Joining the pieces of a text with single spaces gives the text back when its only
separator is the space. -/
theorem intercalate_splitOnP (p : Char → Bool) (t : Str)
    (h : ∀ c ∈ t, p c = true → c = ' ') : [' '].intercalate (t.splitOnP p) = t := by
  induction t with
  | nil => simp [List.intercalate]
  | cons c r ih =>
    have ih2 := ih (fun d hd => h d (List.mem_cons_of_mem _ hd))
    obtain ⟨h2, t2, e2⟩ := List.exists_cons_of_ne_nil (List.splitOnP_ne_nil p r)
    rw [List.splitOnP_cons]
    rw [e2] at ih2
    by_cases hc : p c = true
    · have := h c (List.mem_cons_self _ _) hc
      subst this
      simp only [hc, if_true, e2]
      simp only [List.intercalate, List.intersperse, List.flatten_cons] at ih2 ⊢
      simp [ih2]
    · simp only [hc, if_false, Bool.false_eq_true, e2, List.modifyHead_cons]
      cases t2 with
      | nil =>
        simp only [List.intercalate, List.intersperse, List.flatten_cons, List.flatten_nil,
          List.append_nil] at ih2 ⊢
        rw [ih2]
      | cons b l =>
        simp only [List.intercalate, List.intersperse, List.flatten_cons] at ih2 ⊢
        rw [List.cons_append, ih2]

/-- In a text that has no two adjacent separators and does not end with one, every piece
after the first is non-empty, and the first is empty only for the empty text or after a
leading separator. -/
theorem pieces_nonempty (p : Char → Bool) (t : Str)
    (hch : t.Chain' (fun a b => ¬ (p a = true ∧ p b = true)))
    (hlast : ∀ c, t.getLast? = some c → p c = false) :
    (∀ w ∈ (t.splitOnP p).tail, w ≠ [])
      ∧ ((t.splitOnP p).head? = some [] → t = [] ∨ ∃ c r, t = c :: r ∧ p c = true) := by
  induction t with
  | nil => simp
  | cons c r ih =>
    rw [List.chain'_cons'] at hch
    have hlast2 : ∀ d, r.getLast? = some d → p d = false := by
      intro d hd
      apply hlast d
      cases r with
      | nil => simp at hd
      | cons e r2 => rw [List.getLast?_cons_cons]; exact hd
    obtain ⟨ih1, ih2⟩ := ih hch.2 hlast2
    obtain ⟨h2, t2, e2⟩ := List.exists_cons_of_ne_nil (List.splitOnP_ne_nil p r)
    rw [e2] at ih1 ih2
    rw [List.splitOnP_cons, e2]
    by_cases hc : p c = true
    · simp only [hc, if_true, List.tail_cons, List.head?_cons]
      refine ⟨?_, fun _ => Or.inr ⟨c, r, rfl, hc⟩⟩
      intro w hw
      rw [List.mem_cons] at hw
      rcases hw with hw | hw
      · subst hw
        intro hnil
        subst hnil
        rcases ih2 rfl with hr | ⟨d, r2, hr, hd⟩
        · subst hr
          have := hlast c rfl
          rw [hc] at this
          exact absurd this (by decide)
        · subst hr
          exact hch.1 d (by simp) ⟨hc, hd⟩
      · exact ih1 w hw
    · simp only [hc, if_false, Bool.false_eq_true, List.modifyHead_cons, List.tail_cons,
        List.head?_cons, Option.some.injEq]
      exact ⟨ih1, fun h => absurd h (by simp)⟩


/-- Splitting depends on the separator test through the characters of the text only. -/
theorem splitOnP_congr_mem (p q : Char → Bool) (t : Str) (h : ∀ c ∈ t, p c = q c) :
    t.splitOnP p = t.splitOnP q := by
  induction t with
  | nil => rfl
  | cons c r ih =>
    rw [List.splitOnP_cons, List.splitOnP_cons, ih (fun d hd => h d (List.mem_cons_of_mem _ hd)),
      h c (List.mem_cons_self _ _)]

/-- The first loop of `norm_space` keeps the characters that are not separators. -/
theorem filter_replace_nbsp (s : Str) :
    (replace_nbsp s).filter (fun c => !is_sep c) = s.filter (fun c => !is_sep c) := by
  unfold replace_nbsp
  induction s with
  | nil => rfl
  | cons c r ih =>
    rw [List.map_cons]
    by_cases hc : c = '\xa0'
    · subst hc
      have h1 : is_sep ' ' = true := by decide
      have h2 : is_sep '\xa0' = true := by decide
      simp only [if_true, List.filter_cons, h1, h2, Bool.not_true, Bool.false_eq_true, if_false]
      exact ih
    · simp only [hc, if_false, List.filter_cons, ih]

/-- The second loop of `norm_space` keeps the characters that are not separators. -/
theorem filter_collapse (p : Bool) (s : Str) :
    (collapse p s).filter (fun c => !is_sep c) = s.filter (fun c => !is_sep c) := by
  induction s generalizing p with
  | nil => rfl
  | cons c r ih =>
    have hsp : is_sep ' ' = true := by decide
    by_cases hc : isspace c = true
    · have hs := is_sep_of_isspace c hc
      cases p
      · simp only [collapse, hc, if_true, Bool.false_eq_true, if_false, List.filter_cons, hsp, hs,
          Bool.not_true]
        exact ih true
      · simp only [collapse, hc, if_true, List.filter_cons, hs, Bool.not_true,
          Bool.false_eq_true, if_false]
        exact ih true
    · simp only [collapse, hc, if_false, Bool.false_eq_true, List.filter_cons, ih false]

/-- The function `trim` keeps the characters that are not separators. -/
theorem filter_trim (u : Str) :
    (trim u).filter (fun c => !is_sep c) = u.filter (fun c => !is_sep c) := by
  have h1 : ∀ v : Str, (v.dropWhile isspace).filter (fun c => !is_sep c)
      = v.filter (fun c => !is_sep c) := by
    intro v
    induction v with
    | nil => rfl
    | cons c r ih =>
      by_cases hc : isspace c = true
      · rw [List.dropWhile_cons_of_pos hc, ih]
        simp [List.filter_cons, is_sep_of_isspace c hc]
      · rw [List.dropWhile_cons_of_neg hc]
  have h2 : ∀ v : Str, (v.rdropWhile isspace).filter (fun c => !is_sep c)
      = v.filter (fun c => !is_sep c) := by
    intro v
    induction v using List.reverseRecOn with
    | nil => rfl
    | append_singleton w x ih =>
      by_cases hx : isspace x = true
      · rw [List.rdropWhile_concat_pos _ _ _ hx, ih]
        simp [List.filter_append, List.filter_cons, is_sep_of_isspace x hx]
      · rw [List.rdropWhile_concat_neg _ _ _ hx]
  unfold trim
  rw [h2, h1]

/-- The result of `trim` neither starts nor ends with whitespace. -/
theorem trim_ends (v : Str) :
    (∀ c, (trim v).head? = some c → isspace c = false)
      ∧ (∀ c, (trim v).getLast? = some c → isspace c = false) := by
  constructor
  · intro c hc
    have hpre : trim v <+: v.dropWhile isspace := List.rdropWhile_prefix isspace _
    obtain ⟨t, ht⟩ := hpre
    cases hv : trim v with
    | nil => rw [hv] at hc; simp at hc
    | cons a r =>
      rw [hv] at hc ht
      simp only [List.head?_cons, Option.some.injEq] at hc
      subst hc
      exact head_dropWhile_isspace v a (by rw [← ht]; rfl)
  · intro c hc
    unfold trim at hc
    by_cases hne : (v.dropWhile isspace).rdropWhile isspace = []
    · rw [hne] at hc; simp at hc
    · have := List.rdropWhile_last_not isspace (v.dropWhile isspace) hne
      rw [List.getLast?_eq_getLast _ hne] at hc
      simp only [Option.some.injEq] at hc
      rw [hc] at this
      simpa using this


/-- C16: for every string `s`, `norm_space s` is the list of whitespace-separated words of `s`
(separators: the C-locale whitespace characters and the byte `0xA0`) joined by single spaces;
it neither starts nor ends with a space, has no two adjacent spaces, no whitespace character
other than the space and no byte `0xA0`, and its characters that are not separators are
those of `s` in the same order. -/
theorem norm_space_words (s : Str) :
    norm_space s = [' '].intercalate (words s)
      ∧ (∀ c, (norm_space s).head? = some c → c ≠ ' ')
      ∧ (∀ c, (norm_space s).getLast? = some c → c ≠ ' ')
      ∧ (norm_space s).Chain' (fun a b => ¬ (a = ' ' ∧ b = ' '))
      ∧ (∀ c ∈ norm_space s, isspace c = true → c = ' ')
      ∧ (∀ c ∈ norm_space s, c ≠ '\xa0')
      ∧ (norm_space s).filter (fun c => !is_sep c) = s.filter (fun c => !is_sep c) := by
  have hinf := trim_is_part (collapse false (replace_nbsp s))
  have hsub : ∀ c ∈ norm_space s, c ∈ collapse false (replace_nbsp s) := by
    intro c hc
    rw [norm_space_eq] at hc
    exact hinf.subset hc
  have f1 : ∀ c ∈ norm_space s, c ≠ '\xa0' := by
    intro c hc
    rcases collapse_mem _ _ _ (hsub c hc) with h | h
    · exact replace_nbsp_mem _ _ h
    · rw [h]; decide
  have f2 : ∀ c ∈ norm_space s, isspace c = true → c = ' ' :=
    fun c hc hsp => collapse_space _ _ _ (hsub c hc) hsp
  have f3 : (norm_space s).Chain' (fun a b => ¬ (isspace a = true ∧ isspace b = true)) := by
    rw [norm_space_eq]
    exact List.Chain'.infix (collapse_chain false (replace_nbsp s)).1 hinf
  have f4 : ∀ c, (norm_space s).head? = some c → isspace c = false := by
    rw [norm_space_eq]; exact (trim_ends _).1
  have f5 : ∀ c, (norm_space s).getLast? = some c → isspace c = false := by
    rw [norm_space_eq]; exact (trim_ends _).2
  have hsp : isspace ' ' = true := by decide
  refine ⟨?_, ?_, ?_, ?_, f2, f1, ?_⟩
  · have hw := words_norm_space s
    have hcongr : (norm_space s).splitOnP is_sep = (norm_space s).splitOnP isspace := by
      apply splitOnP_congr_mem
      intro c hc
      simp [is_sep, f1 c hc]
    obtain ⟨p1, p2⟩ := pieces_nonempty isspace (norm_space s) f3 f5
    rw [← hw]
    unfold words
    rw [hcongr]
    by_cases he : norm_space s = []
    · rw [he]; simp [List.intercalate]
    · have hall : ∀ w ∈ (norm_space s).splitOnP isspace, w ≠ [] := by
        obtain ⟨h2, t2, e2⟩ := List.exists_cons_of_ne_nil
          (List.splitOnP_ne_nil isspace (norm_space s))
        rw [e2] at p1 p2 ⊢
        intro w hw2
        rw [List.mem_cons] at hw2
        rcases hw2 with hw2 | hw2
        · subst hw2
          intro hnil
          subst hnil
          rcases p2 rfl with h | ⟨c, r, hcr, hc⟩
          · exact he h
          · have := f4 c (by rw [hcr]; rfl)
            rw [hc] at this
            exact absurd this (by decide)
        · exact p1 w hw2
      have hfil : ((norm_space s).splitOnP isspace).filter (fun w => !w.isEmpty)
          = (norm_space s).splitOnP isspace := by
        rw [List.filter_eq_self]
        intro w hw2
        have := hall w hw2
        cases w with
        | nil => exact absurd rfl this
        | cons a r => rfl
      rw [hfil]
      exact (intercalate_splitOnP isspace (norm_space s) f2).symm
  · intro c hc h
    have := f4 c hc
    rw [h, hsp] at this
    exact absurd this (by decide)
  · intro c hc h
    have := f5 c hc
    rw [h, hsp] at this
    exact absurd this (by decide)
  · refine List.Chain'.imp ?_ f3
    intro a b hab h
    exact hab ⟨by rw [h.1]; exact hsp, by rw [h.2]; exact hsp⟩
  · rw [norm_space_eq, filter_trim, filter_collapse, filter_replace_nbsp]


/-! ## Doubles: order -/

/-- The comparison `<` on doubles, unfolded. -/
theorem Dbl.lt_iff (a b : Dbl) : a < b ↔ Dbl.lt a b = true := Iff.rfl

/-- The comparison `<=` on doubles, unfolded. -/
theorem Dbl.le_iff (a b : Dbl) : a ≤ b ↔ Dbl.le a b = true := Iff.rfl

/-- A numeral is the finite double of that value. -/
theorem Dbl.ofNat_eq (n : Nat) : (OfNat.ofNat n : Dbl) = Dbl.fin (n : ℚ) := rfl

/-- On finite doubles `<` is the order of the rationals. -/
theorem Dbl.fin_lt_fin (a b : ℚ) : Dbl.fin a < Dbl.fin b ↔ a < b := by
  simp [Dbl.lt_iff, Dbl.lt]

/-- On finite doubles `<=` is the order of the rationals. -/
theorem Dbl.fin_le_fin (a b : ℚ) : Dbl.fin a ≤ Dbl.fin b ↔ a ≤ b := by
  simp [Dbl.le_iff, Dbl.le]

/-- Nothing is `<=` NaN and NaN is `<=` nothing. -/
theorem Dbl.ne_nan_of_le {a b : Dbl} (h : a ≤ b) : a ≠ Dbl.nan ∧ b ≠ Dbl.nan := by
  cases a <;> cases b <;> simp_all [Dbl.le_iff, Dbl.le]

/-- Nothing is `<` NaN and NaN is `<` nothing. -/
theorem Dbl.ne_nan_of_lt {a b : Dbl} (h : a < b) : a ≠ Dbl.nan ∧ b ≠ Dbl.nan := by
  cases a <;> cases b <;> simp_all [Dbl.lt_iff, Dbl.lt]

/-- On numbers, `a < b` fails exactly when `b <= a`. -/
theorem Dbl.not_lt_iff {a b : Dbl} (ha : a ≠ Dbl.nan) (hb : b ≠ Dbl.nan) :
    ¬ (a < b) ↔ b ≤ a := by
  cases a <;> cases b <;> simp_all [Dbl.lt_iff, Dbl.le_iff, Dbl.lt, Dbl.le]

/-- On numbers, `a <= b` fails exactly when `b < a`. -/
theorem Dbl.not_le_iff {a b : Dbl} (ha : a ≠ Dbl.nan) (hb : b ≠ Dbl.nan) :
    ¬ (a ≤ b) ↔ b < a := by
  cases a <;> cases b <;> simp_all [Dbl.lt_iff, Dbl.le_iff, Dbl.lt, Dbl.le]

/-- The comparison `<` implies `<=`. -/
theorem Dbl.lt_imp_le {a b : Dbl} (h : a < b) : a ≤ b := by
  cases a <;> cases b <;> simp_all [Dbl.lt_iff, Dbl.le_iff, Dbl.lt, Dbl.le]
  exact le_of_lt h

/-- The comparison `<` excludes `>=`. -/
theorem Dbl.lt_imp_not_ge {a b : Dbl} (h : a < b) : ¬ (b ≤ a) := by
  cases a <;> cases b <;> simp_all [Dbl.lt_iff, Dbl.le_iff, Dbl.lt, Dbl.le]

/-- A number is `<=` itself. -/
theorem Dbl.refl_le {a : Dbl} (ha : a ≠ Dbl.nan) : a ≤ a := by
  cases a <;> simp_all [Dbl.le_iff, Dbl.le]

/-- The comparison `<=` is antisymmetric. -/
theorem Dbl.antisymm_le {a b : Dbl} (h1 : a ≤ b) (h2 : b ≤ a) : a = b := by
  cases a <;> cases b <;> simp_all [Dbl.le_iff, Dbl.le]
  exact le_antisymm h1 h2

/-- The comparison `<=` is transitive. -/
theorem Dbl.trans_le {a b c : Dbl} (h1 : a ≤ b) (h2 : b ≤ c) : a ≤ c := by
  cases a <;> cases b <;> cases c <;> simp_all [Dbl.le_iff, Dbl.le]
  exact le_trans h1 h2

/-- The comparison `<` is transitive. -/
theorem Dbl.trans_lt {a b c : Dbl} (h1 : a < b) (h2 : b < c) : a < c := by
  cases a <;> cases b <;> cases c <;> simp_all [Dbl.lt_iff, Dbl.lt]
  exact lt_trans h1 h2

/-- Mixed transitivity of `<` and `<=`. -/
theorem Dbl.lt_le_trans {a b c : Dbl} (h1 : a < b) (h2 : b ≤ c) : a < c := by
  cases a <;> cases b <;> cases c <;> simp_all [Dbl.lt_iff, Dbl.le_iff, Dbl.lt, Dbl.le]
  exact lt_of_lt_of_le h1 h2

/-- Mixed transitivity of `<=` and `<`. -/
theorem Dbl.le_lt_trans {a b c : Dbl} (h1 : a ≤ b) (h2 : b < c) : a < c := by
  cases a <;> cases b <;> cases c <;> simp_all [Dbl.lt_iff, Dbl.le_iff, Dbl.lt, Dbl.le]
  exact lt_of_le_of_lt h1 h2

/-- Two numbers are comparable. -/
theorem Dbl.total_le {a b : Dbl} (ha : a ≠ Dbl.nan) (hb : b ≠ Dbl.nan) : a ≤ b ∨ b ≤ a := by
  cases a <;> cases b <;> simp_all [Dbl.le_iff, Dbl.le]
  exact le_total _ _

/-- The comparison `<=` is antisymmetric, as a class instance. -/
theorem Dbl.le_isAntisymm : IsAntisymm Dbl (· ≤ ·) :=
  ⟨fun _ _ h1 h2 => Dbl.antisymm_le h1 h2⟩

/-- The descending order with NaN last is total. -/
theorem Dbl.desc_isTotal : IsTotal Dbl Dbl.desc := by
  refine ⟨fun a b => ?_⟩
  unfold Dbl.desc
  by_cases ha : a = Dbl.nan
  · exact Or.inr (Or.inr ha)
  · by_cases hb : b = Dbl.nan
    · exact Or.inl (Or.inr hb)
    · rcases Dbl.total_le ha hb with h | h
      · exact Or.inr (Or.inl h)
      · exact Or.inl (Or.inl h)

/-- The descending order with NaN last is transitive. -/
theorem Dbl.desc_isTrans : IsTrans Dbl Dbl.desc := by
  refine ⟨fun a b c hab hbc => ?_⟩
  unfold Dbl.desc at *
  rcases hbc with hbc | hbc
  · rcases hab with hab | hab
    · exact Or.inl (Dbl.trans_le hbc hab)
    · exact absurd hab (Dbl.ne_nan_of_le hbc).2
  · exact Or.inr hbc

/-- The descending order with NaN last is antisymmetric. -/
theorem Dbl.desc_isAntisymm : IsAntisymm Dbl Dbl.desc := by
  refine ⟨fun a b hab hba => ?_⟩
  unfold Dbl.desc at *
  rcases hab with hab | hab
  · rcases hba with hba | hba
    · exact Dbl.antisymm_le hba hab
    · exact absurd hba (Dbl.ne_nan_of_le hab).2
  · rcases hba with hba | hba
    · exact absurd hab (Dbl.ne_nan_of_le hba).2
    · rw [hab, hba]

/-- On lists of numbers, `<` is a strict weak order. -/
theorem strict_weak_lt (l : List Dbl) (h : ∀ x ∈ l, x ≠ Dbl.nan) : strict_weak_on Dbl.lt l := by
  refine ⟨?_, ?_, ?_⟩
  · intro a _
    cases a <;> simp [Dbl.lt]
  · intro a _ b _ c _ hab hbc
    exact Dbl.trans_lt (a := a) (b := b) (c := c) hab hbc
  · intro a ha b hb c hc hab hba hbc hcb
    have h1 : b ≤ a := (Dbl.not_lt_iff (h a ha) (h b hb)).mp (by rw [Dbl.lt_iff, hab]; simp)
    have h2 : a ≤ b := (Dbl.not_lt_iff (h b hb) (h a ha)).mp (by rw [Dbl.lt_iff, hba]; simp)
    have h3 : c ≤ b := (Dbl.not_lt_iff (h b hb) (h c hc)).mp (by rw [Dbl.lt_iff, hbc]; simp)
    have h4 : b ≤ c := (Dbl.not_lt_iff (h c hc) (h b hb)).mp (by rw [Dbl.lt_iff, hcb]; simp)
    have e1 : a = b := Dbl.antisymm_le h2 h1
    have e2 : b = c := Dbl.antisymm_le h4 h3
    subst e1 e2
    exact ⟨hab, hab⟩

/-- On entries whose deal ratios are numbers, the comparator of `push_best` is a strict weak
order. -/
theorem strict_weak_deal (l : List Scored) (h : ∀ s ∈ l, s.deal ≠ Dbl.nan) :
    strict_weak_on deal_gt l := by
  have hl := strict_weak_lt (l.map Scored.deal) (by
    intro x hx
    obtain ⟨s, hs, rfl⟩ := List.mem_map.mp hx
    exact h s hs)
  have hdg : ∀ a b : Scored, deal_gt a b = Dbl.lt b.deal a.deal := by
    intro a b
    unfold deal_gt
    cases h : Dbl.lt b.deal a.deal <;> simp [gt_iff_lt, Dbl.lt_iff, h]
  obtain ⟨h1, h2, h3⟩ := hl
  refine ⟨?_, ?_, ?_⟩
  · intro a ha
    rw [hdg]
    exact h1 _ (List.mem_map_of_mem _ ha)
  · intro a ha b hb c hc hab hbc
    rw [hdg] at *
    exact h2 _ (List.mem_map_of_mem _ hc) _ (List.mem_map_of_mem _ hb) _
      (List.mem_map_of_mem _ ha) hbc hab
  · intro a ha b hb c hc hab hba hbc hcb
    simp only [hdg] at *
    have := h3 _ (List.mem_map_of_mem _ ha) _ (List.mem_map_of_mem _ hb) _
      (List.mem_map_of_mem _ hc) hba hab hcb hbc
    exact ⟨this.2, this.1⟩

/-! ## Top-N buffer: lemmas -/

/-- Inserting into the first `n` elements and into the whole list agree on the first `n`
elements of the result. -/
theorem take_orderedInsert_take (d : Dbl) (L : List Dbl) (n : Nat) :
    ((L.take n).orderedInsert Dbl.desc d).take n = (L.orderedInsert Dbl.desc d).take n := by
  induction L generalizing n with
  | nil => simp
  | cons a L ih =>
    cases n with
    | zero => simp
    | succ m =>
      simp only [List.take_succ_cons, List.orderedInsert]
      by_cases h : Dbl.desc d a
      · simp only [h, if_true, List.take_succ_cons]
        congr 1
        cases m with
        | zero => simp
        | succ k =>
          simp only [List.take_succ_cons, List.take_take]
          congr 2
          simp
      · simp only [h, if_false, List.take_succ_cons]
        rw [ih]

/-- Sorting `A ++ [d]` into descending order inserts `d` into the sorted `A`. -/
theorem sortDesc_append_singleton (A : List Dbl) (d : Dbl) :
    (A ++ [d]).insertionSort Dbl.desc = (A.insertionSort Dbl.desc).orderedInsert Dbl.desc d := by
  haveI := Dbl.desc_isTotal
  haveI := Dbl.desc_isTrans
  haveI := Dbl.desc_isAntisymm
  apply List.eq_of_perm_of_sorted (r := Dbl.desc)
  · have h1 := List.perm_insertionSort Dbl.desc (A ++ [d])
    have h2 := List.perm_orderedInsert Dbl.desc d (A.insertionSort Dbl.desc)
    have h3 := List.perm_insertionSort Dbl.desc A
    refine h1.trans (List.Perm.trans ?_ h2.symm)
    refine List.perm_append_singleton d A |>.trans ?_
    exact List.Perm.cons d h3.symm
  · exact List.sorted_insertionSort _ _
  · exact List.Sorted.orderedInsert _ _ (List.sorted_insertionSort _ _)

/-- A list of numbers in which no element precedes a greater one is in descending order. -/
theorem sorted_desc_of_pairwise (w : List Dbl) (h : ∀ x ∈ w, x ≠ Dbl.nan)
    (hp : w.Pairwise (fun a b => ¬ (a < b))) : w.Sorted Dbl.desc := by
  refine List.Pairwise.imp_of_mem ?_ hp
  intro a b ha hb hab
  exact Or.inl ((Dbl.not_lt_iff (h a ha) (h b hb)).mp hab)

/-- The rearrangement of a list of numbers into descending order is unique. -/
theorem eq_insertionSort_desc (v w : List Dbl) (h : ∀ x ∈ v, x ≠ Dbl.nan) (hperm : w.Perm v)
    (hp : w.Pairwise (fun a b => ¬ (a < b))) : w = v.insertionSort Dbl.desc := by
  haveI := Dbl.desc_isTotal
  haveI := Dbl.desc_isTrans
  haveI := Dbl.desc_isAntisymm
  refine List.eq_of_perm_of_sorted (r := Dbl.desc)
    (hperm.trans (List.perm_insertionSort _ _).symm) ?_ (List.sorted_insertionSort _ _)
  exact sorted_desc_of_pairwise w (fun x hx => h x (hperm.subset hx)) hp

/-- The keys of a conforming sort's result, on entries whose deal ratios are numbers, are the
keys sorted into descending order. -/
theorem deals_run (S : DealSort) (l : List Scored) (h : ∀ s ∈ l, s.deal ≠ Dbl.nan) :
    (S.run l).map Scored.deal = (l.map Scored.deal).insertionSort Dbl.desc := by
  have hswo := strict_weak_deal l h
  refine eq_insertionSort_desc _ _ ?_ ((S.perm l hswo).map _) ?_
  · intro x hx
    obtain ⟨s, hs, rfl⟩ := List.mem_map.mp hx
    exact h s hs
  · rw [List.pairwise_map]
    refine List.Pairwise.imp ?_ (S.sorted l hswo)
    intro a b hab
    unfold deal_gt at hab
    simpa using hab

/-- The lambda `push_best` keeps the first `top_n` entries of the sorted buffer. -/
theorem push_best_eq_take (S : DealSort) (N : Int) (best : List Scored) (s : Scored) :
    push_best S N best s = (S.run (best ++ [s])).take N.toNat := by
  unfold push_best
  simp only
  split
  · rfl
  · rename_i h
    rw [List.take_of_length_le]
    omega

/-- Offering one more entry is one more call of `push_best`. -/
theorem push_all_snoc (S : DealSort) (N : Int) (xs : List Scored) (x : Scored) :
    push_all S N (xs ++ [x]) = push_best S N (push_all S N xs) x := by
  simp [push_all, List.foldl_append]

/-- The keys held after offering entries whose deal ratios are numbers are the first `top_n` of
all offered keys, sorted. -/
theorem push_all_deals_aux (S : DealSort) (N : Int) (xs : List Scored)
    (h : ∀ s ∈ xs, s.deal ≠ Dbl.nan) :
    (push_all S N xs).map Scored.deal
      = ((xs.map Scored.deal).insertionSort Dbl.desc).take N.toNat := by
  haveI := Dbl.desc_isTotal
  haveI := Dbl.desc_isTrans
  induction xs using List.reverseRecOn with
  | nil => simp [push_all]
  | append_singleton xs x ih =>
    have hxs : ∀ s ∈ xs, s.deal ≠ Dbl.nan := fun s hs => h s (List.mem_append_left _ hs)
    have hx : x.deal ≠ Dbl.nan := h x (List.mem_append_right _ (List.mem_singleton_self _))
    have ih2 := ih hxs
    have hbuf : ∀ s ∈ push_all S N xs ++ [x], s.deal ≠ Dbl.nan := by
      intro s hs
      rcases List.mem_append.mp hs with hs | hs
      · have : s.deal ∈ (push_all S N xs).map Scored.deal := List.mem_map_of_mem _ hs
        rw [ih2] at this
        have := (List.perm_insertionSort Dbl.desc _).subset (List.mem_of_mem_take this)
        obtain ⟨t, ht, hts⟩ := List.mem_map.mp this
        rw [← hts]
        exact hxs t ht
      · rw [List.mem_singleton.mp hs]
        exact hx
    rw [push_all_snoc, push_best_eq_take, List.map_take, deals_run S _ hbuf, List.map_append,
      ih2, List.map_append, List.map_singleton, sortDesc_append_singleton,
      sortDesc_append_singleton]
    rw [List.Sorted.insertionSort_eq, take_orderedInsert_take]
    exact List.Pairwise.sublist (List.take_sublist _ _) (List.sorted_insertionSort _ _)

/-- The buffer reached by offering entries whose deal ratios are numbers holds numbers only. -/
theorem push_all_no_nan (S : DealSort) (N : Int) (xs : List Scored)
    (h : ∀ s ∈ xs, s.deal ≠ Dbl.nan) : ∀ s ∈ push_all S N xs, s.deal ≠ Dbl.nan := by
  intro s hs
  have : s.deal ∈ (push_all S N xs).map Scored.deal := List.mem_map_of_mem _ hs
  rw [push_all_deals_aux S N xs h] at this
  have := (List.perm_insertionSort Dbl.desc _).subset (List.mem_of_mem_take this)
  obtain ⟨t, ht, hts⟩ := List.mem_map.mp this
  rw [← hts]
  exact h t ht

/-- C1, refuted as stated: with a deal ratio that is NaN among the offered ones (a candidate whose
price-per-area is the text `nan` has one), the claim fails.  Offering the deal ratios 1, NaN, 3, 2
at `N = 3`, with `std::sort` doing what insertion sort does, leaves the deal ratios
`[3, 1, NaN]`: the deal ratio 2 is dropped and the smaller 1 is kept, so the buffer is not the
first three of any arrangement of the offered deal ratios in which no ratio precedes a greater
one. -/
theorem push_all_deals_eq_top_counterexample :
    (push_all insertionDealSort 3
        [{ deal := 1 }, { deal := Dbl.nan }, { deal := 3 }, { deal := 2 }]).map Scored.deal
      = [3, 1, Dbl.nan]
    ∧ ¬ ∃ w : List Dbl, w.Perm [1, Dbl.nan, 3, 2] ∧ w.Pairwise (fun a b => ¬ (a < b))
        ∧ (push_all insertionDealSort 3
            [{ deal := 1 }, { deal := Dbl.nan }, { deal := 3 }, { deal := 2 }]).map Scored.deal
          = w.take 3 := by
  have hb : (push_all insertionDealSort 3
        [{ deal := 1 }, { deal := Dbl.nan }, { deal := 3 }, { deal := 2 }]).map Scored.deal
      = [3, 1, Dbl.nan] := by decide!
  refine ⟨hb, ?_⟩
  rintro ⟨w, hperm, hsorted, htake⟩
  rw [hb] at htake
  have hlen : w.length = 4 := hperm.length_eq
  match w, hlen with
  | [a, b, c, d], _ =>
    simp only [List.take_succ_cons, List.take_zero, List.cons.injEq, and_true] at htake
    obtain ⟨rfl, rfl, rfl⟩ := htake
    have hd : d = 2 := by
      have h2 : (2 : Dbl) ∈ [3, 1, Dbl.nan, d] := hperm.symm.subset (by simp)
      simp only [List.mem_cons, List.mem_singleton, List.not_mem_nil, or_false] at h2
      rcases h2 with h | h | h | h
      · exact absurd h (by decide)
      · exact absurd h (by decide)
      · exact absurd h (by decide)
      · exact h.symm
    subst hd
    revert hsorted
    decide

/-- C1, amended: for every conforming sort, every `N ≥ 1` and every sequence `xs` of `k` entries
whose deal ratios are numbers (none is NaN), offered one by one through `push_best` to the empty
buffer, the deal ratios of the final buffer, in order, are the first `min N k` elements of the
offered deal ratios sorted in descending order (`w` is any descending rearrangement of them), and
the buffer holds exactly `min N k` entries. -/
theorem push_all_deals_eq_top (S : DealSort) (N : Int) (xs : List Scored) (w : List Dbl) :
    1 ≤ N → (∀ s ∈ xs, s.deal ≠ Dbl.nan) → w.Perm (xs.map Scored.deal) → w.Sorted (· ≥ ·) →
    (push_all S N xs).map Scored.deal = w.take (min N.toNat xs.length)
      ∧ (push_all S N xs).length = min N.toNat xs.length := by
  intro _ hnan hperm hsorted
  have hdeals : ∀ x ∈ xs.map Scored.deal, x ≠ Dbl.nan := by
    intro x hx
    obtain ⟨s, hs, rfl⟩ := List.mem_map.mp hx
    exact hnan s hs
  have hw : w = (xs.map Scored.deal).insertionSort Dbl.desc :=
    eq_insertionSort_desc _ w hdeals hperm
      (List.Pairwise.imp (fun {a b} (h : a ≥ b) (hlt : a < b) => Dbl.lt_imp_not_ge hlt h)
        hsorted)
  have hlen : w.length = xs.length := by rw [hperm.length_eq, List.length_map]
  have htake : w.take (min N.toNat xs.length) = w.take N.toNat := by
    rcases Nat.le_total N.toNat xs.length with h | h
    · rw [Nat.min_eq_left h]
    · rw [Nat.min_eq_right h, List.take_of_length_le (by omega), List.take_of_length_le (by omega)]
  have hmap : (push_all S N xs).map Scored.deal = w.take N.toNat := by
    rw [push_all_deals_aux S N xs hnan, ← hw]
  refine ⟨by rw [htake, hmap], ?_⟩
  have := congrArg List.length hmap
  rw [List.length_map, List.length_take, hlen] at this
  exact this

/-- C1 at `N = 3` with two offered entries: both are kept, the better deal first. -/
theorem push_all_deals_eq_top_witness :
    (1 : Int) ≤ 3
      ∧ (push_all insertionDealSort 3 [{ deal := 1 }, { deal := 2 }]).map Scored.deal
          = [2, 1].take (min (3 : Int).toNat 2)
      ∧ (push_all insertionDealSort 3 [{ deal := 1 }, { deal := 2 }]).length
          = min (3 : Int).toNat 2 :=
  ⟨by decide,
    push_all_deals_eq_top insertionDealSort 3 [{ deal := 1 }, { deal := 2 }] [2, 1]
      (by decide) (by decide) (by decide) (by decide)⟩

/-- C2, refuted as stated: after the deal ratios 1, NaN, 3 are offered at `N = 3`, with
`std::sort` doing what insertion sort does, the buffer holds `[3, 1, NaN]`, which is not in
descending order: `1 >= NaN` is false. -/
theorem push_all_bounded_sorted_counterexample :
    (push_all insertionDealSort 3
        [{ deal := 1 }, { deal := Dbl.nan }, { deal := 3 }]).map Scored.deal = [3, 1, Dbl.nan]
    ∧ ¬ (push_all insertionDealSort 3
        [{ deal := 1 }, { deal := Dbl.nan }, { deal := 3 }]).Sorted
          (fun a b => a.deal ≥ b.deal) := by
  decide!

/-- C2, amended: for every conforming sort and every `N ≥ 1`, the buffer reached from the empty
buffer by any sequence of `push_best` calls has at most `N` entries, and when the offered deal
ratios are numbers (none is NaN) it is in descending order of deal ratio. -/
theorem push_all_bounded_sorted (S : DealSort) (N : Int) (xs : List Scored) :
    1 ≤ N →
    ((push_all S N xs).length : Int) ≤ N
      ∧ ((∀ s ∈ xs, s.deal ≠ Dbl.nan) →
          (push_all S N xs).Sorted (fun a b => a.deal ≥ b.deal)) := by
  intro hN
  rcases List.eq_nil_or_concat xs with h | ⟨ys, y, h⟩
  · subst h
    refine ⟨?_, ?_⟩
    · simp only [push_all, List.foldl_nil, List.length_nil]; omega
    · simp [push_all]
  · subst h
    rw [List.concat_eq_append, push_all_snoc, push_best_eq_take]
    refine ⟨?_, ?_⟩
    · have := List.length_take_le N.toNat (S.run (push_all S N ys ++ [y]))
      omega
    · intro hnan
      have hbuf : ∀ s ∈ push_all S N ys ++ [y], s.deal ≠ Dbl.nan := by
        intro s hs
        rcases List.mem_append.mp hs with hs | hs
        · exact push_all_no_nan S N ys (fun t ht => hnan t (List.mem_append_left _ ht)) s hs
        · rw [List.mem_singleton.mp hs]
          exact hnan y (List.mem_append_right _ (List.mem_singleton_self _))
      have hswo := strict_weak_deal _ hbuf
      refine List.Pairwise.sublist (List.take_sublist _ _) ?_
      refine List.Pairwise.imp_of_mem ?_ (S.sorted _ hswo)
      intro a b ha hb hab
      have ha2 := hbuf a ((S.perm _ hswo).subset ha)
      have hb2 := hbuf b ((S.perm _ hswo).subset hb)
      unfold deal_gt at hab
      exact (Dbl.not_lt_iff ha2 hb2).mp (by simpa using hab)

/-- C2 at `N = 1` with three offered entries: one entry is kept. -/
theorem push_all_bounded_sorted_witness :
    (1 : Int) ≤ 1
      ∧ ((push_all insertionDealSort 1
            [{ deal := 1 }, { deal := 3 }, { deal := 2 }]).length : Int) ≤ 1
      ∧ ((∀ s ∈ ([{ deal := 1 }, { deal := 3 }, { deal := 2 }] : List Scored),
            s.deal ≠ Dbl.nan) →
          (push_all insertionDealSort 1
            [{ deal := 1 }, { deal := 3 }, { deal := 2 }]).Sorted
              (fun a b => a.deal ≥ b.deal)) :=
  ⟨by decide,
    push_all_bounded_sorted insertionDealSort 1 [{ deal := 1 }, { deal := 3 }, { deal := 2 }]
      (by decide)⟩


/-! ## Median -/

/-- Inside the list, `getD` reads the element. -/
theorem getD_eq_of_lt (l : List Dbl) (i : Nat) (h : i < l.length) :
    l[i]? = some (l.getD i 0) := by
  rw [List.getD_eq_getElem?_getD, List.getElem?_eq_getElem h]
  rfl

/-- An ascending list that holds NaN has no other element. -/
theorem sorted_nan_singleton (w : List Dbl) (hs : w.Sorted (· ≤ ·)) (h : Dbl.nan ∈ w) :
    w = [Dbl.nan] := by
  obtain ⟨l1, l2, rfl⟩ := List.append_of_mem h
  rw [List.Sorted, List.pairwise_append, List.pairwise_cons] at hs
  have h1 : l1 = [] := by
    cases l1 with
    | nil => rfl
    | cons a r =>
      exact absurd rfl
        (Dbl.ne_nan_of_le (hs.2.2 a (List.mem_cons_self _ _) _ (List.mem_cons_self _ _))).2
  have h2 : l2 = [] := by
    cases l2 with
    | nil => rfl
    | cons a r => exact absurd rfl (Dbl.ne_nan_of_le (hs.2.1.1 a (List.mem_cons_self _ _))).1
  rw [h1, h2]
  rfl

/-- A conforming sort of a vector of doubles that has an ascending rearrangement returns that
rearrangement. -/
theorem run_eq_sorted (D : DblSort) (v w : List Dbl) (hperm : w.Perm v)
    (hs : w.Sorted (· ≤ ·)) : D.run v = w := by
  by_cases hn : Dbl.nan ∈ w
  · have hw := sorted_nan_singleton w hs hn
    subst hw
    have hv : v = [Dbl.nan] := List.perm_singleton.mp hperm.symm
    subst hv
    have hswo : strict_weak_on Dbl.lt [Dbl.nan] := by
      refine ⟨?_, ?_, ?_⟩
      · intro a ha
        rw [List.mem_singleton.mp ha]
        rfl
      · intro a ha b hb c hc
        rw [List.mem_singleton.mp ha, List.mem_singleton.mp hb]
        intro h
        exact absurd h (by decide)
      · intro a ha b hb c hc _ _ _ _
        rw [List.mem_singleton.mp ha, List.mem_singleton.mp hc]
        exact ⟨rfl, rfl⟩
    exact List.perm_singleton.mp (D.perm _ hswo)
  · have hv : ∀ x ∈ v, x ≠ Dbl.nan := by
      intro x hx hxn
      exact hn (hxn ▸ hperm.symm.subset hx)
    have hswo := strict_weak_lt v hv
    haveI := Dbl.le_isAntisymm
    refine List.eq_of_perm_of_sorted (r := (· ≤ ·)) ((D.perm v hswo).trans hperm.symm) ?_ hs
    refine List.Pairwise.imp_of_mem ?_ (D.sorted v hswo)
    intro a b ha hb hab
    have ha2 := hv a ((D.perm v hswo).subset ha)
    have hb2 := hv b ((D.perm v hswo).subset hb)
    exact (Dbl.not_lt_iff hb2 ha2).mp (by rw [Dbl.lt_iff, hab]; simp)

/-- The median does not depend on the conforming sort when the vector holds numbers only. -/
theorem median_inplace_congr (D E : DblSort) (v : List Dbl) (h : ∀ x ∈ v, x ≠ Dbl.nan) :
    median_inplace D v = median_inplace E v := by
  have hswo := strict_weak_lt v h
  have hE : (E.run v).Sorted (· ≤ ·) := by
    refine List.Pairwise.imp_of_mem ?_ (E.sorted v hswo)
    intro a b ha hb hab
    have ha2 := h a ((E.perm v hswo).subset ha)
    have hb2 := h b ((E.perm v hswo).subset hb)
    exact (Dbl.not_lt_iff hb2 ha2).mp (by rw [Dbl.lt_iff, hab]; simp)
  have := run_eq_sorted D v (E.run v) (E.perm v hswo) hE
  unfold median_inplace
  rw [this]

/-! ## Finalization: lemmas -/

/-- The table `key_median` after the finalization loop, as a loop of its own. -/
theorem finalize_fold_median (D : DblSort) (minN : Int) (m : Map (List Dbl)) (t : Tables) :
    (m.foldl (finalize_step D minN) t).key_median
      = m.foldl (fun a kv => if (kv.2.length : Int) < minN then a
          else a.set kv.1 (median_inplace D kv.2)) t.key_median := by
  induction m generalizing t with
  | nil => rfl
  | cons kv r ih =>
    simp only [List.foldl_cons]
    rw [ih]
    congr 1
    unfold finalize_step
    simp only
    split <;> rfl

/-- The table `key_n` after the finalization loop, as a loop of its own. -/
theorem finalize_fold_n (D : DblSort) (minN : Int) (m : Map (List Dbl)) (t : Tables) :
    (m.foldl (finalize_step D minN) t).key_n
      = m.foldl (fun a kv => if (kv.2.length : Int) < minN then a
          else a.set kv.1 (kv.2.length : Int)) t.key_n := by
  induction m generalizing t with
  | nil => rfl
  | cons kv r ih =>
    simp only [List.foldl_cons]
    rw [ih]
    congr 1
    unfold finalize_step
    simp only
    split <;> rfl

/-- A loop that stores `f vals` for every entry with enough values, read back at key `k`. -/
theorem fold_set_find {V : Type} (minN : Int) (f : List Dbl → V) (m : Map (List Dbl))
    (h : (m.map Prod.fst).Nodup) (a : Map V) (k : Str) :
    (m.foldl (fun a kv => if (kv.2.length : Int) < minN then a else a.set kv.1 (f kv.2)) a).find k
      = match m.find k with
        | some vals => if (vals.length : Int) < minN then a.find k else some (f vals)
        | none => a.find k := by
  induction m generalizing a with
  | nil => rfl
  | cons kv r ih =>
    obtain ⟨k1, v1⟩ := kv
    simp only [List.map_cons, List.nodup_cons] at h
    simp only [List.foldl_cons]
    rw [ih h.2]
    by_cases h1 : k1 = k
    · subst h1
      rw [Map.find_eq_none r k1 h.1]
      simp only [Map.find, if_true]
      split
      · rfl
      · rw [Map.find_set]; simp
    · simp only [Map.find, h1, if_false]
      have : (if (v1.length : Int) < minN then a else Map.set a k1 (f v1)).find k = a.find k := by
        split
        · rfl
        · rw [Map.find_set]; simp [h1]
      rw [this]


/-! ## Reference pass: lemmas -/

/-- An index inside the vector reads the element. -/
theorem fieldAt_eq_getD (flds : List Str) (i : Int) (h0 : 0 ≤ i) (h1 : i < (flds.length : Int)) :
    fieldAt flds i = some (flds.getD i.toNat []) := by
  have h2 : i.toNat < flds.length := by omega
  simp [fieldAt, h0, List.getD_eq_getElem?_getD, List.getElem?_eq_getElem h2]

/-- With resolved columns, one reference line adds the value of an accepted row under its key
and leaves the state alone otherwise. -/
theorem ref_row_eq (i_eur i_loc i_st : Int) (so : Bool) (st : RefState) (line : Str)
    (h1 : 0 ≤ i_eur) (h2 : 0 ≤ i_loc) (h3 : 0 ≤ i_st) :
    ref_row i_eur i_loc i_st so st line
      = some (match accepted_row i_eur i_loc i_st so line with
          | none => st
          | some kv =>
            { by_key_vals :=
                st.by_key_vals.set kv.1 ((st.by_key_vals.find kv.1).getD [] ++ [kv.2])
              by_key_count := st.by_key_count.set kv.1 ((st.by_key_count.find kv.1).getD 0 + 1)
              market_rows := st.market_rows + 1 }) := by
  unfold ref_row accepted_row
  by_cases hb : trim line = []
  · simp [hb]
  · simp only [hb, if_false, ne_eq, not_false_eq_true, true_and]
    by_cases hl : (↑(parse_csv_line line).length : Int) ≤ max i_eur (max i_loc i_st)
    · simp [hl, not_lt.mpr hl]
    · have hl2 : max i_eur (max i_loc i_st) < (↑(parse_csv_line line).length : Int) :=
        not_le.mp hl
      have he : i_eur < (↑(parse_csv_line line).length : Int) :=
        lt_of_le_of_lt (le_max_left _ _) hl2
      have hlo : i_loc < (↑(parse_csv_line line).length : Int) :=
        lt_of_le_of_lt (le_trans (le_max_left _ _) (le_max_right _ _)) hl2
      have hs : i_st < (↑(parse_csv_line line).length : Int) :=
        lt_of_le_of_lt (le_trans (le_max_right _ _) (le_max_right _ _)) hl2
      simp only [hl, hl2, if_false, if_true, fieldAt_eq_getD _ _ h1 he,
        fieldAt_eq_getD _ _ h2 hlo, fieldAt_eq_getD _ _ h3 hs, Option.some_bind]
      cases hd : to_double ((parse_csv_line line).getD i_eur.toNat []) with
      | none => rfl
      | some eur =>
        simp only
        by_cases hp : eur ≤ 0
        · simp [hp]
        · simp only [hp, if_false, not_false_eq_true, true_and]
          by_cases hn : norm_space ((parse_csv_line line).getD i_st.toNat []) = []
          · simp only [hn, if_true, ne_eq, not_true_eq_false, if_false]
          · simp only [hn, if_false, ne_eq, not_false_eq_true, if_true]

/-- The accepted values of a key, one line at a time. -/
theorem accepted_values_cons (i_eur i_loc i_st : Int) (so : Bool) (line : Str)
    (lines : List Str) (k : Str) :
    accepted_values i_eur i_loc i_st so (line :: lines) k
      = (match accepted_row i_eur i_loc i_st so line with
          | none => []
          | some kv => if kv.1 = k then [kv.2] else [])
        ++ accepted_values i_eur i_loc i_st so lines k := by
  unfold accepted_values
  cases h : accepted_row i_eur i_loc i_st so line with
  | none => simp [List.filterMap_cons, h]
  | some kv =>
    by_cases hk : kv.1 = k <;> simp [List.filterMap_cons, h, List.filter_cons, hk]

/-- The reference loop returns, keeps the keys of `by_key_vals` distinct, and appends to every
key the accepted values of that key in input order. -/
theorem ref_fold (i_eur i_loc i_st : Int) (so : Bool)
    (h1 : 0 ≤ i_eur) (h2 : 0 ≤ i_loc) (h3 : 0 ≤ i_st) (lines : List Str) (st : RefState)
    (hnd : (st.by_key_vals.map Prod.fst).Nodup) :
    ∃ st2, lines.foldlM (ref_row i_eur i_loc i_st so) st = some st2
      ∧ (st2.by_key_vals.map Prod.fst).Nodup
      ∧ ∀ k, st2.by_key_vals.find k
          = if accepted_values i_eur i_loc i_st so lines k = [] then st.by_key_vals.find k
            else some ((st.by_key_vals.find k).getD []
              ++ accepted_values i_eur i_loc i_st so lines k) := by
  induction lines generalizing st with
  | nil => exact ⟨st, rfl, hnd, fun k => by simp [accepted_values]⟩
  | cons line rest ih =>
    rw [List.foldlM_cons, ref_row_eq _ _ _ _ _ _ h1 h2 h3]
    simp only [Option.bind_eq_bind, Option.some_bind]
    cases ha : accepted_row i_eur i_loc i_st so line with
    | none =>
      obtain ⟨st2, hf, hn2, hfind⟩ := ih st hnd
      refine ⟨st2, hf, hn2, fun k => ?_⟩
      rw [hfind k, accepted_values_cons, ha]
      simp
    | some kv =>
      simp only
      obtain ⟨st2, hf, hn2, hfind⟩ := ih
        { by_key_vals :=
            st.by_key_vals.set kv.1 ((st.by_key_vals.find kv.1).getD [] ++ [kv.2])
          by_key_count := st.by_key_count.set kv.1 ((st.by_key_count.find kv.1).getD 0 + 1)
          market_rows := st.market_rows + 1 }
        (Map.nodup_keys_set st.by_key_vals kv.1
          ((st.by_key_vals.find kv.1).getD [] ++ [kv.2]) hnd)
      refine ⟨st2, hf, hn2, fun k => ?_⟩
      rw [hfind k, accepted_values_cons, ha, Map.find_set]
      by_cases hk : kv.1 = k
      · subst hk
        simp only [if_true, List.singleton_append]
        by_cases he : accepted_values i_eur i_loc i_st so rest kv.1 = []
        · simp [he]
        · simp [he]
      · simp [hk]


/-- The tables of the reference pass: a key is stored exactly when it has at least
`minSampleCount` accepted rows, with their number and the median of their values. -/
theorem reference_pass_find (D : DblSort) (i_eur i_loc i_st : Int) (so : Bool) (minN : Int)
    (lines : List Str) (h1 : 0 ≤ i_eur) (h2 : 0 ≤ i_loc) (h3 : 0 ≤ i_st) (hmin : 1 ≤ minN) :
    ∃ T, reference_pass D i_eur i_loc i_st so minN lines = some T ∧
      ∀ k,
        T.key_median.find k
            = (if minN ≤ ((accepted_values i_eur i_loc i_st so lines k).length : Int)
                then some (median_inplace D (accepted_values i_eur i_loc i_st so lines k))
                else none)
          ∧ T.key_n.find k
            = (if minN ≤ ((accepted_values i_eur i_loc i_st so lines k).length : Int)
                then some ((accepted_values i_eur i_loc i_st so lines k).length : Int)
                else none) := by
  obtain ⟨st2, hf, hnd, hfind⟩ :=
    ref_fold i_eur i_loc i_st so h1 h2 h3 lines {} List.nodup_nil
  refine ⟨finalize D minN st2.by_key_vals, by simp [reference_pass, hf], fun k => ?_⟩
  have hk := hfind k
  unfold finalize
  rw [finalize_fold_median, finalize_fold_n, fold_set_find minN (median_inplace D) _ hnd,
    fold_set_find minN (fun vals => (vals.length : Int)) _ hnd, hk]
  by_cases he : accepted_values i_eur i_loc i_st so lines k = []
  · have : ¬ minN ≤ 0 := by omega
    simp [he, Map.find, this]
  · simp only [he, if_false, Map.find, Option.getD_none, List.nil_append]
    by_cases hc : minN ≤ ((accepted_values i_eur i_loc i_st so lines k).length : Int)
    · simp [hc, not_lt.mpr hc]
    · simp [hc, not_le.mp hc]

/-- C3, refuted as stated: the text `nan` parses, and NaN is not `<= 0.0`, so a row priced `nan`
is accumulated although its price-per-area is not `> 0`.  With minimum sample count 5, four rows
priced 1000 to 1300 and a fifth priced `nan` on the same street, the key is stored with count 5,
while only four rows of the key have a price-per-area that parses and is `> 0`. -/
theorem reference_pass_table_counterexample :
    (positive_values 0 1 2 false
        ["1000,Town,Oak".toList, "1100,Town,Oak".toList, "1200,Town,Oak".toList,
          "1300,Town,Oak".toList, "nan,Town,Oak".toList] "Town | Oak".toList).length = 4
    ∧ ∃ T, reference_pass insertionDblSort 0 1 2 false 5
        ["1000,Town,Oak".toList, "1100,Town,Oak".toList, "1200,Town,Oak".toList,
          "1300,Town,Oak".toList, "nan,Town,Oak".toList] = some T
      ∧ T.key_n.find "Town | Oak".toList = some 5
      ∧ (T.key_median.find "Town | Oak".toList).isSome = true := by
  refine ⟨by decide!, ?_⟩
  obtain ⟨T, hT, h⟩ := reference_pass_find insertionDblSort 0 1 2 false 5
    ["1000,Town,Oak".toList, "1100,Town,Oak".toList, "1200,Town,Oak".toList,
      "1300,Town,Oak".toList, "nan,Town,Oak".toList]
    (by decide) (by decide) (by decide) (by decide)
  refine ⟨T, hT, ?_, ?_⟩
  · rw [(h _).2]; decide!
  · rw [(h _).1]; decide!

/-- C3, amended: with resolved column indices and `minSampleCount ≥ 1`, the reference pass
returns tables in which a grouping key is present exactly when the number of accepted reference
rows with that key is at least `minSampleCount`, where a row is accepted when it is not blank,
has enough fields, its price-per-area parses to a value that is not `<= 0` (a positive number,
or NaN) and its street normalizes to a non-empty string; the stored count is then that number,
and the stored median is `median_inplace` of exactly those rows' price-per-area values. -/
theorem reference_pass_table (D : DblSort) (i_eur i_loc i_st : Int) (street_only : Bool)
    (minN : Int) (lines : List Str) :
    0 ≤ i_eur → 0 ≤ i_loc → 0 ≤ i_st → 1 ≤ minN →
    ∃ T, reference_pass D i_eur i_loc i_st street_only minN lines = some T ∧
      ∀ k,
        T.key_median.find k
            = (if minN ≤ ((accepted_values i_eur i_loc i_st street_only lines k).length : Int)
                then some (median_inplace D
                  (accepted_values i_eur i_loc i_st street_only lines k))
                else none)
          ∧ T.key_n.find k
            = (if minN ≤ ((accepted_values i_eur i_loc i_st street_only lines k).length : Int)
                then some ((accepted_values i_eur i_loc i_st street_only lines k).length : Int)
                else none) :=
  fun h1 h2 h3 hmin => reference_pass_find D i_eur i_loc i_st street_only minN lines h1 h2 h3 hmin

/-- C3 on three reference rows with minimum sample count 2: the key with two rows is stored
with their median and count, the key with one row is absent. -/
theorem reference_pass_table_witness :
    ∃ T, reference_pass insertionDblSort 0 1 2 false 2
        ["1000,Town,Oak".toList, "900,Town,Elm".toList, "1200,Town,Oak".toList] = some T
      ∧ T.key_median.find "Town | Oak".toList = some 1100
      ∧ T.key_n.find "Town | Oak".toList = some 2
      ∧ T.key_median.find "Town | Elm".toList = none := by
  obtain ⟨T, hT, h⟩ := reference_pass_table insertionDblSort 0 1 2 false 2
    ["1000,Town,Oak".toList, "900,Town,Elm".toList, "1200,Town,Oak".toList]
    (by decide) (by decide) (by decide) (by decide)
  refine ⟨T, hT, ?_, ?_, ?_⟩
  · rw [(h _).1]; decide!
  · rw [(h _).2]; decide!
  · rw [(h _).1]; decide!


/-! ## Candidate pass: lemmas -/

/-- The guarded read of an optional column never reads outside the vector. -/
theorem opt_field_isSome {α : Type} (flds : List Str) (i : Int) (parse : Str → Option α)
    (out : α) : ∃ v, opt_field flds i parse out = some v := by
  unfold opt_field
  by_cases h : 0 ≤ i ∧ i < (flds.length : Int)
  · rw [if_pos h, fieldAt_eq_getD flds i h.1 h.2]
    exact ⟨_, rfl⟩
  · rw [if_neg h]
    exact ⟨_, rfl⟩

/-- C8: with resolved required columns, for every state of the candidate pass and every line
whose price-per-area field fails to parse or parses to a value `≤ 0`, or whose street field
normalizes to the empty string, the candidate loop body returns with the buffer and the
scored-row count unchanged. -/
theorem cand_row_skips (S : DealSort) (c : CandCfg) (st : CandState) (line : Str) :
    0 ≤ c.in_url → 0 ≤ c.in_eur → 0 ≤ c.in_loc → 0 ≤ c.in_st →
    (to_double ((parse_csv_line line).getD c.in_eur.toNat []) = none
      ∨ (∃ x, to_double ((parse_csv_line line).getD c.in_eur.toNat []) = some x ∧ x ≤ 0)
      ∨ norm_space ((parse_csv_line line).getD c.in_st.toNat []) = []) →
    ∃ st2, cand_row S c st line = some st2 ∧ st2.best = st.best
      ∧ st2.scored_rows = st.scored_rows := by
  intro h1 h2 h3 h4 hbad
  unfold cand_row
  by_cases hb : trim line = []
  · exact ⟨st, by simp [hb], rfl, rfl⟩
  · by_cases hl : (↑(parse_csv_line line).length : Int)
        ≤ max c.in_url (max c.in_eur (max c.in_loc c.in_st))
    · exact ⟨st, by simp [hb, hl], rfl, rfl⟩
    · have hl2 := not_le.mp hl
      have hu : c.in_url < (↑(parse_csv_line line).length : Int) :=
        lt_of_le_of_lt (le_max_left _ _) hl2
      have he : c.in_eur < (↑(parse_csv_line line).length : Int) :=
        lt_of_le_of_lt (le_trans (le_max_left _ _) (le_max_right _ _)) hl2
      have hlo : c.in_loc < (↑(parse_csv_line line).length : Int) :=
        lt_of_le_of_lt (le_trans (le_trans (le_max_left _ _) (le_max_right _ _))
          (le_max_right _ _)) hl2
      have hs : c.in_st < (↑(parse_csv_line line).length : Int) :=
        lt_of_le_of_lt (le_trans (le_trans (le_max_right _ _) (le_max_right _ _))
          (le_max_right _ _)) hl2
      have hscr : ∃ v, (if 0 ≤ c.in_scr ∧ c.in_scr < (↑(parse_csv_line line).length : Int)
          then fieldAt (parse_csv_line line) c.in_scr else some []) = some v := by
        by_cases h : 0 ≤ c.in_scr ∧ c.in_scr < (↑(parse_csv_line line).length : Int)
        · rw [if_pos h, fieldAt_eq_getD _ _ h.1 h.2]; exact ⟨_, rfl⟩
        · rw [if_neg h]; exact ⟨_, rfl⟩
      obtain ⟨vscr, hvscr⟩ := hscr
      simp only [hb, hl, if_false, hvscr, fieldAt_eq_getD _ _ h1 hu, fieldAt_eq_getD _ _ h2 he,
        fieldAt_eq_getD _ _ h3 hlo, fieldAt_eq_getD _ _ h4 hs, Option.some_bind]
      rcases hbad with hn | ⟨x, hx, hx0⟩ | hst
      · rw [hn]
        exact ⟨st, rfl, rfl, rfl⟩
      · rw [hx]
        simp only [hx0, if_true]
        exact ⟨st, rfl, rfl, rfl⟩
      · cases hd : to_double ((parse_csv_line line).getD c.in_eur.toNat []) with
        | none => exact ⟨st, rfl, rfl, rfl⟩
        | some eur =>
          simp only
          by_cases hp : eur ≤ 0
          · simp only [hp, if_true]
            exact ⟨st, rfl, rfl, rfl⟩
          · simp only [hp, if_false, hst, if_true]
            exact ⟨_, rfl, rfl, rfl⟩


/-- C8 on a row with price-per-area `0` and on a row with a blank street: the buffer, which
holds one entry, and the scored count stay as they are. -/
theorem cand_row_skips_witness :
    (∃ st2, cand_row insertionDealSort sample_cfg sample_state "u1,0,Town,Oak".toList = some st2
        ∧ st2.best = sample_state.best ∧ st2.scored_rows = sample_state.scored_rows)
      ∧ (∃ st2, cand_row insertionDealSort sample_cfg sample_state "u2,800,Town, ".toList
            = some st2
          ∧ st2.best = sample_state.best ∧ st2.scored_rows = sample_state.scored_rows) :=
  ⟨cand_row_skips insertionDealSort sample_cfg sample_state "u1,0,Town,Oak".toList
      (by decide) (by decide) (by decide) (by decide)
      (Or.inr (Or.inl ⟨0, by decide!, by decide⟩)),
    cand_row_skips insertionDealSort sample_cfg sample_state "u2,800,Town, ".toList
      (by decide) (by decide) (by decide) (by decide) (Or.inr (Or.inr (by decide)))⟩

/-- C9: for a line that passes the required-field checks (not blank, enough fields,
a price-per-area `eur` that parses and is not `<= 0`, non-empty normalized street), with `key`
its grouping key: if
`key_median` does not hold `key`, the loop body returns with the buffer and the scored count
unchanged; if it holds `key` with median `med`, the loop body makes exactly one call
`push_best(s)` and counts one more scored row, where `s.deal = med / eur`,
`s.street_median = med`, `s.street_n` is the count that `key_n` holds for `key` and `s.key = key`
(and `s.it` carries the price-per-area and the normalized location and street). -/
theorem cand_row_scores (S : DealSort) (c : CandCfg) (st : CandState) (line : Str)
    (eur : Dbl) :
    0 ≤ c.in_url → 0 ≤ c.in_eur → 0 ≤ c.in_loc → 0 ≤ c.in_st →
    trim line ≠ [] →
    max c.in_url (max c.in_eur (max c.in_loc c.in_st)) < ((parse_csv_line line).length : Int) →
    to_double ((parse_csv_line line).getD c.in_eur.toNat []) = some eur → ¬ (eur ≤ 0) →
    norm_space ((parse_csv_line line).getD c.in_st.toNat []) ≠ [] →
    (c.key_median.find (grouping_key c.street_only
          (norm_space ((parse_csv_line line).getD c.in_loc.toNat []))
          (norm_space ((parse_csv_line line).getD c.in_st.toNat []))) = none →
        ∃ st2, cand_row S c st line = some st2 ∧ st2.best = st.best
          ∧ st2.scored_rows = st.scored_rows)
      ∧ (∀ med, c.key_median.find (grouping_key c.street_only
          (norm_space ((parse_csv_line line).getD c.in_loc.toNat []))
          (norm_space ((parse_csv_line line).getD c.in_st.toNat []))) = some med →
        ∃ s st2, cand_row S c st line = some st2
          ∧ st2.best = push_best S c.top_n st.best s
          ∧ st2.scored_rows = st.scored_rows + 1
          ∧ s.deal = med / eur ∧ s.street_median = med
          ∧ s.street_n = (c.key_n.find (grouping_key c.street_only
              (norm_space ((parse_csv_line line).getD c.in_loc.toNat []))
              (norm_space ((parse_csv_line line).getD c.in_st.toNat [])))).getD 0
          ∧ s.key = grouping_key c.street_only
              (norm_space ((parse_csv_line line).getD c.in_loc.toNat []))
              (norm_space ((parse_csv_line line).getD c.in_st.toNat []))
          ∧ s.it.eur_per_m2 = eur
          ∧ s.it.location = norm_space ((parse_csv_line line).getD c.in_loc.toNat [])
          ∧ s.it.street = norm_space ((parse_csv_line line).getD c.in_st.toNat [])) := by
  intro h1 h2 h3 h4 hb hl2 hd hpos hst
  have hl : ¬ (↑(parse_csv_line line).length : Int)
      ≤ max c.in_url (max c.in_eur (max c.in_loc c.in_st)) := not_le.mpr hl2
  have hu : c.in_url < (↑(parse_csv_line line).length : Int) :=
    lt_of_le_of_lt (le_max_left _ _) hl2
  have he : c.in_eur < (↑(parse_csv_line line).length : Int) :=
    lt_of_le_of_lt (le_trans (le_max_left _ _) (le_max_right _ _)) hl2
  have hlo : c.in_loc < (↑(parse_csv_line line).length : Int) :=
    lt_of_le_of_lt (le_trans (le_trans (le_max_left _ _) (le_max_right _ _))
      (le_max_right _ _)) hl2
  have hs : c.in_st < (↑(parse_csv_line line).length : Int) :=
    lt_of_le_of_lt (le_trans (le_trans (le_max_right _ _) (le_max_right _ _))
      (le_max_right _ _)) hl2
  have hscr : ∃ v, (if 0 ≤ c.in_scr ∧ c.in_scr < (↑(parse_csv_line line).length : Int)
      then fieldAt (parse_csv_line line) c.in_scr else some []) = some v := by
    by_cases h : 0 ≤ c.in_scr ∧ c.in_scr < (↑(parse_csv_line line).length : Int)
    · rw [if_pos h, fieldAt_eq_getD _ _ h.1 h.2]; exact ⟨_, rfl⟩
    · rw [if_neg h]; exact ⟨_, rfl⟩
  obtain ⟨vscr, hvscr⟩ := hscr
  obtain ⟨vp, hvp⟩ := opt_field_isSome (parse_csv_line line) c.in_price to_int 0
  obtain ⟨vr, hvr⟩ := opt_field_isSome (parse_csv_line line) c.in_rooms to_int (-1)
  obtain ⟨va, hva⟩ := opt_field_isSome (parse_csv_line line) c.in_area to_double (-1)
  obtain ⟨vi, hvi⟩ := opt_field_isSome (parse_csv_line line) c.in_ir to_int 0
  have hpn : ¬ eur ≤ 0 := hpos
  unfold cand_row
  simp only [hb, hl, if_false, hvscr, fieldAt_eq_getD _ _ h1 hu, fieldAt_eq_getD _ _ h2 he,
    fieldAt_eq_getD _ _ h3 hlo, fieldAt_eq_getD _ _ h4 hs, Option.some_bind, hd, hpn, hst,
    hvp, hvr, hva, hvi]
  constructor
  · intro hk
    rw [hk]
    exact ⟨_, rfl, rfl, rfl⟩
  · intro med hk
    rw [hk]
    exact ⟨_, _, rfl, rfl, rfl, rfl, rfl, rfl, rfl, rfl, rfl, rfl⟩


/-- C9 on the row `u3,800,Town,Oak` against a table holding `Town | Oak` with median 1200 and
count 5: one entry with deal `1200 / 800 = 3 / 2` is offered; and on the row `u4,800,Town,Elm`,
whose key the table does not hold: the buffer stays as it is. -/
theorem cand_row_scores_witness :
    (∃ s st2, cand_row insertionDealSort sample_cfg sample_state "u3,800,Town,Oak".toList
          = some st2
        ∧ st2.best = push_best insertionDealSort 3 sample_state.best s
        ∧ st2.scored_rows = 2 ∧ s.deal = 3 / 2 ∧ s.street_median = 1200 ∧ s.street_n = 5
        ∧ s.key = "Town | Oak".toList)
      ∧ (∃ st2, cand_row insertionDealSort sample_cfg sample_state "u4,800,Town,Elm".toList
            = some st2
          ∧ st2.best = sample_state.best ∧ st2.scored_rows = 1) := by
  refine ⟨?_, ?_⟩
  · obtain ⟨s, st2, h1, h2, h3, h4, h5, h6, h7, _⟩ :=
      (cand_row_scores insertionDealSort sample_cfg sample_state "u3,800,Town,Oak".toList 800
        (by decide) (by decide) (by decide) (by decide) (by decide) (by decide) (by decide!)
        (by decide) (by decide)).2 1200 (by decide)
    refine ⟨s, st2, h1, h2, h3, ?_, h5, ?_, ?_⟩
    · rw [h4]; decide!
    · rw [h6]; decide
    · rw [h7]; decide
  · exact (cand_row_scores insertionDealSort sample_cfg sample_state "u4,800,Town,Elm".toList
      800 (by decide) (by decide) (by decide) (by decide) (by decide) (by decide) (by decide!)
      (by decide) (by decide)).1 (by decide)


/-! ## Candidate pass: the loop body in closed form -/

/-- The guarded read of an optional column, in closed form. -/
theorem opt_field_eq {α : Type} (flds : List Str) (i : Int) (parse : Str → Option α)
    (out : α) :
    opt_field flds i parse out
      = some (if 0 ≤ i ∧ i < (flds.length : Int) then (parse (flds.getD i.toNat [])).getD out
          else out) := by
  unfold opt_field
  by_cases h : 0 ≤ i ∧ i < (flds.length : Int)
  · rw [if_pos h, if_pos h, fieldAt_eq_getD flds i h.1 h.2]
    rfl
  · rw [if_neg h, if_neg h]

/-- With resolved required columns, on a line that is not blank and has enough fields the
candidate loop body reads inside the vector, and its result is the following. -/
theorem cand_row_eq (S : DealSort) (c : CandCfg) (st : CandState) (line : Str)
    (h1 : 0 ≤ c.in_url) (h2 : 0 ≤ c.in_eur) (h3 : 0 ≤ c.in_loc) (h4 : 0 ≤ c.in_st)
    (hb : trim line ≠ [])
    (hl2 : max c.in_url (max c.in_eur (max c.in_loc c.in_st))
      < ((parse_csv_line line).length : Int)) :
    cand_row S c st line
      = some (match to_double ((parse_csv_line line).getD c.in_eur.toNat []) with
          | none => st
          | some eur =>
            if eur ≤ 0 then st
            else if norm_space ((parse_csv_line line).getD c.in_st.toNat []) = [] then
              { st with in_rows := st.in_rows + 1 }
            else
              match c.key_median.find (grouping_key c.street_only
                  (norm_space ((parse_csv_line line).getD c.in_loc.toNat []))
                  (norm_space ((parse_csv_line line).getD c.in_st.toNat []))) with
              | none => { st with in_rows := st.in_rows + 1 }
              | some med =>
                { best := push_best S c.top_n st.best
                    (scored_entry c (parse_csv_line line) eur med)
                  in_rows := st.in_rows + 1
                  scored_rows := st.scored_rows + 1 }) := by
  have hl : ¬ (↑(parse_csv_line line).length : Int)
      ≤ max c.in_url (max c.in_eur (max c.in_loc c.in_st)) := not_le.mpr hl2
  have hu : c.in_url < (↑(parse_csv_line line).length : Int) :=
    lt_of_le_of_lt (le_max_left _ _) hl2
  have he : c.in_eur < (↑(parse_csv_line line).length : Int) :=
    lt_of_le_of_lt (le_trans (le_max_left _ _) (le_max_right _ _)) hl2
  have hlo : c.in_loc < (↑(parse_csv_line line).length : Int) :=
    lt_of_le_of_lt (le_trans (le_trans (le_max_left _ _) (le_max_right _ _))
      (le_max_right _ _)) hl2
  have hs : c.in_st < (↑(parse_csv_line line).length : Int) :=
    lt_of_le_of_lt (le_trans (le_trans (le_max_right _ _) (le_max_right _ _))
      (le_max_right _ _)) hl2
  have hscr : (if 0 ≤ c.in_scr ∧ c.in_scr < (↑(parse_csv_line line).length : Int)
      then fieldAt (parse_csv_line line) c.in_scr else some [])
        = some (if 0 ≤ c.in_scr ∧ c.in_scr < (↑(parse_csv_line line).length : Int)
            then (parse_csv_line line).getD c.in_scr.toNat [] else []) := by
    by_cases h : 0 ≤ c.in_scr ∧ c.in_scr < (↑(parse_csv_line line).length : Int)
    · rw [if_pos h, if_pos h, fieldAt_eq_getD _ _ h.1 h.2]
    · rw [if_neg h, if_neg h]
  unfold cand_row
  simp only [hb, hl, if_false, hscr, fieldAt_eq_getD _ _ h1 hu, fieldAt_eq_getD _ _ h2 he,
    fieldAt_eq_getD _ _ h3 hlo, fieldAt_eq_getD _ _ h4 hs, Option.some_bind, opt_field_eq]
  cases to_double ((parse_csv_line line).getD c.in_eur.toNat []) with
  | none => rfl
  | some eur =>
    simp only
    by_cases hp : eur ≤ 0
    · simp only [hp, if_true]
    · simp only [hp, if_false]
      by_cases hst : norm_space ((parse_csv_line line).getD c.in_st.toNat []) = []
      · simp only [hst, if_true]
      · simp only [hst, if_false]
        cases c.key_median.find (grouping_key c.street_only
            (norm_space ((parse_csv_line line).getD c.in_loc.toNat []))
            (norm_space ((parse_csv_line line).getD c.in_st.toNat []))) with
        | none => rfl
        | some med => rfl

/-- The deal ratios held after `push_best` depend on the offered entry through its deal ratio
only, when the deal ratios at hand are numbers. -/
theorem push_best_deals_congr (S : DealSort) (N : Int) (best : List Scored) (s1 s2 : Scored)
    (h : s1.deal = s2.deal) (hb : ∀ s ∈ best, s.deal ≠ Dbl.nan) (hs : s1.deal ≠ Dbl.nan) :
    (push_best S N best s1).map Scored.deal = (push_best S N best s2).map Scored.deal := by
  have h1 : ∀ s ∈ best ++ [s1], s.deal ≠ Dbl.nan := by
    intro s hs2
    rcases List.mem_append.mp hs2 with hs2 | hs2
    · exact hb s hs2
    · rw [List.mem_singleton.mp hs2]; exact hs
  have h2 : ∀ s ∈ best ++ [s2], s.deal ≠ Dbl.nan := by
    intro s hs2
    rcases List.mem_append.mp hs2 with hs2 | hs2
    · exact hb s hs2
    · rw [List.mem_singleton.mp hs2, ← h]; exact hs
  rw [push_best_eq_take, push_best_eq_take, List.map_take, List.map_take, deals_run S _ h1,
    deals_run S _ h2, List.map_append, List.map_append, List.map_singleton, List.map_singleton,
    h]

/-- Insertion from the back commutes with a map that respects the comparator. -/
theorem linear_insert_map {α β : Type} (f : α → β) (comp : α → α → Bool) (comp2 : β → β → Bool)
    (h : ∀ a b, comp a b = comp2 (f a) (f b)) (val : α) (d : List α) :
    (linear_insert comp val d).map f = linear_insert comp2 (f val) (d.map f) := by
  induction d with
  | nil => rfl
  | cons x r ih =>
    simp only [linear_insert, List.map_cons, ← h]
    split
    · simp [ih]
    · simp

/-- One round of insertion sort commutes with a map that respects the comparator. -/
theorem insertion_step_map {α β : Type} (f : α → β) (comp : α → α → Bool)
    (comp2 : β → β → Bool) (h : ∀ a b, comp a b = comp2 (f a) (f b)) (d : List α) (x : α) :
    (insertion_step comp d x).map f = insertion_step comp2 (d.map f) (f x) := by
  unfold insertion_step
  rw [List.getLast?_map]
  cases d.getLast? with
  | none => simp
  | some first =>
    simp only [Option.map_some', ← h]
    split
    · simp
    · exact linear_insert_map f comp comp2 h x d

/-- Insertion sort commutes with a map that respects the comparator: the result depends on the
elements through the compared values only. -/
theorem insertion_sort_map {α β : Type} (f : α → β) (comp : α → α → Bool)
    (comp2 : β → β → Bool) (h : ∀ a b, comp a b = comp2 (f a) (f b)) (l : List α) :
    (insertion_sort comp l).map f = insertion_sort comp2 (l.map f) := by
  have h1 : ∀ (r d : List α), (r.foldl (insertion_step comp) d).map f
      = (r.map f).foldl (insertion_step comp2) (d.map f) := by
    intro r
    induction r with
    | nil => intro d; rfl
    | cons x r ih =>
      intro d
      simp only [List.foldl_cons, List.map_cons]
      rw [ih, insertion_step_map f comp comp2 h]
  unfold insertion_sort
  rw [List.map_reverse, h1]
  rfl

/-- With insertion sort for `std::sort`, the deal ratios held after `push_best` depend on the
offered entry through its deal ratio only, whatever the deal ratios are. -/
theorem push_best_deals_insertion (S : DealSort) (N : Int) (best : List Scored)
    (s1 s2 : Scored) (hS : S.run = insertion_sort deal_gt) (h : s1.deal = s2.deal) :
    (push_best S N best s1).map Scored.deal = (push_best S N best s2).map Scored.deal := by
  have hm : ∀ l, (S.run l).map Scored.deal
      = insertion_sort (fun x y : Dbl => decide (x > y)) (l.map Scored.deal) := by
    intro l
    rw [hS]
    exact insertion_sort_map Scored.deal deal_gt _ (fun _ _ => rfl) l
  have hp : ∀ s, (push_best S N best s).map Scored.deal
      = if ((insertion_sort (fun x y : Dbl => decide (x > y))
            ((best ++ [s]).map Scored.deal)).length : Int) > N
        then (insertion_sort (fun x y : Dbl => decide (x > y))
            ((best ++ [s]).map Scored.deal)).take N.toNat
        else insertion_sort (fun x y : Dbl => decide (x > y))
            ((best ++ [s]).map Scored.deal) := by
    intro s
    rw [← hm]
    unfold push_best
    simp only [List.length_map]
    split
    · rw [List.map_take]
    · rfl
  rw [hp, hp, List.map_append, List.map_append, List.map_singleton, List.map_singleton, h]

/-- C12: for every candidate row that passes the size check with resolved required columns,
(1) a second such row with the same price-per-area, location and street fields, whatever its
other fields, is scored exactly when the first one is, and then the two offered entries have
the same deal ratio `med / eur` (so that the two rows leave the same deal ratios in the buffer,
for every conforming sort when the deal ratios at hand are numbers, and for insertion sort
whatever they are); (2) when the row is scored, every optional field of
the offered entry's listing whose column is absent, whose cell lies beyond the end of the row,
or whose text the parser rejects has its default value (`price_eur = 0`, `rooms = -1`,
`area_m2 = -1`, `irengtas = 0`, `scraped_at` empty when absent or beyond the end). -/
theorem optional_fields_tolerated (S : DealSort) (c : CandCfg) (st : CandState) (line : Str) :
    0 ≤ c.in_url → 0 ≤ c.in_eur → 0 ≤ c.in_loc → 0 ≤ c.in_st →
    trim line ≠ [] →
    max c.in_url (max c.in_eur (max c.in_loc c.in_st)) < ((parse_csv_line line).length : Int) →
    (∀ line2, trim line2 ≠ [] →
        max c.in_url (max c.in_eur (max c.in_loc c.in_st))
          < ((parse_csv_line line2).length : Int) →
        (parse_csv_line line2).getD c.in_eur.toNat [] = (parse_csv_line line).getD c.in_eur.toNat [] →
        (parse_csv_line line2).getD c.in_loc.toNat [] = (parse_csv_line line).getD c.in_loc.toNat [] →
        (parse_csv_line line2).getD c.in_st.toNat [] = (parse_csv_line line).getD c.in_st.toNat [] →
        ∃ a b, cand_row S c st line = some a ∧ cand_row S c st line2 = some b
          ∧ a.scored_rows = b.scored_rows
          ∧ ((a.best = st.best ∧ b.best = st.best)
            ∨ ∃ eur med s1 s2,
                to_double ((parse_csv_line line).getD c.in_eur.toNat []) = some eur
                ∧ c.key_median.find (grouping_key c.street_only
                    (norm_space ((parse_csv_line line).getD c.in_loc.toNat []))
                    (norm_space ((parse_csv_line line).getD c.in_st.toNat []))) = some med
                ∧ a.best = push_best S c.top_n st.best s1
                ∧ b.best = push_best S c.top_n st.best s2
                ∧ s1.deal = med / eur ∧ s2.deal = med / eur
                ∧ ((∀ s ∈ st.best, s.deal ≠ Dbl.nan) → med / eur ≠ Dbl.nan →
                    a.best.map Scored.deal = b.best.map Scored.deal)
                ∧ (S.run = insertion_sort deal_gt →
                    a.best.map Scored.deal = b.best.map Scored.deal)))
      ∧ (∀ eur med, to_double ((parse_csv_line line).getD c.in_eur.toNat []) = some eur →
          ¬ (eur ≤ 0) → norm_space ((parse_csv_line line).getD c.in_st.toNat []) ≠ [] →
          c.key_median.find (grouping_key c.street_only
            (norm_space ((parse_csv_line line).getD c.in_loc.toNat []))
            (norm_space ((parse_csv_line line).getD c.in_st.toNat []))) = some med →
          ∃ s st2, cand_row S c st line = some st2
            ∧ st2.best = push_best S c.top_n st.best s
            ∧ st2.scored_rows = st.scored_rows + 1
            ∧ s.deal = med / eur
            ∧ ((c.in_price < 0 ∨ ((parse_csv_line line).length : Int) ≤ c.in_price
                ∨ to_int ((parse_csv_line line).getD c.in_price.toNat []) = none) →
                s.it.price_eur = 0)
            ∧ ((c.in_rooms < 0 ∨ ((parse_csv_line line).length : Int) ≤ c.in_rooms
                ∨ to_int ((parse_csv_line line).getD c.in_rooms.toNat []) = none) →
                s.it.rooms = -1)
            ∧ ((c.in_area < 0 ∨ ((parse_csv_line line).length : Int) ≤ c.in_area
                ∨ to_double ((parse_csv_line line).getD c.in_area.toNat []) = none) →
                s.it.area_m2 = -1)
            ∧ ((c.in_ir < 0 ∨ ((parse_csv_line line).length : Int) ≤ c.in_ir
                ∨ to_int ((parse_csv_line line).getD c.in_ir.toNat []) = none) →
                s.it.irengtas = 0)
            ∧ ((c.in_scr < 0 ∨ ((parse_csv_line line).length : Int) ≤ c.in_scr) →
                s.it.scraped_at = [])) := by
  intro h1 h2 h3 h4 hb hl
  constructor
  · intro line2 hb2 hl2 e1 e2 e3
    refine ⟨_, _, cand_row_eq S c st line h1 h2 h3 h4 hb hl,
      cand_row_eq S c st line2 h1 h2 h3 h4 hb2 hl2, ?_, ?_⟩
    · rw [e1, e2, e3]
      cases to_double ((parse_csv_line line).getD c.in_eur.toNat []) with
      | none => rfl
      | some eur =>
        simp only
        split
        · rfl
        · split
          · rfl
          · cases c.key_median.find (grouping_key c.street_only
                (norm_space ((parse_csv_line line).getD c.in_loc.toNat []))
                (norm_space ((parse_csv_line line).getD c.in_st.toNat []))) with
            | none => rfl
            | some med => rfl
    · rw [e1, e2, e3]
      cases hd : to_double ((parse_csv_line line).getD c.in_eur.toNat []) with
      | none => exact Or.inl ⟨rfl, rfl⟩
      | some eur =>
        simp only
        split
        · exact Or.inl ⟨rfl, rfl⟩
        · split
          · exact Or.inl ⟨rfl, rfl⟩
          · cases hk : c.key_median.find (grouping_key c.street_only
                (norm_space ((parse_csv_line line).getD c.in_loc.toNat []))
                (norm_space ((parse_csv_line line).getD c.in_st.toNat []))) with
            | none => exact Or.inl ⟨rfl, rfl⟩
            | some med =>
              refine Or.inr ⟨eur, med, _, _, rfl, rfl, rfl, rfl, rfl, rfl, ?_, ?_⟩
              · intro hbest hdeal
                exact push_best_deals_congr S c.top_n st.best _ _ rfl hbest hdeal
              · intro hS
                exact push_best_deals_insertion S c.top_n st.best _ _ hS rfl
  · intro eur med hd hpos hst hk
    have hpn : ¬ eur ≤ 0 := hpos
    have heq := cand_row_eq S c st line h1 h2 h3 h4 hb hl
    rw [hd] at heq
    simp only [hpn, if_false, hst, hk] at heq
    refine ⟨_, _, heq, rfl, rfl, rfl, ?_, ?_, ?_, ?_, ?_⟩
    · rintro (h | h | h)
      · simp [scored_entry, not_le.mpr h]
      · simp [scored_entry, not_lt.mpr h]
      · simp only [scored_entry, h, Option.getD_none, ite_self]
    · rintro (h | h | h)
      · simp [scored_entry, not_le.mpr h]
      · simp [scored_entry, not_lt.mpr h]
      · simp only [scored_entry, h, Option.getD_none, ite_self]
    · rintro (h | h | h)
      · simp [scored_entry, not_le.mpr h]
      · simp [scored_entry, not_lt.mpr h]
      · simp only [scored_entry, h, Option.getD_none, ite_self]
    · rintro (h | h | h)
      · simp [scored_entry, not_le.mpr h]
      · simp [scored_entry, not_lt.mpr h]
      · simp only [scored_entry, h, Option.getD_none, ite_self]
    · rintro (h | h)
      · simp [scored_entry, not_le.mpr h]
      · simp [scored_entry, not_lt.mpr h]

/-- C12 on the row `u5,800,Town,Oak,abc` under the header
`url,eur_per_m2,location,street,rooms,area_m2`: it is scored like the row
`u6,800,Town,Oak,3,55.5`, and its listing keeps `rooms = -1` (text rejected), `area_m2 = -1`
(cell beyond the end of the row) and the defaults of the three absent columns. -/
theorem optional_fields_tolerated_witness :
    (∃ a b, cand_row insertionDealSort sample_cfg_opt sample_state "u5,800,Town,Oak,abc".toList
          = some a
        ∧ cand_row insertionDealSort sample_cfg_opt sample_state
            "u6,800,Town,Oak,3,55.5".toList = some b
        ∧ a.scored_rows = b.scored_rows
        ∧ a.best.map Scored.deal = b.best.map Scored.deal)
      ∧ (∃ s st2, cand_row insertionDealSort sample_cfg_opt sample_state
            "u5,800,Town,Oak,abc".toList = some st2
          ∧ st2.best = push_best insertionDealSort 3 sample_state.best s
          ∧ s.it.price_eur = 0 ∧ s.it.rooms = -1 ∧ s.it.area_m2 = -1 ∧ s.it.irengtas = 0
          ∧ s.it.scraped_at = []) := by
  have h := optional_fields_tolerated insertionDealSort sample_cfg_opt sample_state
    "u5,800,Town,Oak,abc".toList (by decide) (by decide) (by decide) (by decide) (by decide)
    (by decide)
  refine ⟨?_, ?_⟩
  · obtain ⟨a, b, ha, hb, hsc, hbest⟩ := h.1 "u6,800,Town,Oak,3,55.5".toList (by decide)
      (by decide) (by decide) (by decide) (by decide)
    refine ⟨a, b, ha, hb, hsc, ?_⟩
    rcases hbest with ⟨e1, e2⟩ | ⟨_, _, _, _, _, _, _, _, _, _, _, himp⟩
    · rw [e1, e2]
    · exact himp rfl
  · obtain ⟨s, st2, e1, e2, _, _, hp, hr, ha, hi, hs⟩ :=
      h.2 800 1200 (by decide!) (by decide) (by decide) (by decide)
    exact ⟨s, st2, e1, e2, hp (Or.inl (by decide)), hr (Or.inr (Or.inr (by decide))),
      ha (Or.inr (Or.inl (by decide))), hi (Or.inl (by decide)), hs (Or.inl (by decide))⟩


/-! ## The reference pass and the conforming sort -/

/-- In a map with distinct keys, an entry is found under its key. -/
theorem Map.find_of_mem {V : Type} (m : Map V) (k : Str) (v : V)
    (hnd : (m.map Prod.fst).Nodup) (h : (k, v) ∈ m) : m.find k = some v := by
  induction m with
  | nil => exact absurd h (List.not_mem_nil _)
  | cons kv r ih =>
    obtain ⟨k1, v1⟩ := kv
    simp only [List.map_cons, List.nodup_cons] at hnd
    rcases List.mem_cons.mp h with h | h
    · injection h with e1 e2
      subst e1 e2
      simp [Map.find]
    · have hk : k1 ≠ k := by
        intro e
        subst e
        exact hnd.1 (List.mem_map_of_mem Prod.fst h)
      simp only [Map.find, hk, if_false]
      exact ih hnd.2 h

/-- The finalization loop does not depend on the conforming sort when the accumulated values
are numbers. -/
theorem finalize_congr (D E : DblSort) (minN : Int) (m : Map (List Dbl))
    (h : ∀ kv ∈ m, ∀ x ∈ kv.2, x ≠ Dbl.nan) : finalize D minN m = finalize E minN m := by
  unfold finalize
  generalize ({} : Tables) = t
  induction m generalizing t with
  | nil => rfl
  | cons kv r ih =>
    simp only [List.foldl_cons]
    have : finalize_step D minN t kv = finalize_step E minN t kv := by
      unfold finalize_step
      rw [median_inplace_congr D E kv.2 (h kv (List.mem_cons_self _ _))]
    rw [this]
    exact ih (fun kv2 hkv => h kv2 (List.mem_cons_of_mem _ hkv)) _

/-- The values of an accepted key are values of accepted rows. -/
theorem accepted_values_mem (i_eur i_loc i_st : Int) (so : Bool) (lines : List Str) (k : Str)
    (x : Dbl) (h : x ∈ accepted_values i_eur i_loc i_st so lines k) :
    ∃ kv ∈ lines.filterMap (accepted_row i_eur i_loc i_st so), kv.1 = k ∧ kv.2 = x := by
  unfold accepted_values at h
  obtain ⟨kv, hkv, rfl⟩ := List.mem_map.mp h
  rw [List.mem_filter] at hkv
  exact ⟨kv, hkv.1, by simpa using hkv.2, rfl⟩

/-- The reference pass does not depend on the conforming sort when the accepted values are
numbers. -/
theorem reference_pass_congr (D E : DblSort) (i_eur i_loc i_st : Int) (so : Bool) (minN : Int)
    (lines : List Str) (h1 : 0 ≤ i_eur) (h2 : 0 ≤ i_loc) (h3 : 0 ≤ i_st)
    (hn : ∀ kv ∈ lines.filterMap (accepted_row i_eur i_loc i_st so), kv.2 ≠ Dbl.nan) :
    reference_pass D i_eur i_loc i_st so minN lines
      = reference_pass E i_eur i_loc i_st so minN lines := by
  obtain ⟨st2, hf, hnd, hfind⟩ :=
    ref_fold i_eur i_loc i_st so h1 h2 h3 lines {} List.nodup_nil
  unfold reference_pass
  rw [hf]
  simp only [Option.map_some']
  congr 1
  refine finalize_congr D E minN _ ?_
  intro kv hkv x hx
  have hk := hfind kv.1
  rw [Map.find_of_mem _ kv.1 kv.2 hnd hkv] at hk
  by_cases he : accepted_values i_eur i_loc i_st so lines kv.1 = []
  · rw [if_pos he] at hk
    exact absurd hk (by simp [Map.find])
  · rw [if_neg he] at hk
    simp only [Map.find, Option.getD_none, List.nil_append, Option.some.injEq] at hk
    rw [hk] at hx
    obtain ⟨kv2, hkv2, _, e⟩ := accepted_values_mem _ _ _ _ _ _ _ hx
    rw [← e]
    exact hn kv2 hkv2

/-! ## End-to-end scenarios -/

/-- With resolved required columns, a row that passes every check and whose key has the
median `med` offers `scored_entry` to the buffer and counts as scored. -/
theorem cand_row_scored (S : DealSort) (c : CandCfg) (st : CandState) (line : Str)
    (eur med : Dbl)
    (h1 : 0 ≤ c.in_url) (h2 : 0 ≤ c.in_eur) (h3 : 0 ≤ c.in_loc) (h4 : 0 ≤ c.in_st)
    (hb : trim line ≠ [])
    (hl : max c.in_url (max c.in_eur (max c.in_loc c.in_st))
      < ((parse_csv_line line).length : Int))
    (hd : to_double ((parse_csv_line line).getD c.in_eur.toNat []) = some eur)
    (hpos : ¬ (eur ≤ 0))
    (hst : norm_space ((parse_csv_line line).getD c.in_st.toNat []) ≠ [])
    (hk : c.key_median.find (grouping_key c.street_only
        (norm_space ((parse_csv_line line).getD c.in_loc.toNat []))
        (norm_space ((parse_csv_line line).getD c.in_st.toNat []))) = some med) :
    cand_row S c st line
      = some { best := push_best S c.top_n st.best (scored_entry c (parse_csv_line line) eur med)
               in_rows := st.in_rows + 1
               scored_rows := st.scored_rows + 1 } := by
  rw [cand_row_eq S c st line h1 h2 h3 h4 hb hl, hd]
  simp only [hpos, if_false, hst, hk]

/-- On a single entry every comparator of the form `a.deal > b.deal` is a strict weak order. -/
theorem strict_weak_singleton (s : Scored) : strict_weak_on deal_gt [s] := by
  have hs : deal_gt s s = false := by
    unfold deal_gt
    cases h : s.deal <;> simp [gt_iff_lt, Dbl.lt_iff, Dbl.lt]
  refine ⟨?_, ?_, ?_⟩
  · intro a ha
    rw [List.mem_singleton.mp ha]
    exact hs
  · intro a ha b hb c _ hab
    rw [List.mem_singleton.mp ha, List.mem_singleton.mp hb, hs] at hab
    exact absurd hab (by simp)
  · intro a ha b _ c hc _ _ _ _
    rw [List.mem_singleton.mp ha, List.mem_singleton.mp hc]
    exact ⟨hs, hs⟩

/-- The first entry offered to an empty buffer is kept. -/
theorem push_best_first (S : DealSort) (N : Int) (s : Scored) (hN : 1 ≤ N) :
    push_best S N [] s = [s] := by
  rw [push_best_eq_take, List.nil_append]
  have h := S.perm [s] (strict_weak_singleton s)
  rw [List.perm_singleton] at h
  rw [h]
  have : N.toNat = (N.toNat - 1) + 1 := by omega
  rw [this, List.take_succ_cons, List.take_nil]

/-- A buffer of size one keeps the entry with the strictly larger deal ratio, when the two deal
ratios are numbers. -/
theorem push_best_top1 (S : DealSort) (a s : Scored) (h : a.deal ≠ s.deal)
    (ha : a.deal ≠ Dbl.nan) (hs : s.deal ≠ Dbl.nan) :
    push_best S 1 [a] s = [if s.deal < a.deal then a else s] := by
  rw [push_best_eq_take]
  have hnan : ∀ x ∈ [a] ++ [s], x.deal ≠ Dbl.nan := by
    intro x hx
    simp only [List.singleton_append, List.mem_cons, List.mem_singleton, List.not_mem_nil,
      or_false] at hx
    rcases hx with hx | hx <;> rw [hx] <;> assumption
  have hperm := S.perm ([a] ++ [s]) (strict_weak_deal _ hnan)
  have hdeals := deals_run S ([a] ++ [s]) hnan
  have hlen := hperm.length_eq
  generalize S.run ([a] ++ [s]) = l at hperm hdeals hlen
  have hlen2 : l.length = 2 := hlen
  obtain ⟨x, y, rfl⟩ := List.length_eq_two.mp hlen2
  have hx : x ∈ [a] ++ [s] := hperm.subset (List.mem_cons_self _ _)
  simp only [List.singleton_append, List.mem_cons, List.mem_singleton, List.not_mem_nil,
    or_false] at hx
  have etake : List.take (1 : Int).toNat [x, y] = [x] := rfl
  rw [etake]
  have hs2 : ([a] ++ [s]).map Scored.deal = [a.deal, s.deal] := rfl
  rw [hs2] at hdeals
  by_cases hlt : s.deal < a.deal
  · rw [if_pos hlt]
    have hdesc : Dbl.desc a.deal s.deal := Or.inl (Dbl.lt_imp_le hlt)
    have hsort : List.insertionSort Dbl.desc [a.deal, s.deal] = [a.deal, s.deal] := by
      simp [List.insertionSort, List.orderedInsert, hdesc]
    rw [hsort] at hdeals
    simp only [List.map_cons, List.map_nil, List.cons.injEq, and_true] at hdeals
    rcases hx with hx | hx
    · rw [hx]
    · rw [hx] at hdeals
      exact absurd hdeals.1.symm h
  · rw [if_neg hlt]
    have hle : a.deal ≤ s.deal := (Dbl.not_lt_iff hs ha).mp hlt
    have hdesc : ¬ Dbl.desc a.deal s.deal := by
      rintro (h2 | h2)
      · exact h (Dbl.antisymm_le hle h2)
      · exact hs h2
    have hsort : List.insertionSort Dbl.desc [a.deal, s.deal] = [s.deal, a.deal] := by
      simp [List.insertionSort, List.orderedInsert, hdesc]
    rw [hsort] at hdeals
    simp only [List.map_cons, List.map_nil, List.cons.injEq, and_true] at hdeals
    rcases hx with hx | hx
    · rw [hx] at hdeals
      exact absurd hdeals.1 h
    · rw [hx]

/-- The run of `main` once both headers resolve and both loops return: exit status 8 when the
buffer is empty, otherwise `write_top` is called with the buffer and the exit status is 0. -/
theorem main_run_eq (S : DealSort) (D : DblSort) (so : Bool) (minN N : Int) (header : Str)
    (lines : List Str) (in_header : Str) (rows : List Str) (t : Tables) (cs : CandState)
    (h1 : 0 ≤ need (build_idx (parse_csv_line header)) "eur_per_m2".toList)
    (h2 : 0 ≤ need (build_idx (parse_csv_line header)) "location".toList)
    (h3 : 0 ≤ need (build_idx (parse_csv_line header)) "street".toList)
    (href : reference_pass D (need (build_idx (parse_csv_line header)) "eur_per_m2".toList)
      (need (build_idx (parse_csv_line header)) "location".toList)
      (need (build_idx (parse_csv_line header)) "street".toList) so minN lines = some t)
    (h4 : 0 ≤ (candidate_cfg in_header so N t).in_url)
    (h5 : 0 ≤ (candidate_cfg in_header so N t).in_eur)
    (h6 : 0 ≤ (candidate_cfg in_header so N t).in_loc)
    (h7 : 0 ≤ (candidate_cfg in_header so N t).in_st)
    (hcand : candidate_pass S (candidate_cfg in_header so N t) rows = some cs) :
    main_run S D so minN N (some (header :: lines)) (in_header :: rows)
      = some (if cs.best = [] then { exit_code := 8, report := none }
          else { exit_code := 0, report := some cs.best }) := by
  unfold main_run
  simp only [not_lt.mpr h1, not_lt.mpr h2, not_lt.mpr h3, or_self, if_false, href,
    Option.some_bind, not_lt.mpr h4, not_lt.mpr h5, not_lt.mpr h6, not_lt.mpr h7, hcand]
  split <;> rfl

/-- The candidate loop of the end-to-end scenario, candidate 800 first. -/
theorem oak_pass_a (S : DealSort) :
    candidate_pass S oak_cfg [oak_row_800, oak_row_1150]
      = some { best := [oak_entry_800], in_rows := 2, scored_rows := 2 } := by
  have e1 : scored_entry oak_cfg (parse_csv_line oak_row_800) 800 1200 = oak_entry_800 := by
    decide!
  have hd : (scored_entry oak_cfg (parse_csv_line oak_row_1150) 1150 1200).deal
      < oak_entry_800.deal := by
    decide!
  have hne : oak_entry_800.deal
      ≠ (scored_entry oak_cfg (parse_csv_line oak_row_1150) 1150 1200).deal := by
    decide!
  unfold candidate_pass
  rw [List.foldlM_cons,
    cand_row_scored S oak_cfg {} oak_row_800 800 1200 (by decide) (by decide) (by decide)
      (by decide) (by decide) (by decide) (by decide!) (by decide) (by decide) (by decide)]
  simp only [Option.bind_eq_bind, Option.some_bind]
  rw [List.foldlM_cons,
    cand_row_scored S oak_cfg _ oak_row_1150 1150 1200 (by decide) (by decide) (by decide)
      (by decide) (by decide) (by decide) (by decide!) (by decide) (by decide) (by decide)]
  simp only [Option.bind_eq_bind, Option.some_bind, List.foldlM_nil, e1]
  have hN : oak_cfg.top_n = 1 := rfl
  rw [hN, push_best_first S 1 _ (le_refl 1),
    push_best_top1 S _ _ hne (by decide!) (by decide!), if_pos hd]
  rfl

/-- The candidate loop of the end-to-end scenario, candidate 1150 first. -/
theorem oak_pass_b (S : DealSort) :
    candidate_pass S oak_cfg [oak_row_1150, oak_row_800]
      = some { best := [oak_entry_800], in_rows := 2, scored_rows := 2 } := by
  have e1 : scored_entry oak_cfg (parse_csv_line oak_row_800) 800 1200 = oak_entry_800 := by
    decide!
  have hd : ¬ (oak_entry_800.deal
      < (scored_entry oak_cfg (parse_csv_line oak_row_1150) 1150 1200).deal) := by
    decide!
  have hne : (scored_entry oak_cfg (parse_csv_line oak_row_1150) 1150 1200).deal
      ≠ oak_entry_800.deal := by
    decide!
  unfold candidate_pass
  rw [List.foldlM_cons,
    cand_row_scored S oak_cfg {} oak_row_1150 1150 1200 (by decide) (by decide) (by decide)
      (by decide) (by decide) (by decide) (by decide!) (by decide) (by decide) (by decide)]
  simp only [Option.bind_eq_bind, Option.some_bind]
  rw [List.foldlM_cons,
    cand_row_scored S oak_cfg _ oak_row_800 800 1200 (by decide) (by decide) (by decide)
      (by decide) (by decide) (by decide) (by decide!) (by decide) (by decide) (by decide)]
  simp only [Option.bind_eq_bind, Option.some_bind, List.foldlM_nil, e1]
  have hN : oak_cfg.top_n = 1 := rfl
  rw [hN, push_best_first S 1 _ (le_refl 1),
    push_best_top1 S _ _ hne (by decide!) (by decide!), if_neg hd]
  rfl

/-- C13: in the end-to-end scenario (default grouping, minimum sample count 5, five reference
rows 1000 to 1400 on street `Oak` in `Town`) the median table holds exactly one key, with
median 1200 and count 5; and for every conforming sort, with `N = 1` and the candidates priced
800 and 1150 in either order, `main` hands `write_top` a buffer of exactly one entry, the 800
candidate, with deal `3 / 2`, `street_median = 1200` and `street_n = 5`. -/
theorem oak_scenario (S : DealSort) (D : DblSort) :
    reference_pass D 0 1 2 false 5 oak_market.tail
        = some { key_median := [("Town | Oak".toList, 1200)],
                 key_n := [("Town | Oak".toList, 5)] }
      ∧ main_run S D false 5 1 (some oak_market) [oak_header, oak_row_800, oak_row_1150]
          = some { exit_code := 0, report := some [oak_entry_800] }
      ∧ main_run S D false 5 1 (some oak_market) [oak_header, oak_row_1150, oak_row_800]
          = some { exit_code := 0, report := some [oak_entry_800] }
      ∧ oak_entry_800.deal = 3 / 2 ∧ oak_entry_800.street_median = 1200
      ∧ oak_entry_800.street_n = 5 ∧ oak_entry_800.it.eur_per_m2 = 800 := by
  have href : reference_pass D 0 1 2 false 5 oak_market.tail
      = some { key_median := [("Town | Oak".toList, 1200)],
               key_n := [("Town | Oak".toList, 5)] } := by
    rw [reference_pass_congr D insertionDblSort 0 1 2 false 5 oak_market.tail (by decide)
      (by decide) (by decide) (by decide!)]
    decide!
  have hcfg : candidate_cfg oak_header false 1
      { key_median := [("Town | Oak".toList, 1200)], key_n := [("Town | Oak".toList, 5)] }
        = oak_cfg := by rfl
  refine ⟨href, ?_, ?_, rfl, rfl, rfl, rfl⟩
  · have h := main_run_eq S D false 5 1 "eur_per_m2,location,street".toList oak_market.tail
      oak_header [oak_row_800, oak_row_1150] _ _ (by decide) (by decide) (by decide) href
      (by rw [hcfg]; decide) (by rw [hcfg]; decide) (by rw [hcfg]; decide)
      (by rw [hcfg]; decide) (by rw [hcfg]; exact oak_pass_a S)
    exact h
  · have h := main_run_eq S D false 5 1 "eur_per_m2,location,street".toList oak_market.tail
      oak_header [oak_row_1150, oak_row_800] _ _ (by decide) (by decide) (by decide) href
      (by rw [hcfg]; decide) (by rw [hcfg]; decide) (by rw [hcfg]; decide)
      (by rw [hcfg]; decide) (by rw [hcfg]; exact oak_pass_b S)
    exact h

/-- With resolved required columns the candidate loop body always returns: it leaves the state
alone, or counts the row as seen, or offers `scored_entry` for a key that `key_median`
holds. -/
theorem cand_row_cases (S : DealSort) (c : CandCfg) (st : CandState) (line : Str)
    (h1 : 0 ≤ c.in_url) (h2 : 0 ≤ c.in_eur) (h3 : 0 ≤ c.in_loc) (h4 : 0 ≤ c.in_st) :
    cand_row S c st line = some st
      ∨ cand_row S c st line = some { st with in_rows := st.in_rows + 1 }
      ∨ ∃ eur med k, c.key_median.find k = some med ∧ ¬ (eur ≤ 0)
          ∧ cand_row S c st line
            = some { best := push_best S c.top_n st.best
                       (scored_entry c (parse_csv_line line) eur med)
                     in_rows := st.in_rows + 1
                     scored_rows := st.scored_rows + 1 } := by
  by_cases hb : trim line = []
  · left
    simp [cand_row, hb]
  · by_cases hl : (↑(parse_csv_line line).length : Int)
        ≤ max c.in_url (max c.in_eur (max c.in_loc c.in_st))
    · left
      simp [cand_row, hb, hl]
    · rw [cand_row_eq S c st line h1 h2 h3 h4 hb (not_le.mp hl)]
      cases to_double ((parse_csv_line line).getD c.in_eur.toNat []) with
      | none => exact Or.inl rfl
      | some eur =>
        simp only
        by_cases hp : eur ≤ 0
        · simp only [hp, if_true]
          exact Or.inl trivial
        · simp only [hp, if_false]
          by_cases hst : norm_space ((parse_csv_line line).getD c.in_st.toNat []) = []
          · simp only [hst, if_true]
            exact Or.inr (Or.inl trivial)
          · simp only [hst, if_false]
            cases hk : c.key_median.find (grouping_key c.street_only
                (norm_space ((parse_csv_line line).getD c.in_loc.toNat []))
                (norm_space ((parse_csv_line line).getD c.in_st.toNat []))) with
            | none => exact Or.inr (Or.inl rfl)
            | some med => exact Or.inr (Or.inr ⟨eur, med, _, hk, hp, rfl⟩)

/-- Against an empty median table the candidate loop returns with an empty buffer and no
scored row. -/
theorem candidate_pass_empty_table (S : DealSort) (c : CandCfg) (rows : List Str)
    (st : CandState)
    (h1 : 0 ≤ c.in_url) (h2 : 0 ≤ c.in_eur) (h3 : 0 ≤ c.in_loc) (h4 : 0 ≤ c.in_st)
    (ht : c.key_median = []) :
    ∃ cs, rows.foldlM (cand_row S c) st = some cs ∧ cs.best = st.best
      ∧ cs.scored_rows = st.scored_rows := by
  induction rows generalizing st with
  | nil => exact ⟨st, rfl, rfl, rfl⟩
  | cons line rest ih =>
    rw [List.foldlM_cons]
    rcases cand_row_cases S c st line h1 h2 h3 h4 with h | h | ⟨eur, med, k, hk, _, _⟩
    · rw [h]
      exact ih st
    · rw [h]
      obtain ⟨cs, e1, e2, e3⟩ := ih { st with in_rows := st.in_rows + 1 }
      exact ⟨cs, e1, e2, e3⟩
    · rw [ht] at hk
      exact absurd hk (by simp [Map.find])

/-- C14: a reference file with a valid header and no data row gives empty tables; and for
every candidate stream with a valid header, the candidate loop against the empty tables
returns with no scored row and an empty buffer, and `main` ends with exit status 8 without
calling `write_top`. -/
theorem empty_reference_run (S : DealSort) (D : DblSort) (street_only : Bool) (minN N : Int)
    (header in_header : Str) (rows : List Str) :
    0 ≤ need (build_idx (parse_csv_line header)) "eur_per_m2".toList →
    0 ≤ need (build_idx (parse_csv_line header)) "location".toList →
    0 ≤ need (build_idx (parse_csv_line header)) "street".toList →
    0 ≤ (candidate_cfg in_header street_only N {}).in_url →
    0 ≤ (candidate_cfg in_header street_only N {}).in_eur →
    0 ≤ (candidate_cfg in_header street_only N {}).in_loc →
    0 ≤ (candidate_cfg in_header street_only N {}).in_st →
    reference_pass D (need (build_idx (parse_csv_line header)) "eur_per_m2".toList)
        (need (build_idx (parse_csv_line header)) "location".toList)
        (need (build_idx (parse_csv_line header)) "street".toList) street_only minN []
        = some { key_median := [], key_n := [] }
      ∧ (∃ cs, candidate_pass S (candidate_cfg in_header street_only N {}) rows = some cs
          ∧ cs.best = [] ∧ cs.scored_rows = 0)
      ∧ main_run S D street_only minN N (some [header]) (in_header :: rows)
          = some { exit_code := 8, report := none } := by
  intro h1 h2 h3 h4 h5 h6 h7
  obtain ⟨cs, e1, e2, e3⟩ := candidate_pass_empty_table S
    (candidate_cfg in_header street_only N {}) rows {} h4 h5 h6 h7 rfl
  refine ⟨rfl, ⟨cs, e1, e2, e3⟩, ?_⟩
  rw [main_run_eq S D street_only minN N header [] in_header rows {} cs h1 h2 h3 rfl h4 h5 h6 h7
    e1]
  rw [if_pos e2]

/-- C14 on a reference file that is its header alone and the two candidates of the
end-to-end scenario: exit status 8, no report. -/
theorem empty_reference_run_witness :
    main_run insertionDealSort insertionDblSort false 5 3
        (some ["eur_per_m2,location,street".toList])
        [oak_header, oak_row_800, oak_row_1150]
      = some { exit_code := 8, report := none } :=
  (empty_reference_run insertionDealSort insertionDblSort false 5 3
    "eur_per_m2,location,street".toList
    oak_header [oak_row_800, oak_row_1150] (by decide) (by decide) (by decide) (by decide)
    (by decide) (by decide) (by decide)).2.2

/-! ## Index safety -/

/-- A row with too few fields is skipped by the reference loop body before any field is
read. -/
theorem ref_row_short (i_eur i_loc i_st : Int) (so : Bool) (st : RefState) (line : Str)
    (hl : ((parse_csv_line line).length : Int) ≤ max i_eur (max i_loc i_st)) :
    ref_row i_eur i_loc i_st so st line = some st := by
  unfold ref_row
  by_cases hb : trim line = []
  · simp [hb]
  · simp [hb, hl]

/-- A row with too few fields is skipped by the candidate loop body before any field is
read. -/
theorem cand_row_short (S : DealSort) (c : CandCfg) (st : CandState) (line : Str)
    (hl : ((parse_csv_line line).length : Int)
      ≤ max c.in_url (max c.in_eur (max c.in_loc c.in_st))) :
    cand_row S c st line = some st := by
  unfold cand_row
  by_cases hb : trim line = []
  · simp [hb]
  · simp [hb, hl]

/-- C19: for every reference header in which `eur_per_m2`, `location` and `street` resolve,
the reference loop body returns on every state and every line without reading outside the
vector of fields, and skips a row with too few fields unchanged; for every candidate header
in which `url`, `eur_per_m2`, `location` and `street` resolve, whatever the optional columns
resolve to, the same holds of the candidate loop body. -/
theorem row_reads_in_bounds (S : DealSort) (street_only : Bool) (N : Int) (t : Tables)
    (header in_header : Str) :
    (0 ≤ need (build_idx (parse_csv_line header)) "eur_per_m2".toList →
      0 ≤ need (build_idx (parse_csv_line header)) "location".toList →
      0 ≤ need (build_idx (parse_csv_line header)) "street".toList →
      ∀ (st : RefState) (line : Str),
        (∃ st2, ref_row (need (build_idx (parse_csv_line header)) "eur_per_m2".toList)
            (need (build_idx (parse_csv_line header)) "location".toList)
            (need (build_idx (parse_csv_line header)) "street".toList) street_only st line
              = some st2)
          ∧ (((parse_csv_line line).length : Int)
              ≤ max (need (build_idx (parse_csv_line header)) "eur_per_m2".toList)
                  (max (need (build_idx (parse_csv_line header)) "location".toList)
                    (need (build_idx (parse_csv_line header)) "street".toList)) →
            ref_row (need (build_idx (parse_csv_line header)) "eur_per_m2".toList)
              (need (build_idx (parse_csv_line header)) "location".toList)
              (need (build_idx (parse_csv_line header)) "street".toList) street_only st line
                = some st))
      ∧ (0 ≤ (candidate_cfg in_header street_only N t).in_url →
          0 ≤ (candidate_cfg in_header street_only N t).in_eur →
          0 ≤ (candidate_cfg in_header street_only N t).in_loc →
          0 ≤ (candidate_cfg in_header street_only N t).in_st →
          ∀ (st : CandState) (line : Str),
            (∃ st2, cand_row S (candidate_cfg in_header street_only N t) st line = some st2)
              ∧ (((parse_csv_line line).length : Int)
                  ≤ max (candidate_cfg in_header street_only N t).in_url
                      (max (candidate_cfg in_header street_only N t).in_eur
                        (max (candidate_cfg in_header street_only N t).in_loc
                          (candidate_cfg in_header street_only N t).in_st)) →
                cand_row S (candidate_cfg in_header street_only N t) st line = some st)) := by
  constructor
  · intro h1 h2 h3 st line
    exact ⟨⟨_, ref_row_eq _ _ _ street_only st line h1 h2 h3⟩,
      ref_row_short _ _ _ street_only st line⟩
  · intro h1 h2 h3 h4 st line
    refine ⟨?_, cand_row_short S _ st line⟩
    rcases cand_row_cases S _ st line h1 h2 h3 h4 with h | h | ⟨_, _, _, _, _, h⟩
    · exact ⟨_, h⟩
    · exact ⟨_, h⟩
    · exact ⟨_, h⟩

/-- C19 on the reference header `eur_per_m2,location,street` with the one-field row `x`, and on
the candidate header `scraped_at,url,eur_per_m2,location,street,rooms` with a row that ends
before the `rooms` column. -/
theorem row_reads_in_bounds_witness :
    (∃ st2, ref_row 0 1 2 false {} "x".toList = some st2)
      ∧ (∃ st2, cand_row insertionDealSort
            (candidate_cfg "scraped_at,url,eur_per_m2,location,street,rooms".toList false 3
              { key_median := [("Town | Oak".toList, 1200)],
                key_n := [("Town | Oak".toList, 5)] })
            {} "2024,u1,800,Town,Oak".toList = some st2) := by
  have h := row_reads_in_bounds insertionDealSort false 3
    { key_median := [("Town | Oak".toList, 1200)], key_n := [("Town | Oak".toList, 5)] }
    "eur_per_m2,location,street".toList
    "scraped_at,url,eur_per_m2,location,street,rooms".toList
  exact ⟨(h.1 (by decide) (by decide) (by decide) {} "x".toList).1,
    (h.2 (by decide) (by decide) (by decide) (by decide) {} "2024,u1,800,Town,Oak".toList).1⟩

/-! ## Grouping key -/

/-- C18: in location+street mode the grouping key is not injective on normalized pairs: the
location `A | B` with street `C` and the location `A` with street `B | C` are distinct pairs
of normalized strings with non-empty streets and have the same key `A | B | C`; two reference
rows with these pairs are accumulated into one group, which has one median (1500 for the
prices 1000 and 2000) and the count 2. -/
theorem grouping_key_collision (D : DblSort) :
    ("A | B".toList, "C".toList) ≠ ("A".toList, "B | C".toList)
      ∧ norm_space "A | B".toList = "A | B".toList ∧ norm_space "C".toList = "C".toList
      ∧ norm_space "A".toList = "A".toList ∧ norm_space "B | C".toList = "B | C".toList
      ∧ "C".toList ≠ [] ∧ "B | C".toList ≠ []
      ∧ grouping_key false "A | B".toList "C".toList
          = grouping_key false "A".toList "B | C".toList
      ∧ reference_pass D 0 1 2 false 2 ["1000,A | B,C".toList, "2000,A,B | C".toList]
          = some { key_median := [("A | B | C".toList, 1500)],
                   key_n := [("A | B | C".toList, 2)] } := by
  refine ⟨by decide, by decide, by decide, by decide, by decide, by decide, by decide,
    by decide, ?_⟩
  rw [reference_pass_congr D insertionDblSort 0 1 2 false 2 _ (by decide) (by decide)
    (by decide) (by decide!)]
  decide!


/-! ## Rounded integers -/

/-- The integer nearest to `x`, the one away from zero when two integers are equally near, is
the value of `round_half_away`. -/
theorem round_half_away_eq (x : ℚ) (n : Int) (h : rounds_half_away x n) :
    round_half_away x = n := by
  unfold rounds_half_away at h
  unfold round_half_away
  by_cases hx : 0 ≤ x
  · rw [if_pos hx]
    rw [Int.floor_eq_iff]
    rcases h with h | ⟨h1, h2⟩
    · rw [abs_lt] at h
      constructor <;> linarith
    · rw [abs_of_nonneg hx] at h2
      rcases abs_eq (by norm_num : (0 : ℚ) ≤ 1 / 2) |>.mp h1 with h3 | h3
      · constructor <;> linarith
      · exfalso
        have hn : (n : ℚ) < 0 := by
          by_contra hn
          rw [abs_of_nonneg (not_lt.mp hn)] at h2
          linarith
        have hn1 : (n : ℚ) ≤ -1 := by
          have : n ≤ -1 := by
            have : n < 0 := by exact_mod_cast hn
            omega
          exact_mod_cast this
        linarith
  · rw [if_neg hx]
    have hx2 : x < 0 := not_le.mp hx
    have : ⌊-x + 1 / 2⌋ = -n := by
      rw [Int.floor_eq_iff]
      push_cast
      rcases h with h | ⟨h1, h2⟩
      · rw [abs_lt] at h
        constructor <;> linarith
      · rw [abs_of_neg hx2] at h2
        rcases abs_eq (by norm_num : (0 : ℚ) ≤ 1 / 2) |>.mp h1 with h3 | h3
        · exfalso
          have hn : 0 < (n : ℚ) := by
            by_contra hn
            rw [abs_of_nonpos (not_lt.mp hn)] at h2
            linarith
          have hn1 : (1 : ℚ) ≤ n := by
            have : 1 ≤ n := by
              have : 0 < n := by exact_mod_cast hn
              omega
            exact_mod_cast this
          linarith
        · constructor <;> linarith
    rw [this, neg_neg]

/-- The value of `round_half_away` rounds to the nearest integer, halves away from zero. -/
theorem round_half_away_rounds (x : ℚ) : rounds_half_away x (round_half_away x) := by
  unfold rounds_half_away round_half_away
  by_cases hx : 0 ≤ x
  · rw [if_pos hx]
    have h1 : ((⌊x + 1 / 2⌋ : Int) : ℚ) ≤ x + 1 / 2 := Int.floor_le (x + 1 / 2)
    have h2 : x + 1 / 2 < ((⌊x + 1 / 2⌋ : Int) : ℚ) + 1 := Int.lt_floor_add_one (x + 1 / 2)
    generalize ⌊x + 1 / 2⌋ = k at h1 h2
    by_cases he : (k : ℚ) - x = 1 / 2
    · right
      refine ⟨by rw [he]; norm_num, ?_⟩
      rw [abs_of_nonneg hx, abs_of_nonneg (by linarith)]
      linarith
    · left
      rw [abs_lt]
      constructor
      · linarith
      · exact lt_of_le_of_ne (by linarith) he
  · rw [if_neg hx]
    have hx2 : x < 0 := not_le.mp hx
    have h1 : ((⌊-x + 1 / 2⌋ : Int) : ℚ) ≤ -x + 1 / 2 := Int.floor_le (-x + 1 / 2)
    have h2 : -x + 1 / 2 < ((⌊-x + 1 / 2⌋ : Int) : ℚ) + 1 := Int.lt_floor_add_one (-x + 1 / 2)
    generalize ⌊-x + 1 / 2⌋ = k at h1 h2
    push_cast
    by_cases he : (k : ℚ) + x = 1 / 2
    · right
      have he2 : -(k : ℚ) - x = -(1 / 2) := by linarith
      refine ⟨by rw [he2]; norm_num, ?_⟩
      rw [abs_of_neg hx2, abs_of_neg (by linarith)]
      linarith
    · left
      rw [abs_lt]
      constructor
      · have : (k : ℚ) + x < 1 / 2 := lt_of_le_of_ne (by linarith) he
        linarith
      · linarith

/-- The cast to `int` leaves a value inside the 32-bit range as it is. -/
theorem to_int32_of_fits (n : Int) (h1 : -(2 : Int) ^ 31 ≤ n) (h2 : n < (2 : Int) ^ 31) :
    to_int32 n = n := by
  unfold to_int32
  norm_num at h1 h2 ⊢
  omega

/-- On a finite double whose rounding fits in a 32-bit `int`, the cast of `std::lround` is that
rounding. -/
theorem to_int32_lround (x : ℚ) (n : Int) (h : rounds_half_away x n)
    (h1 : -(2 : Int) ^ 31 ≤ n) (h2 : n < (2 : Int) ^ 31) :
    to_int32 (lround (Dbl.fin x)) = n := by
  have hr := round_half_away_eq x n h
  unfold lround
  simp only [hr]
  have h3 : -(2 : Int) ^ 63 ≤ n ∧ n < (2 : Int) ^ 63 := by
    norm_num at h1 h2 ⊢
    omega
  rw [if_pos h3]
  exact to_int32_of_fits n h1 h2

/-- C11: `to_int` succeeds on exactly the inputs on which `to_double` succeeds; and on such an
input with finite parsed value `x`, the number `x` has a rounding to the nearest integer with
halves away from zero, and whenever `n` is that rounding and fits in a 32-bit `int`, `to_int`
returns `n`. -/
theorem to_int_rounds (s : Str) :
    (to_int s).isSome = (to_double s).isSome
      ∧ (∀ x, to_double s = some (Dbl.fin x) →
          ∃ n, rounds_half_away x n
            ∧ (-(2 : Int) ^ 31 ≤ n → n < (2 : Int) ^ 31 → to_int s = some n))
      ∧ (∀ x n, to_double s = some (Dbl.fin x) → rounds_half_away x n →
          -(2 : Int) ^ 31 ≤ n → n < (2 : Int) ^ 31 → to_int s = some n) := by
  unfold to_int to_double
  by_cases ht : trim s = []
  · simp [ht]
  · simp only [ht, if_false]
    refine ⟨by simp, ?_, ?_⟩
    · intro x hx
      refine ⟨round_half_away x, round_half_away_rounds x, fun h1 h2 => ?_⟩
      rw [hx, Option.map_some', to_int32_lround x _ (round_half_away_rounds x) h1 h2]
    · intro x n hx hn h1 h2
      rw [hx, Option.map_some', to_int32_lround x n hn h1 h2]

/-- C11 on the four examples: `3.0` gives 3, `2.5` gives 3, `-2.5` gives -3, `2.4` gives 2 (the
double nearest to 2.4 is `5404319552844595 / 2 ^ 51`). -/
theorem to_int_rounds_witness :
    to_int "3.0".toList = some 3 ∧ to_int "2.5".toList = some 3
      ∧ to_int "-2.5".toList = some (-3) ∧ to_int "2.4".toList = some 2 := by
  refine ⟨?_, ?_, ?_, ?_⟩
  · exact (to_int_rounds "3.0".toList).2.2 3 3 (by decide!)
      (Or.inl (by norm_num)) (by norm_num) (by norm_num)
  · exact (to_int_rounds "2.5".toList).2.2 (5 / 2) 3 (by decide!)
      (Or.inr (by norm_num [abs_of_pos])) (by norm_num) (by norm_num)
  · exact (to_int_rounds "-2.5".toList).2.2 (-5 / 2) (-3) (by decide!)
      (Or.inr (by norm_num [abs_of_pos, abs_of_neg])) (by norm_num) (by norm_num)
  · exact (to_int_rounds "2.4".toList).2.2 (5404319552844595 / 2251799813685248) 2
      (by decide!) (Or.inl (by norm_num [abs_lt])) (by norm_num) (by norm_num)


/-! ## Rounding to a double: lemmas -/

/-- The halving count brackets `n` between two powers of two. -/
theorem log2_fuel_spec (fuel n : Nat) (hn : 0 < n) (hf : n ≤ fuel) :
    2 ^ log2_fuel fuel n ≤ n ∧ n < 2 ^ (log2_fuel fuel n + 1) := by
  induction fuel generalizing n with
  | zero => omega
  | succ f ih =>
    unfold log2_fuel
    by_cases h : n < 2
    · rw [if_pos h]
      constructor
      · simpa using hn
      · simpa using h
    · rw [if_neg h]
      have h2 := ih (n / 2) (by omega) (by omega)
      have e1 : 2 ^ (log2_fuel f (n / 2) + 1) = 2 * 2 ^ log2_fuel f (n / 2) := by
        rw [pow_succ, mul_comm]
      have e2 : 2 ^ (log2_fuel f (n / 2) + 1 + 1) = 2 * 2 ^ (log2_fuel f (n / 2) + 1) := by
        rw [pow_succ, mul_comm]
      rw [e2, e1]
      rw [e1] at h2
      constructor <;> omega

/-- The binary logarithm of a positive natural number brackets it between two powers of two. -/
theorem nat_log2_spec (n : Nat) (hn : 0 < n) :
    2 ^ nat_log2 n ≤ n ∧ n < 2 ^ (nat_log2 n + 1) :=
  log2_fuel_spec n n hn (le_refl n)

/-- The binary exponent of a positive rational brackets it between two powers of two. -/
theorem ilog2_spec (q : ℚ) (hq : 0 < q) :
    (2 : ℚ) ^ ilog2 q ≤ q ∧ q < (2 : ℚ) ^ (ilog2 q + 1) := by
  have hnum : 0 < q.num := Rat.num_pos.mpr hq
  have hN : 0 < q.num.natAbs := Int.natAbs_pos.mpr (ne_of_gt hnum)
  have hDn : 0 < q.den := q.den_pos
  obtain ⟨a1, a2⟩ := nat_log2_spec q.num.natAbs hN
  obtain ⟨b1, b2⟩ := nat_log2_spec q.den hDn
  have hD : (0 : ℚ) < (q.den : ℚ) := by exact_mod_cast hDn
  have hqe : q = (q.num.natAbs : ℚ) / (q.den : ℚ) := by
    have h1 : ((q.num.natAbs : Int) : ℚ) = (q.num : ℚ) := by
      rw [Int.natAbs_of_nonneg (le_of_lt hnum)]
    have h2 : ((q.num.natAbs : Nat) : ℚ) = ((q.num.natAbs : Int) : ℚ) :=
      (Int.cast_natCast _).symm
    rw [h2, h1]
    exact (Rat.num_div_den q).symm
  have A1 : (2 : ℚ) ^ (nat_log2 q.num.natAbs : Int) ≤ (q.num.natAbs : ℚ) := by
    rw [zpow_natCast]; exact_mod_cast a1
  have A2 : (q.num.natAbs : ℚ) < (2 : ℚ) ^ ((nat_log2 q.num.natAbs : Int) + 1) := by
    have : ((nat_log2 q.num.natAbs : Int) + 1) = ((nat_log2 q.num.natAbs + 1 : Nat) : Int) := by
      push_cast; rfl
    rw [this, zpow_natCast]; exact_mod_cast a2
  have B1 : (2 : ℚ) ^ (nat_log2 q.den : Int) ≤ (q.den : ℚ) := by
    rw [zpow_natCast]; exact_mod_cast b1
  have B2 : (q.den : ℚ) < (2 : ℚ) ^ ((nat_log2 q.den : Int) + 1) := by
    have : ((nat_log2 q.den : Int) + 1) = ((nat_log2 q.den + 1 : Nat) : Int) := by
      push_cast; rfl
    rw [this, zpow_natCast]; exact_mod_cast b2
  have h2 : (2 : ℚ) ≠ 0 := two_ne_zero
  unfold ilog2
  simp only
  generalize (nat_log2 q.num.natAbs : Int) = a at A1 A2
  generalize (nat_log2 q.den : Int) = b at B1 B2
  generalize (q.num.natAbs : ℚ) = N at hqe A1 A2
  generalize (q.den : ℚ) = D at hD hqe B1 B2
  by_cases hc : q < (2 : ℚ) ^ (a - b)
  · rw [if_pos hc]
    refine ⟨?_, by rw [sub_add_cancel]; exact hc⟩
    rw [hqe, le_div_iff₀ hD]
    have e : (2 : ℚ) ^ (a - b - 1) * (2 : ℚ) ^ (b + 1) = (2 : ℚ) ^ a := by
      rw [← zpow_add₀ h2]; congr 1; ring
    calc (2 : ℚ) ^ (a - b - 1) * D ≤ (2 : ℚ) ^ (a - b - 1) * (2 : ℚ) ^ (b + 1) :=
          mul_le_mul_of_nonneg_left (le_of_lt B2) (le_of_lt (zpow_pos (by norm_num) _))
      _ = (2 : ℚ) ^ a := e
      _ ≤ N := A1
  · rw [if_neg hc]
    refine ⟨not_lt.mp hc, ?_⟩
    rw [hqe, div_lt_iff₀ hD]
    have e : (2 : ℚ) ^ (a - b + 1) * (2 : ℚ) ^ b = (2 : ℚ) ^ (a + 1) := by
      rw [← zpow_add₀ h2]; congr 1; ring
    calc N < (2 : ℚ) ^ (a + 1) := A2
      _ = (2 : ℚ) ^ (a - b + 1) * (2 : ℚ) ^ b := e.symm
      _ ≤ (2 : ℚ) ^ (a - b + 1) * D :=
          mul_le_mul_of_nonneg_left B1 (le_of_lt (zpow_pos (by norm_num) _))

/-- The binary exponent is the only exponent whose powers of two bracket the number. -/
theorem ilog2_eq (q : ℚ) (e : Int) (h1 : (2 : ℚ) ^ e ≤ q) (h2 : q < (2 : ℚ) ^ (e + 1)) :
    ilog2 q = e := by
  have hq : 0 < q := lt_of_lt_of_le (zpow_pos (by norm_num) _) h1
  obtain ⟨s1, s2⟩ := ilog2_spec q hq
  have l1 : ilog2 q < e + 1 :=
    (zpow_lt_zpow_iff_right₀ (one_lt_two (α := ℚ))).mp (lt_of_le_of_lt s1 h2)
  have l2 : e < ilog2 q + 1 :=
    (zpow_lt_zpow_iff_right₀ (one_lt_two (α := ℚ))).mp (lt_of_le_of_lt h1 s2)
  omega

/-- The binary exponent is monotone. -/
theorem ilog2_mono (q1 q2 : ℚ) (h1 : 0 < q1) (h : q1 ≤ q2) : ilog2 q1 ≤ ilog2 q2 := by
  obtain ⟨s1, _⟩ := ilog2_spec q1 h1
  obtain ⟨_, t2⟩ := ilog2_spec q2 (lt_of_lt_of_le h1 h)
  have : ilog2 q1 < ilog2 q2 + 1 :=
    (zpow_lt_zpow_iff_right₀ (one_lt_two (α := ℚ))).mp
      (lt_of_le_of_lt s1 (lt_of_le_of_lt h t2))
  omega

/-- Rounding to nearest-even returns the floor or the integer after it. -/
theorem round_even_cases (x : ℚ) : round_even x = ⌊x⌋ ∨ round_even x = ⌊x⌋ + 1 := by
  unfold round_even
  split
  · exact Or.inl rfl
  · split
    · exact Or.inr rfl
    · split
      · exact Or.inl rfl
      · exact Or.inr rfl

/-- Rounding to nearest-even stays within one half below. -/
theorem round_even_ge (x : ℚ) : x - 1 / 2 ≤ (round_even x : ℚ) := by
  have h1 := Int.floor_le x
  have h2 := Int.lt_floor_add_one x
  unfold round_even
  split
  · next h => linarith
  · split
    · push_cast; linarith
    · split
      · next h3 h4 _ => linarith [not_lt.mp h3]
      · push_cast; linarith

/-- Rounding to nearest-even stays within one half above. -/
theorem round_even_le (x : ℚ) : (round_even x : ℚ) ≤ x + 1 / 2 := by
  have h1 := Int.floor_le x
  have h2 := Int.lt_floor_add_one x
  unfold round_even
  split
  · linarith
  · split
    · next h3 => push_cast; linarith
    · split
      · linarith
      · next h3 h4 _ => push_cast; linarith [not_lt.mp h3, not_lt.mp h4]

/-- Rounding to nearest-even leaves an integer as it is. -/
theorem round_even_int (n : Int) : round_even (n : ℚ) = n := by
  unfold round_even
  simp

/-- Rounding to nearest-even is monotone. -/
theorem round_even_mono (x y : ℚ) (h : x ≤ y) : round_even x ≤ round_even y := by
  have hf : ⌊x⌋ ≤ ⌊y⌋ := Int.floor_mono h
  rcases lt_or_eq_of_le hf with hlt | heq
  · have h1 : round_even x ≤ ⌊x⌋ + 1 := by
      rcases round_even_cases x with e | e
      · omega
      · omega
    have h2 : ⌊y⌋ ≤ round_even y := by
      rcases round_even_cases y with e | e
      · omega
      · omega
    omega
  · unfold round_even
    rw [← heq]
    have hxy : x - (⌊x⌋ : ℚ) ≤ y - (⌊x⌋ : ℚ) := by linarith
    by_cases c1 : x - (⌊x⌋ : ℚ) < 1 / 2
    · rw [if_pos c1]
      split
      · exact le_refl _
      · split
        · omega
        · split
          · exact le_refl _
          · omega
    · rw [if_neg c1]
      have d1 : ¬ (y - (⌊x⌋ : ℚ) < 1 / 2) := by linarith
      rw [if_neg d1]
      by_cases c2 : 1 / 2 < x - (⌊x⌋ : ℚ)
      · rw [if_pos c2, if_pos (lt_of_lt_of_le c2 hxy)]
      · rw [if_neg c2]
        by_cases d2 : 1 / 2 < y - (⌊x⌋ : ℚ)
        · rw [if_pos d2]
          split <;> omega
        · rw [if_neg d2]


/-- Powers of two are positive. -/
theorem two_zpow_pos (e : Int) : (0 : ℚ) < (2 : ℚ) ^ e := zpow_pos (by norm_num) e

/-- Powers of two multiply by adding exponents. -/
theorem two_zpow_add (a b : Int) : (2 : ℚ) ^ (a + b) = (2 : ℚ) ^ a * (2 : ℚ) ^ b :=
  zpow_add₀ two_ne_zero a b

/-- Powers of two are monotone in the exponent. -/
theorem two_zpow_le {a b : Int} (h : a ≤ b) : (2 : ℚ) ^ a ≤ (2 : ℚ) ^ b :=
  zpow_le_zpow_right₀ (by norm_num) h

/-- Powers of two are strictly monotone in the exponent. -/
theorem two_zpow_lt {a b : Int} (h : a < b) : (2 : ℚ) ^ a < (2 : ℚ) ^ b :=
  zpow_lt_zpow_right₀ (by norm_num) h

/-- A power of two with a natural exponent is an integer. -/
theorem two_zpow_nat (d : Int) (hd : 0 ≤ d) : (2 : ℚ) ^ d = (((2 : Int) ^ d.toNat : Int) : ℚ) := by
  obtain ⟨n, rfl⟩ := Int.eq_ofNat_of_zero_le hd
  simp [zpow_natCast]

/-- The exponent of the doubles next to a positive number. -/
theorem dbl_exp_pos (q : ℚ) (hq : 0 < q) : dbl_exp q = max (ilog2 q) (-1022) := by
  unfold dbl_exp
  rw [abs_of_pos hq]

/-- The exponent of a double is at least `-1022`. -/
theorem dbl_exp_ge (q : ℚ) : -1022 ≤ dbl_exp q := le_max_right _ _

/-- The exponent of the neighbouring doubles is monotone on positive numbers. -/
theorem dbl_exp_mono (q1 q2 : ℚ) (h1 : 0 < q1) (h : q1 ≤ q2) : dbl_exp q1 ≤ dbl_exp q2 := by
  rw [dbl_exp_pos q1 h1, dbl_exp_pos q2 (lt_of_lt_of_le h1 h)]
  exact max_le_max (ilog2_mono q1 q2 h1 h) (le_refl _)

/-- A positive number lies below the next power of two after its exponent. -/
theorem lt_pow_dbl_exp (q : ℚ) (hq : 0 < q) : q < (2 : ℚ) ^ (dbl_exp q + 1) := by
  rw [dbl_exp_pos q hq]
  exact lt_of_lt_of_le (ilog2_spec q hq).2
    (two_zpow_le (add_le_add_right (le_max_left _ _) 1))

/-- Above the subnormal range a positive number is at least the power of two of its
exponent. -/
theorem pow_dbl_exp_le (q : ℚ) (hq : 0 < q) (hn : -1022 < dbl_exp q) :
    (2 : ℚ) ^ dbl_exp q ≤ q := by
  rw [dbl_exp_pos q hq] at hn ⊢
  have : -1022 < ilog2 q := by
    rcases le_total (ilog2 q) (-1022) with h | h
    · rw [max_eq_right h] at hn; omega
    · rw [max_eq_left h] at hn; exact hn
  rw [max_eq_left (le_of_lt this)]
  exact (ilog2_spec q hq).1

/-- The exponent of a positive number bracketed by powers of two, the lower bound being
waived in the subnormal range. -/
theorem dbl_exp_of_bracket (r : ℚ) (e : Int) (hr : 0 < r) (he : -1022 ≤ e)
    (hlo : (2 : ℚ) ^ e ≤ r ∨ e = -1022) (hhi : r < (2 : ℚ) ^ (e + 1)) : dbl_exp r = e := by
  rw [dbl_exp_pos r hr]
  by_cases h : (2 : ℚ) ^ e ≤ r
  · rw [ilog2_eq r e h hhi]
    exact max_eq_left he
  · have he2 : e = -1022 := by
      rcases hlo with h2 | h2
      · exact absurd h2 h
      · exact h2
    have hlt : r < (2 : ℚ) ^ e := not_le.mp h
    have : ilog2 r < e :=
      (zpow_lt_zpow_iff_right₀ (one_lt_two (α := ℚ))).mp
        (lt_of_le_of_lt (ilog2_spec r hr).1 hlt)
    rw [he2] at this ⊢
    exact max_eq_right (le_of_lt this)

/-- Rounding at a fixed exponent is monotone. -/
theorem round_at_mono (e : Int) (q1 q2 : ℚ) (h : q1 ≤ q2) : round_at e q1 ≤ round_at e q2 := by
  unfold round_at
  have hu := two_zpow_pos (e - 52)
  refine mul_le_mul_of_nonneg_right ?_ (le_of_lt hu)
  exact_mod_cast round_even_mono _ _ (div_le_div_of_nonneg_right h (le_of_lt hu))

/-- Rounding at a fixed exponent leaves a multiple of the spacing as it is. -/
theorem round_at_exact (e : Int) (k : Int) :
    round_at e ((k : ℚ) * (2 : ℚ) ^ (e - 52)) = (k : ℚ) * (2 : ℚ) ^ (e - 52) := by
  unfold round_at
  rw [mul_div_assoc, div_self (ne_of_gt (two_zpow_pos _)), mul_one, round_even_int]

/-- The result of rounding at a fixed exponent is a multiple of the spacing. -/
theorem round_at_eq_mul (e : Int) (q : ℚ) :
    round_at e q = ((round_even (q / (2 : ℚ) ^ (e - 52)) : Int) : ℚ) * (2 : ℚ) ^ (e - 52) := rfl

/-- The power of two of the exponent is a multiple of the spacing. -/
theorem pow_eq_mul_spacing (e : Int) :
    (2 : ℚ) ^ e = (((2 : Int) ^ 52 : Int) : ℚ) * (2 : ℚ) ^ (e - 52) := by
  have h : (((2 : Int) ^ 52 : Int) : ℚ) = (2 : ℚ) ^ (52 : Int) := by norm_num
  rw [h, ← two_zpow_add]
  congr 1
  ring

/-- The next power of two is a multiple of the spacing. -/
theorem pow_succ_eq_mul_spacing (e : Int) :
    (2 : ℚ) ^ (e + 1) = (((2 : Int) ^ 53 : Int) : ℚ) * (2 : ℚ) ^ (e - 52) := by
  have h : (((2 : Int) ^ 53 : Int) : ℚ) = (2 : ℚ) ^ (53 : Int) := by norm_num
  rw [h, ← two_zpow_add]
  congr 1
  ring

/-- Rounding does not cross the power of two below. -/
theorem pow_le_round_at (e : Int) (q : ℚ) (h : (2 : ℚ) ^ e ≤ q) :
    (2 : ℚ) ^ e ≤ round_at e q := by
  have := round_at_mono e _ _ h
  rw [pow_eq_mul_spacing e, round_at_exact] at this
  rw [pow_eq_mul_spacing e]
  exact this

/-- Rounding does not cross the power of two above. -/
theorem round_at_le_pow (e : Int) (q : ℚ) (h : q ≤ (2 : ℚ) ^ (e + 1)) :
    round_at e q ≤ (2 : ℚ) ^ (e + 1) := by
  have := round_at_mono e _ _ h
  rw [pow_succ_eq_mul_spacing e, round_at_exact] at this
  rw [pow_succ_eq_mul_spacing e]
  exact this

/-- Rounding a non-negative number gives a non-negative number. -/
theorem round_at_nonneg (e : Int) (q : ℚ) (h : 0 ≤ q) : 0 ≤ round_at e q := by
  have := round_at_mono e _ _ h
  have h0 : round_at e 0 = 0 := by
    have := round_at_exact e 0
    simpa using this
  rw [h0] at this
  exact this

/-- Rounding of positive numbers, each at its own exponent, is monotone. -/
theorem round_own_mono (q1 q2 : ℚ) (h1 : 0 < q1) (h : q1 ≤ q2) :
    round_at (dbl_exp q1) q1 ≤ round_at (dbl_exp q2) q2 := by
  have h2 : 0 < q2 := lt_of_lt_of_le h1 h
  rcases lt_or_eq_of_le (dbl_exp_mono q1 q2 h1 h) with hlt | heq
  · have a1 : round_at (dbl_exp q1) q1 ≤ (2 : ℚ) ^ (dbl_exp q1 + 1) :=
      round_at_le_pow _ _ (le_of_lt (lt_pow_dbl_exp q1 h1))
    have a2 : (2 : ℚ) ^ (dbl_exp q1 + 1) ≤ (2 : ℚ) ^ dbl_exp q2 := two_zpow_le (by omega)
    have a3 : (2 : ℚ) ^ dbl_exp q2 ≤ round_at (dbl_exp q2) q2 :=
      pow_le_round_at _ _ (pow_dbl_exp_le q2 h2 (by have := dbl_exp_ge q1; omega))
    exact le_trans a1 (le_trans a2 a3)
  · rw [heq]
    exact round_at_mono _ _ _ h

/-- Rounding a positive number to a double: an infinity when the rounded value reaches
`2 ^ 1024`, otherwise the rounded value. -/
theorem Dbl.round_of_pos (q : ℚ) (hq : 0 < q) :
    Dbl.round q = if (2 : ℚ) ^ (1024 : Int) ≤ round_at (dbl_exp q) q then Dbl.pinf
      else Dbl.fin (round_at (dbl_exp q) q) := by
  unfold Dbl.round
  simp only [ne_of_gt hq, if_false, abs_of_nonneg (round_at_nonneg _ _ (le_of_lt hq)), hq,
    if_true]

/-- Rounding zero gives zero. -/
theorem Dbl.round_zero : Dbl.round 0 = Dbl.fin 0 := by
  unfold Dbl.round
  simp

/-- The double nearest to a non-negative number is zero or above. -/
theorem Dbl.round_nonneg (q : ℚ) (hq : 0 ≤ q) : (0 : Dbl) ≤ Dbl.round q := by
  rcases eq_or_lt_of_le hq with h | h
  · rw [← h, Dbl.round_zero]
    decide
  · rw [Dbl.round_of_pos q h]
    split
    · decide
    · rw [Dbl.ofNat_eq, Dbl.fin_le_fin]
      simpa using round_at_nonneg _ _ hq

/-- Rounding to a double is monotone on non-negative numbers. -/
theorem Dbl.round_mono (q1 q2 : ℚ) (h1 : 0 ≤ q1) (h : q1 ≤ q2) :
    Dbl.round q1 ≤ Dbl.round q2 := by
  rcases eq_or_lt_of_le h1 with h0 | h0
  · rw [← h0, Dbl.round_zero]
    have := Dbl.round_nonneg q2 (le_trans h1 h)
    rw [Dbl.ofNat_eq] at this
    simpa using this
  · have hq2 : 0 < q2 := lt_of_lt_of_le h0 h
    have hm := round_own_mono q1 q2 h0 h
    rw [Dbl.round_of_pos q1 h0, Dbl.round_of_pos q2 hq2]
    by_cases c1 : (2 : ℚ) ^ (1024 : Int) ≤ round_at (dbl_exp q1) q1
    · rw [if_pos c1, if_pos (le_trans c1 hm)]
      decide
    · rw [if_neg c1]
      by_cases c2 : (2 : ℚ) ^ (1024 : Int) ≤ round_at (dbl_exp q2) q2
      · rw [if_pos c2]
        rfl
      · rw [if_neg c2, Dbl.fin_le_fin]
        exact hm

/-- A positive rational is a double exactly when rounding at its exponent leaves it as it is
and it lies below `2 ^ 1024`. -/
theorem is_double_pos_iff (q : ℚ) (hq : 0 < q) :
    is_double q ↔ round_at (dbl_exp q) q = q ∧ q < (2 : ℚ) ^ (1024 : Int) := by
  unfold is_double
  rw [Dbl.round_of_pos q hq]
  constructor
  · intro h
    by_cases c : (2 : ℚ) ^ (1024 : Int) ≤ round_at (dbl_exp q) q
    · rw [if_pos c] at h
      exact absurd h (by simp)
    · rw [if_neg c] at h
      injection h with h
      exact ⟨h, by rw [h] at c; exact not_le.mp c⟩
  · rintro ⟨h1, h2⟩
    rw [h1, if_neg (not_le.mpr h2)]

/-- A positive multiple of the spacing at its own exponent, below `2 ^ 1024`, is a double. -/
theorem is_double_of_mul (q : ℚ) (hq : 0 < q) (k : Int)
    (hk : q = (k : ℚ) * (2 : ℚ) ^ (dbl_exp q - 52)) (hlt : q < (2 : ℚ) ^ (1024 : Int)) :
    is_double q := by
  rw [is_double_pos_iff q hq]
  refine ⟨?_, hlt⟩
  have := round_at_exact (dbl_exp q) k
  rw [← hk] at this
  exact this

/-- A positive double is a multiple of the spacing at its exponent. -/
theorem is_double_mul (q : ℚ) (hq : 0 < q) (h : is_double q) :
    ∃ k : Int, q = (k : ℚ) * (2 : ℚ) ^ (dbl_exp q - 52) := by
  rw [is_double_pos_iff q hq] at h
  exact ⟨_, by rw [← round_at_eq_mul]; exact h.1.symm⟩

/-- Zero is a double. -/
theorem is_double_zero : is_double 0 := Dbl.round_zero

/-- The finite result of rounding a positive number is a double. -/
theorem is_double_round (q r : ℚ) (hq : 0 < q) (h : Dbl.round q = Dbl.fin r) : is_double r := by
  rw [Dbl.round_of_pos q hq] at h
  by_cases c : (2 : ℚ) ^ (1024 : Int) ≤ round_at (dbl_exp q) q
  · rw [if_pos c] at h
    exact absurd h (by simp)
  · rw [if_neg c] at h
    injection h with h
    have hlt : r < (2 : ℚ) ^ (1024 : Int) := by rw [← h]; exact not_le.mp c
    have hr0 : 0 ≤ r := by rw [← h]; exact round_at_nonneg _ _ (le_of_lt hq)
    rcases eq_or_lt_of_le hr0 with hz | hpos
    · rw [← hz]; exact is_double_zero
    · have hmul : r = ((round_even (q / (2 : ℚ) ^ (dbl_exp q - 52)) : Int) : ℚ)
          * (2 : ℚ) ^ (dbl_exp q - 52) := by rw [← h]; rfl
      have hhi : r ≤ (2 : ℚ) ^ (dbl_exp q + 1) := by
        rw [← h]; exact round_at_le_pow _ _ (le_of_lt (lt_pow_dbl_exp q hq))
      have hlo : (2 : ℚ) ^ dbl_exp q ≤ r ∨ dbl_exp q = -1022 := by
        rcases eq_or_lt_of_le (dbl_exp_ge q) with h2 | h2
        · exact Or.inr h2.symm
        · left
          rw [← h]
          exact pow_le_round_at _ _ (pow_dbl_exp_le q hq h2)
      rcases eq_or_lt_of_le hhi with heq | hlt2
      · have hlog : ilog2 r = dbl_exp q + 1 := by
          refine ilog2_eq r _ (le_of_eq heq.symm) ?_
          rw [heq]
          exact two_zpow_lt (by omega)
        have hexp : dbl_exp r = dbl_exp q + 1 := by
          rw [dbl_exp_pos r hpos, hlog]
          exact max_eq_left (by have := dbl_exp_ge q; omega)
        refine is_double_of_mul r hpos ((2 : Int) ^ 52) ?_ hlt
        rw [hexp, heq, ← pow_eq_mul_spacing]
      · have hexp : dbl_exp r = dbl_exp q :=
          dbl_exp_of_bracket r _ hpos (dbl_exp_ge q) hlo hlt2
        refine is_double_of_mul r hpos (round_even (q / (2 : ℚ) ^ (dbl_exp q - 52))) ?_ hlt
        rw [hexp]
        exact hmul

/-- Twice a positive double below `2 ^ 1023` is a double. -/
theorem is_double_two_mul (b : ℚ) (hb : 0 < b) (h : is_double b)
    (hlt : b < (2 : ℚ) ^ (1023 : Int)) : is_double (2 * b) := by
  obtain ⟨k, hk⟩ := is_double_mul b hb h
  have h2b : 0 < 2 * b := by linarith
  have hlt2 : 2 * b < (2 : ℚ) ^ (1024 : Int) := by
    have : (2 : ℚ) ^ (1024 : Int) = 2 * (2 : ℚ) ^ (1023 : Int) := by norm_num
    rw [this]
    linarith
  by_cases hc : (2 : ℚ) ^ dbl_exp b ≤ b
  · have hlo : (2 : ℚ) ^ (dbl_exp b + 1) ≤ 2 * b := by
      rw [two_zpow_add, zpow_one]
      linarith
    have hhi : 2 * b < (2 : ℚ) ^ (dbl_exp b + 1 + 1) := by
      have := lt_pow_dbl_exp b hb
      rw [two_zpow_add (dbl_exp b + 1) 1, zpow_one]
      linarith
    have hexp : dbl_exp (2 * b) = dbl_exp b + 1 :=
      dbl_exp_of_bracket _ _ h2b (by have := dbl_exp_ge b; omega) (Or.inl hlo) hhi
    refine is_double_of_mul _ h2b k ?_ hlt2
    rw [hexp]
    have e : (2 : ℚ) ^ (dbl_exp b + 1 - 52) = 2 * (2 : ℚ) ^ (dbl_exp b - 52) := by
      have : dbl_exp b + 1 - 52 = (dbl_exp b - 52) + 1 := by ring
      rw [this, two_zpow_add, zpow_one]
      ring
    rw [e]
    nth_rewrite 1 [hk]
    ring
  · have hs : dbl_exp b = -1022 := by
      rcases eq_or_lt_of_le (dbl_exp_ge b) with h2 | h2
      · exact h2.symm
      · exact absurd (pow_dbl_exp_le b hb h2) hc
    have hhi : 2 * b < (2 : ℚ) ^ (dbl_exp b + 1) := by
      rw [two_zpow_add, zpow_one]
      linarith [not_le.mp hc]
    have hexp : dbl_exp (2 * b) = dbl_exp b :=
      dbl_exp_of_bracket _ _ h2b (dbl_exp_ge b) (Or.inr hs) hhi
    refine is_double_of_mul _ h2b (2 * k) ?_ hlt2
    rw [hexp]
    push_cast
    nth_rewrite 1 [hk]
    ring


/-- Two multiples of a positive spacing that differ, differ by at least the spacing. -/
theorem int_mul_gap (u : ℚ) (hu : 0 < u) (a b : Int) (h : (a : ℚ) * u < (b : ℚ) * u) :
    u ≤ (b : ℚ) * u - (a : ℚ) * u := by
  have h1 : (a : ℚ) < (b : ℚ) := lt_of_mul_lt_mul_right h (le_of_lt hu)
  have h2 : a < b := by exact_mod_cast h1
  have h3 : a + 1 ≤ b := by omega
  have h4 : (a : ℚ) + 1 ≤ (b : ℚ) := by exact_mod_cast h3
  nlinarith

/-- A positive double is a multiple of the spacing at every smaller exponent. -/
theorem is_double_mul_of_le (q : ℚ) (hq : 0 < q) (h : is_double q) (e : Int)
    (he : e ≤ dbl_exp q) : ∃ k : Int, q = (k : ℚ) * (2 : ℚ) ^ (e - 52) := by
  obtain ⟨k, hk⟩ := is_double_mul q hq h
  refine ⟨k * (2 : Int) ^ (dbl_exp q - e).toNat, ?_⟩
  have e1 : (2 : ℚ) ^ (dbl_exp q - 52) = (2 : ℚ) ^ (dbl_exp q - e) * (2 : ℚ) ^ (e - 52) := by
    rw [← two_zpow_add]
    congr 1
    ring
  rw [two_zpow_nat (dbl_exp q - e) (by omega)] at e1
  rw [Int.cast_mul, mul_assoc, ← e1]
  exact hk

/-- Of two positive doubles, the greater exceeds the smaller by at least the spacing of the
smaller. -/
theorem double_gap (p m : ℚ) (hp : 0 < p) (hpm : p < m) (dp : is_double p)
    (dm : is_double m) : (2 : ℚ) ^ (dbl_exp p - 52) ≤ m - p := by
  obtain ⟨kp, hkp⟩ := is_double_mul p hp dp
  obtain ⟨km, hkm⟩ := is_double_mul_of_le m (lt_trans hp hpm) dm (dbl_exp p)
    (dbl_exp_mono p m hp (le_of_lt hpm))
  have hu := two_zpow_pos (dbl_exp p - 52)
  have := int_mul_gap _ hu kp km (by rw [← hkp, ← hkm]; exact hpm)
  rw [← hkp, ← hkm] at this
  exact this

/-- The number one is a double. -/
theorem Dbl.round_one : Dbl.round 1 = Dbl.fin 1 := by decide!

/-- The number two is a double. -/
theorem Dbl.round_two : Dbl.round 2 = Dbl.fin 2 := by decide!

/-- The greatest double below one is a double. -/
theorem Dbl.round_below_one :
    Dbl.round (1 - (2 : ℚ) ^ (-53 : Int)) = Dbl.fin (1 - (2 : ℚ) ^ (-53 : Int)) := by decide!

/-- The quotient of a positive double by a smaller positive double rounds to more than one. -/
theorem round_div_gt_one (p m : ℚ) (hp : 0 < p) (hpm : p < m) (dp : is_double p)
    (dm : is_double m) : (1 : Dbl) < Dbl.round (m / p) := by
  have hgap := double_gap p m hp hpm dp dm
  have hplt := lt_pow_dbl_exp p hp
  rw [pow_succ_eq_mul_spacing] at hplt
  have hu := two_zpow_pos (dbl_exp p - 52)
  have h53 : (((2 : Int) ^ 53 : Int) : ℚ) = (2 : ℚ) ^ (53 : Nat) := by norm_num
  rw [h53] at hplt
  have hq : 1 + 1 / (2 : ℚ) ^ (53 : Nat) < m / p := by
    rw [lt_div_iff₀ hp]
    have : p / (2 : ℚ) ^ (53 : Nat) < (2 : ℚ) ^ (dbl_exp p - 52) := by
      rw [div_lt_iff₀ (by positivity)]
      linarith
    have e : (1 + 1 / (2 : ℚ) ^ (53 : Nat)) * p = p + p / (2 : ℚ) ^ (53 : Nat) := by ring
    rw [e]
    linarith
  have hq0 : 0 < m / p := div_pos (lt_trans hp hpm) hp
  by_cases h2 : 2 ≤ m / p
  · have := Dbl.round_mono 2 (m / p) (by norm_num) h2
    rw [Dbl.round_two] at this
    exact Dbl.lt_le_trans (by decide) this
  · have h2' : m / p < 2 := not_le.mp h2
    have h1 : (1 : ℚ) ≤ m / p := by
      have : (0 : ℚ) < 1 / (2 : ℚ) ^ (53 : Nat) := by positivity
      linarith
    have hexp : dbl_exp (m / p) = 0 :=
      dbl_exp_of_bracket _ 0 hq0 (by norm_num) (Or.inl (by simpa using h1))
        (by simpa using h2')
    have hr : (1 : ℚ) < round_at 0 (m / p) := by
      rw [round_at_eq_mul]
      have hx := round_even_ge (m / p / (2 : ℚ) ^ ((0 : Int) - 52))
      have e52 : (2 : ℚ) ^ ((0 : Int) - 52) = 1 / (2 : ℚ) ^ (52 : Nat) := by norm_num
      have e : m / p / (2 : ℚ) ^ ((0 : Int) - 52) = m / p * (2 : ℚ) ^ (52 : Nat) := by
        rw [e52]
        field_simp
      have hlt : (1 + 1 / (2 : ℚ) ^ (53 : Nat)) * (2 : ℚ) ^ (52 : Nat)
          < m / p * (2 : ℚ) ^ (52 : Nat) :=
        mul_lt_mul_of_pos_right hq (by positivity)
      have e3 : (1 + 1 / (2 : ℚ) ^ (53 : Nat)) * (2 : ℚ) ^ (52 : Nat)
          = (2 : ℚ) ^ (52 : Nat) + 1 / 2 := by norm_num
      rw [e3, ← e] at hlt
      generalize round_even (m / p / (2 : ℚ) ^ ((0 : Int) - 52)) = n at hx ⊢
      have hx2 : (2 : ℚ) ^ (52 : Nat) < (n : ℚ) := by linarith
      have hx3 : ((2 : Int) ^ 52 : Int) < n := by
        have : (((2 : Int) ^ 52 : Int) : ℚ) = (2 : ℚ) ^ (52 : Nat) := by norm_num
        rw [← this] at hx2
        exact_mod_cast hx2
      have hx4 : ((2 : Int) ^ 52 : Int) + 1 ≤ n := by omega
      have hx5 : (2 : ℚ) ^ (52 : Nat) + 1 ≤ (n : ℚ) := by
        have : ((((2 : Int) ^ 52 : Int) + 1 : Int) : ℚ) = (2 : ℚ) ^ (52 : Nat) + 1 := by
          norm_num
        rw [← this]
        exact_mod_cast hx4
      rw [e52]
      have hpos : (0 : ℚ) < 1 / (2 : ℚ) ^ (52 : Nat) := by positivity
      calc (1 : ℚ) < ((2 : ℚ) ^ (52 : Nat) + 1) * (1 / (2 : ℚ) ^ (52 : Nat)) := by norm_num
        _ ≤ _ := mul_le_mul_of_nonneg_right hx5 (le_of_lt hpos)
    have hr2 : round_at 0 (m / p) ≤ (2 : ℚ) ^ ((0 : Int) + 1) :=
      round_at_le_pow 0 _ (by simpa using le_of_lt h2')
    rw [Dbl.round_of_pos _ hq0, hexp]
    have hno : ¬ (2 : ℚ) ^ (1024 : Int) ≤ round_at 0 (m / p) := by
      have : (2 : ℚ) ^ ((0 : Int) + 1) < (2 : ℚ) ^ (1024 : Int) := two_zpow_lt (by norm_num)
      linarith
    rw [if_neg hno, Dbl.ofNat_eq, Dbl.fin_lt_fin]
    simpa using hr

/-- The quotient of a positive double by a greater double rounds to less than one. -/
theorem round_div_lt_one (p m : ℚ) (hm : 0 < m) (hmp : m < p) (dp : is_double p)
    (dm : is_double m) : Dbl.round (m / p) < (1 : Dbl) := by
  have hp : 0 < p := lt_trans hm hmp
  have hem : dbl_exp m ≤ dbl_exp p := dbl_exp_mono m p hm (le_of_lt hmp)
  have hkey : p * (2 : ℚ) ^ (-53 : Int) ≤ p - m := by
    rcases lt_or_eq_of_le hem with hlt | heq
    · have hpn : (2 : ℚ) ^ dbl_exp p ≤ p :=
        pow_dbl_exp_le p hp (by have := dbl_exp_ge m; omega)
      have hmlt := lt_pow_dbl_exp m hm
      by_cases h1 : dbl_exp m + 1 = dbl_exp p
      · obtain ⟨km, hkm⟩ := is_double_mul m hm dm
        have hgap : (2 : ℚ) ^ (dbl_exp m - 52) ≤ (2 : ℚ) ^ (dbl_exp m + 1) - m := by
          have := int_mul_gap _ (two_zpow_pos (dbl_exp m - 52)) km ((2 : Int) ^ 53)
            (by rw [← hkm, ← pow_succ_eq_mul_spacing]; exact hmlt)
          rw [← hkm, ← pow_succ_eq_mul_spacing] at this
          exact this
        rw [h1] at hgap
        have e1 : (2 : ℚ) ^ (dbl_exp m - 52) = (2 : ℚ) ^ dbl_exp p * (2 : ℚ) ^ (-53 : Int) := by
          rw [← two_zpow_add]
          congr 1
          omega
        rw [e1] at hgap
        have h53 : (2 : ℚ) ^ (-53 : Int) ≤ 1 := by
          have := two_zpow_le (a := -53) (b := 0) (by norm_num)
          simpa using this
        have h53p := two_zpow_pos (-53)
        nlinarith
      · have h2 : dbl_exp m + 1 ≤ dbl_exp p - 1 := by omega
        have h3 : m < (2 : ℚ) ^ (dbl_exp p - 1) := lt_of_lt_of_le hmlt (two_zpow_le h2)
        have e1 : (2 : ℚ) ^ dbl_exp p = 2 * (2 : ℚ) ^ (dbl_exp p - 1) := by
          have : dbl_exp p = (dbl_exp p - 1) + 1 := by ring
          nth_rewrite 1 [this]
          rw [two_zpow_add, zpow_one]
          ring
        have h53 : (2 : ℚ) ^ (-53 : Int) ≤ 1 / 2 := by
          have := two_zpow_le (a := -53) (b := -1) (by norm_num)
          simpa using this
        have h4 : p * (2 : ℚ) ^ (-53 : Int) ≤ p * (1 / 2) :=
          mul_le_mul_of_nonneg_left h53 (le_of_lt hp)
        rw [e1] at hpn
        generalize (2 : ℚ) ^ (dbl_exp p - 1) = Y at h3 hpn
        generalize p * (2 : ℚ) ^ (-53 : Int) = A at h4 ⊢
        linarith
    · have hgap := double_gap m p hm hmp dm dp
      rw [heq] at hgap
      have hplt := lt_pow_dbl_exp p hp
      have e1 : (2 : ℚ) ^ (dbl_exp p - 52) = (2 : ℚ) ^ (dbl_exp p + 1) * (2 : ℚ) ^ (-53 : Int) := by
        rw [← two_zpow_add]
        congr 1
        omega
      rw [e1] at hgap
      have h53p := two_zpow_pos (-53)
      nlinarith
  have hq : m / p ≤ 1 - (2 : ℚ) ^ (-53 : Int) := by
    rw [div_le_iff₀ hp]
    linarith
  have := Dbl.round_mono (m / p) _ (le_of_lt (div_pos hm hp)) hq
  rw [Dbl.round_below_one] at this
  exact Dbl.le_lt_trans this (by decide!)


/-! ## Scalar parsers: lemmas -/

/-- The result of `trim` does not start with whitespace. -/
theorem dropWhile_trim (s : Str) : (trim s).dropWhile isspace = trim s := by
  unfold trim
  exact dropWhile_prefix_fixed _ _ (List.rdropWhile_prefix isspace (s.dropWhile isspace))
    (head_dropWhile_isspace s)

/-- Popping trailing whitespace stops at the latest at a character that is not whitespace. -/
theorem rdropWhile_keeps (a : Str) (c : Char) (r : Str) (hc : isspace c = false) :
    ∃ r2, (a ++ c :: r).rdropWhile isspace = a ++ c :: r2 := by
  induction r using List.reverseRecOn with
  | nil =>
    refine ⟨[], ?_⟩
    exact List.rdropWhile_concat_neg _ _ _ (by simp [hc])
  | append_singleton r2 x ih =>
    by_cases hx : isspace x = true
    · obtain ⟨r3, h3⟩ := ih
      refine ⟨r3, ?_⟩
      have : a ++ c :: (r2 ++ [x]) = (a ++ c :: r2) ++ [x] := by simp
      rw [this, List.rdropWhile_concat_pos _ _ _ hx, h3]
    · refine ⟨r2 ++ [x], ?_⟩
      have : a ++ c :: (r2 ++ [x]) = (a ++ c :: r2) ++ [x] := by simp
      rw [this, List.rdropWhile_concat_neg _ _ _ hx]

/-- A digit is neither whitespace nor a sign. -/
theorem isdigit_not_other (d : Char) (hd : isdigit d = true) :
    isspace d = false ∧ d ≠ '-' ∧ d ≠ '+' := by
  refine ⟨?_, ?_, ?_⟩
  · unfold isspace
    simp only [Bool.or_eq_false_iff, beq_eq_false_iff_ne, ne_eq]
    refine ⟨⟨⟨⟨⟨?_, ?_⟩, ?_⟩, ?_⟩, ?_⟩, ?_⟩ <;>
      (intro h; subst h; exact absurd hd (by decide))
  · intro h; subst h; exact absurd hd (by decide)
  · intro h; subst h; exact absurd hd (by decide)

/-- A natural number below `2 ^ 53` is a double. -/
theorem Dbl.round_nat (n : Nat) (h : n < 2 ^ 53) : Dbl.round (n : ℚ) = Dbl.fin (n : ℚ) := by
  rcases Nat.eq_zero_or_pos n with h0 | hpos
  · subst h0
    simpa using Dbl.round_zero
  · have hq : (0 : ℚ) < (n : ℚ) := by exact_mod_cast hpos
    have h53 : (n : ℚ) < (2 : ℚ) ^ (53 : Int) := by
      have : ((2 ^ 53 : Nat) : ℚ) = (2 : ℚ) ^ (53 : Int) := by norm_num
      rw [← this]
      exact_mod_cast h
    have hlog : ilog2 (n : ℚ) < 53 :=
      (zpow_lt_zpow_iff_right₀ (one_lt_two (α := ℚ))).mp
        (lt_of_le_of_lt (ilog2_spec _ hq).1 h53)
    have hexp : dbl_exp (n : ℚ) ≤ 52 := by
      rw [dbl_exp_pos _ hq]
      exact max_le (by omega) (by norm_num)
    refine is_double_of_mul _ hq ((n : Int) * (2 : Int) ^ (52 - dbl_exp (n : ℚ)).toNat) ?_
      (lt_trans h53 (two_zpow_lt (by norm_num)))
    rw [Int.cast_mul, ← two_zpow_nat _ (by omega), mul_assoc, ← two_zpow_add]
    have : 52 - dbl_exp (n : ℚ) + (dbl_exp (n : ℚ) - 52) = 0 := by ring
    rw [this, zpow_zero, mul_one]
    simp

/-- A double raises no range error. -/
theorem range_error_of_double (q : ℚ) (h : Dbl.round q = Dbl.fin q) : range_error q = false := by
  unfold range_error
  simp [h]

/-- A word of lower-case letters does not begin a text whose first character is a digit. -/
theorem starts_word_digit (w : Str) (c : Char) (r : Str) (hc : isdigit c = true)
    (hw : ∃ a t, w = a :: t ∧ isdigit a = false) : starts_word w (c :: r) = false := by
  obtain ⟨a, t, rfl, ha⟩ := hw
  unfold starts_word
  have hl : tolower c = c := by
    unfold tolower
    rw [if_neg]
    rintro ⟨h1, _⟩
    unfold isdigit at hc
    simp only [Bool.and_eq_true, decide_eq_true_eq] at hc
    have h2 : c ≤ '9' := hc.2
    have h3 : ('9' : Char) < 'A' := by decide
    exact absurd (lt_of_le_of_lt h2 h3) (not_lt.mpr h1)
  simp only [List.length_cons, List.take_succ_cons, List.map_cons, hl]
  rw [beq_eq_false_iff_ne]
  intro h
  injection h with h1 _
  rw [h1] at hc
  rw [hc] at ha
  exact absurd ha (by simp)

/-- The function `std::stod` performs no conversion on a text that, after leading whitespace,
does not begin with a number. -/
theorem stod_none_of_not_number (t : Str) (h : starts_number (t.dropWhile isspace) = false) :
    stod t = none := by
  unfold starts_number at h
  unfold stod
  simp only
  generalize (if (t.dropWhile isspace).head? = some '-' ∨ (t.dropWhile isspace).head? = some '+'
    then (t.dropWhile isspace).tail else t.dropWhile isspace) = u at h ⊢
  cases u with
  | nil => simp [starts_word, is_hex, dec_number]
  | cons c r =>
    simp only [Bool.or_eq_false_iff, Bool.and_eq_false_iff] at h
    obtain ⟨⟨⟨hc, hdot⟩, hinf⟩, hnan⟩ := h
    have hhex : is_hex (c :: r) = false := by
      unfold is_hex
      cases r with
      | nil => rfl
      | cons x r2 =>
        cases r2 with
        | nil => rfl
        | cons y r3 =>
          have : (c == '0') = false := by
            rw [beq_eq_false_iff_ne]
            intro e
            subst e
            exact absurd hc (by decide)
          simp [this]
    have hdec : dec_number (c :: r) = none := by
      unfold dec_number
      by_cases hd : c = '.'
      · subst hd
        cases r with
        | nil => simp [List.takeWhile, List.dropWhile, hc]
        | cons d r2 =>
          have hd2 : isdigit d = false := by
            rcases hdot with h1 | h1
            · exact absurd h1 (by simp)
            · simpa using h1
          simp [List.takeWhile, List.dropWhile, hc, hd2]
      · simp [List.takeWhile, List.dropWhile, hc, hd]
    have hinf2 : starts_word ['i', 'n', 'f'] (c :: r) = false := hinf
    have hnan2 : starts_word ['n', 'a', 'n'] (c :: r) = false := hnan
    simp [hinf2, hnan2, hhex, hdec]

/-- The function `std::stod` reads a run of digits of value below `2 ^ 53` and leaves a
remainder that cannot continue the number unread. -/
theorem stod_digits_then (ds : Str) (c : Char) (r : Str) (hne : ds ≠ [])
    (hds : ∀ d ∈ ds, isdigit d = true) (hval : decVal ds < 2 ^ 53) (hc : isdigit c = false)
    (hdot : c ≠ '.') (he : c ≠ 'e') (hE : c ≠ 'E') (hx : c ≠ 'x') (hX : c ≠ 'X') :
    stod (ds ++ c :: r) = some (Dbl.fin (decVal ds : ℚ)) := by
  cases ds with
  | nil => exact absurd rfl hne
  | cons d ds2 =>
    have hd := hds d (List.mem_cons_self _ _)
    obtain ⟨h1, h2, h3⟩ := isdigit_not_other d hd
    have htake : (d :: ds2 ++ c :: r).takeWhile isdigit = d :: ds2 := by
      rw [List.takeWhile_append_of_pos hds]
      simp [List.takeWhile, hc]
    have hdrop : (d :: ds2 ++ c :: r).dropWhile isdigit = c :: r := by
      rw [List.dropWhile_append_of_pos hds]
      simp [List.dropWhile, hc]
    have hsp : (d :: ds2 ++ c :: r).dropWhile isspace = d :: ds2 ++ c :: r := by
      simp [List.dropWhile, h1]
    have hinf : starts_word "inf".toList (d :: (ds2 ++ c :: r)) = false :=
      starts_word_digit _ d _ hd ⟨'i', "nf".toList, rfl, by decide⟩
    have hnan : starts_word "nan".toList (d :: (ds2 ++ c :: r)) = false :=
      starts_word_digit _ d _ hd ⟨'n', "an".toList, rfl, by decide⟩
    have hhex : is_hex (d :: (ds2 ++ c :: r)) = false := by
      cases ds2 with
      | nil =>
        cases r with
        | nil => rfl
        | cons y r3 => simp [is_hex, hx, hX]
      | cons x ds3 =>
        have hxd := hds x (List.mem_cons_of_mem _ (List.mem_cons_self _ _))
        have n1 : x ≠ 'x' := by intro e; subst e; exact absurd hxd (by decide)
        have n2 : x ≠ 'X' := by intro e; subst e; exact absurd hxd (by decide)
        cases hrest : ds3 ++ c :: r with
        | nil => simp at hrest
        | cons y r3 =>
          show is_hex (d :: x :: (ds3 ++ c :: r)) = false
          rw [hrest]
          simp [is_hex, n1, n2]
    have hdec : dec_number (d :: ds2 ++ c :: r) = some (decVal (d :: ds2) : ℚ) := by
      unfold dec_number
      simp only [htake, hdrop, List.head?_cons, Option.some.injEq, hdot, if_false,
        List.append_nil]
      simp [stod_exp, he, hE]
    have hround := Dbl.round_nat (decVal (d :: ds2)) hval
    unfold stod
    simp only [hsp]
    have hhead : (d :: ds2 ++ c :: r).head? = some d := rfl
    simp only [hhead, Option.some.injEq, h2, h3, or_self, if_false]
    have hcons : d :: ds2 ++ c :: r = d :: (ds2 ++ c :: r) := rfl
    rw [hcons] at hdec ⊢
    simp only [hinf, hnan, hhex, hdec, Bool.false_eq_true, if_false]
    simp [range_error_of_double _ hround, hround]

/-- C10, refuted as stated: the trimmed text `12abc` is not wholly a number, yet `to_double`
returns true with the value of the numeric prefix, 12. -/
theorem to_double_leading_number_counterexample : to_double "12abc".toList = some 12 := by
  decide!

/-- C10, amended: `to_double` reports failure for every input whose trimmed text is empty, and
for every input whose trimmed text does not begin with a number (after an optional sign: a
digit, a point followed by a digit, or one of the words `inf` and `nan`); it does not reject a
numeric prefix followed by other text: a run of digits of value below `2 ^ 53` followed by a
remainder that cannot continue the number (not a digit, a point, `e`, `E`, `x`, `X` or
whitespace) is parsed as the value of the digits, the remainder being ignored. -/
theorem to_double_leading_number :
    (∀ s, trim s = [] → to_double s = none)
      ∧ (∀ s, starts_number (trim s) = false → to_double s = none)
      ∧ (∀ (ds : Str) (c : Char) (r : Str), ds ≠ [] → (∀ d ∈ ds, isdigit d = true) →
          decVal ds < 2 ^ 53 →
          isdigit c = false → isspace c = false → c ≠ '.' → c ≠ 'e' → c ≠ 'E' →
          c ≠ 'x' → c ≠ 'X' →
          to_double (ds ++ c :: r) = some (Dbl.fin (decVal ds : ℚ))) := by
  refine ⟨?_, ?_, ?_⟩
  · intro s hs
    simp [to_double, hs]
  · intro s h
    unfold to_double
    by_cases hs : trim s = []
    · simp [hs]
    · simp only [hs, if_false]
      exact stod_none_of_not_number _ (by rw [dropWhile_trim]; exact h)
  · intro ds c r hne hds hval hc hsp hdot he hE hx hX
    cases ds with
    | nil => exact absurd rfl hne
    | cons d ds2 =>
      obtain ⟨h1, _, _⟩ := isdigit_not_other d (hds d (List.mem_cons_self _ _))
      obtain ⟨r2, hr2⟩ := rdropWhile_keeps (d :: ds2) c r hsp
      have htrim : trim (d :: ds2 ++ c :: r) = d :: ds2 ++ c :: r2 := by
        unfold trim
        have : (d :: ds2 ++ c :: r).dropWhile isspace = d :: ds2 ++ c :: r := by
          simp [List.dropWhile, h1]
        rw [this, hr2]
      unfold to_double
      simp only [htrim]
      rw [if_neg (by simp)]
      exact stod_digits_then (d :: ds2) c r2 hne hds hval hc hdot he hE hx hX

/-- C10, amended, on three inputs: blank text and `abc` are rejected, `1200m2` is parsed as
1200. -/
theorem to_double_leading_number_witness :
    to_double "  ".toList = none ∧ to_double "abc".toList = none
      ∧ to_double "1200m2".toList = some 1200 := by
  refine ⟨to_double_leading_number.1 _ (by decide),
    to_double_leading_number.2.1 _ (by decide), ?_⟩
  have h := to_double_leading_number.2.2 "1200".toList 'm' "2".toList (by decide) (by decide)
    (by decide) (by decide) (by decide) (by decide) (by decide) (by decide) (by decide)
    (by decide)
  have hv : ((decVal "1200".toList : Nat) : ℚ) = 1200 := by
    have : decVal "1200".toList = 1200 := by decide
    rw [this]; norm_num
  rw [hv] at h
  exact h


/-! ## Doubles held by the program -/

/-- The sum of two doubles, unfolded. -/
theorem Dbl.add_def (a b : Dbl) : a + b = Dbl.add a b := rfl

/-- The quotient of two doubles, unfolded. -/
theorem Dbl.div_def (a b : Dbl) : a / b = Dbl.div a b := rfl

/-- Rounding a number that is not positive gives a double that is not positive. -/
theorem Dbl.round_nonpos (q r : ℚ) (hq : q ≤ 0) (h : Dbl.round q = Dbl.fin r) : r ≤ 0 := by
  unfold Dbl.round at h
  by_cases h0 : q = 0
  · rw [if_pos h0] at h
    injection h with h
    rw [← h]
  · rw [if_neg h0] at h
    simp only at h
    split at h
    · split at h <;> exact absurd h (by simp)
    · injection h with h
      rw [← h]
      have := round_at_mono (dbl_exp q) q 0 hq
      have h1 : round_at (dbl_exp q) 0 = 0 := by
        have := round_at_exact (dbl_exp q) 0
        simpa using this
      rw [h1] at this
      exact this

/-- A positive finite value returned by `std::stod` is a double. -/
theorem stod_is_double (t : Str) (q : ℚ) (h : stod t = some (Dbl.fin q)) (hq : 0 < q) :
    is_double q := by
  unfold stod at h
  simp only at h
  generalize (if (t.dropWhile isspace).head? = some '-' ∨ (t.dropWhile isspace).head? = some '+'
    then (t.dropWhile isspace).tail else t.dropWhile isspace) = s2 at h
  generalize decide ((t.dropWhile isspace).head? = some '-') = neg at h
  by_cases c1 : starts_word "inf".toList s2 = true
  · rw [if_pos c1] at h
    cases neg <;> simp at h
  · rw [if_neg c1] at h
    by_cases c2 : starts_word "nan".toList s2 = true
    · rw [if_pos c2] at h
      simp at h
    · rw [if_neg c2] at h
      generalize (if is_hex s2 = true then some (hex_number s2) else dec_number s2) = v at h
      cases v with
      | none => simp at h
      | some m =>
        simp only at h
        by_cases c3 : range_error (if neg = true then -m else m) = true
        · rw [if_pos c3] at h
          simp at h
        · rw [if_neg c3] at h
          simp only [Option.some.injEq] at h
          rcases le_or_lt (if neg = true then -m else m) 0 with hle | hlt
          · exact absurd (Dbl.round_nonpos _ q hle h) (not_le.mpr hq)
          · exact is_double_round _ q hlt h

/-- A value that is not `<= 0` is NaN or a positive number. -/
theorem Dbl.pos_of_not_le (x : Dbl) (h : ¬ (x ≤ 0)) (hn : x ≠ Dbl.nan) : (0 : Dbl) < x := by
  have h0 : (0 : Dbl) ≠ Dbl.nan := by decide
  exact (Dbl.not_le_iff hn h0).mp h

/-- A positive value is not `<= 0`. -/
theorem Dbl.not_le_of_pos (x : Dbl) (h : (0 : Dbl) < x) : ¬ (x ≤ 0) :=
  Dbl.lt_imp_not_ge h

/-- The finite value behind a positive double is positive. -/
theorem Dbl.fin_pos (q : ℚ) : (0 : Dbl) < Dbl.fin q ↔ 0 < q := by
  rw [Dbl.ofNat_eq, Dbl.fin_lt_fin]
  simp

/-- A positive value that `to_double` returns is a value of the type `double`. -/
theorem to_double_valid (f : Str) (x : Dbl) (h : to_double f = some x) (hx : (0 : Dbl) < x) :
    x.valid := by
  unfold to_double at h
  simp only at h
  split at h
  · exact absurd h (by simp)
  · cases x with
    | fin q => exact stod_is_double _ q h ((Dbl.fin_pos q).mp hx)
    | pinf => trivial
    | ninf => trivial
    | nan => trivial

/-- At or above `2 ^ 1024` a number rounds to infinity. -/
theorem Dbl.round_overflow (q : ℚ) (h : (2 : ℚ) ^ (1024 : Int) ≤ q) : Dbl.round q = Dbl.pinf := by
  have h1 := Dbl.round_mono ((2 : ℚ) ^ (1024 : Int)) q (le_of_lt (two_zpow_pos _)) h
  have h2 : Dbl.round ((2 : ℚ) ^ (1024 : Int)) = Dbl.pinf := by decide!
  rw [h2] at h1
  cases hr : Dbl.round q with
  | fin r => rw [hr] at h1; exact absurd h1 (by simp [Dbl.le_iff, Dbl.le])
  | pinf => rfl
  | ninf => rw [hr] at h1; exact absurd h1 (by decide)
  | nan => rw [hr] at h1; exact absurd h1 (by decide)

/-- A finite result of rounding lies below `2 ^ 1024`. -/
theorem Dbl.round_fin_lt (q r : ℚ) (h : Dbl.round q = Dbl.fin r) :
    r < (2 : ℚ) ^ (1024 : Int) := by
  unfold Dbl.round at h
  by_cases h0 : q = 0
  · rw [if_pos h0] at h
    injection h with h
    rw [← h]
    exact two_zpow_pos _
  · rw [if_neg h0] at h
    simp only at h
    split at h
    · split at h <;> exact absurd h (by simp)
    · rename_i hlt
      injection h with h
      rw [← h]
      exact lt_of_le_of_lt (le_abs_self _) (not_le.mp hlt)

/-- The average `(a + b) / 2` of two positive doubles `a <= b`, as the program computes it, is a
double that is at least `a`, and at most `b` unless the sum overflows, which makes it
`+inf`. -/
theorem avg_bounds (a b : Dbl) (ha : (0 : Dbl) < a) (va : a.valid) (hb : (0 : Dbl) < b)
    (vb : b.valid) (hab : a ≤ b) :
    a ≤ (a + b) / 2 ∧ ((a + b) / 2 ≤ b ∨ (a + b) / 2 = Dbl.pinf) ∧ ((a + b) / 2).valid := by
  cases a with
  | nan => exact absurd ha (by decide)
  | ninf => exact absurd ha (by decide)
  | pinf =>
    cases b with
    | pinf => exact ⟨by decide, Or.inr rfl, trivial⟩
    | fin y => exact absurd hab (by simp [Dbl.le_iff, Dbl.le])
    | ninf => exact absurd hb (by decide)
    | nan => exact absurd hb (by decide)
  | fin x =>
    cases b with
    | nan => exact absurd hb (by decide)
    | ninf => exact absurd hb (by decide)
    | pinf => exact ⟨by simp [Dbl.le_iff, Dbl.le, Dbl.add_def, Dbl.div_def, Dbl.add, Dbl.div,
        Dbl.ofNat_eq], Or.inr rfl, trivial⟩
    | fin y =>
      have hx : 0 < x := (Dbl.fin_pos x).mp ha
      have hy : 0 < y := (Dbl.fin_pos y).mp hb
      have hxy : x ≤ y := (Dbl.fin_le_fin x y).mp hab
      have dx : is_double x := va
      have dy : is_double y := vb
      have e2 : (2 : Dbl) = Dbl.fin 2 := by rw [Dbl.ofNat_eq]; simp
      have hdiv : ∀ z : ℚ, Dbl.fin z / (2 : Dbl) = Dbl.round (z / 2) := by
        intro z
        rw [e2, Dbl.div_def]
        simp [Dbl.div]
      have hadd : Dbl.fin x + Dbl.fin y = Dbl.round (x + y) := rfl
      rw [hadd]
      by_cases hbig : x < (2 : ℚ) ^ (1023 : Int)
      · have d2x := is_double_two_mul x hx dx hbig
        have hlow := Dbl.round_mono (2 * x) (x + y) (by linarith) (by linarith)
        rw [d2x] at hlow
        cases hs : Dbl.round (x + y) with
        | nan => rw [hs] at hlow; exact absurd hlow (by simp [Dbl.le_iff, Dbl.le])
        | ninf => rw [hs] at hlow; exact absurd hlow (by simp [Dbl.le_iff, Dbl.le])
        | pinf => exact ⟨by simp [Dbl.le_iff, Dbl.le, e2, Dbl.div_def, Dbl.div], Or.inr (by
            simp [e2, Dbl.div_def, Dbl.div]), by simp [e2, Dbl.div_def, Dbl.div, Dbl.valid]⟩
        | fin z =>
          rw [hs] at hlow
          have hz : 2 * x ≤ z := (Dbl.fin_le_fin _ _).mp hlow
          have hz0 : 0 < z / 2 := by linarith
          have hzy : z / 2 ≤ y := by
            by_cases hybig : y < (2 : ℚ) ^ (1023 : Int)
            · have d2y := is_double_two_mul y hy dy hybig
              have hup := Dbl.round_mono (x + y) (2 * y) (by linarith) (by linarith)
              rw [hs, d2y, Dbl.fin_le_fin] at hup
              linarith
            · have := Dbl.round_fin_lt _ _ hs
              have e : (2 : ℚ) ^ (1024 : Int) = 2 * (2 : ℚ) ^ (1023 : Int) := by norm_num
              rw [e] at this
              linarith [not_lt.mp hybig]
          rw [hdiv z]
          have l1 := Dbl.round_mono x (z / 2) (le_of_lt hx) (by linarith)
          have l2 := Dbl.round_mono (z / 2) y (le_of_lt hz0) hzy
          rw [show Dbl.round x = Dbl.fin x from dx] at l1
          rw [show Dbl.round y = Dbl.fin y from dy] at l2
          refine ⟨l1, Or.inl l2, ?_⟩
          cases hr : Dbl.round (z / 2) with
          | fin r => exact is_double_round _ r hz0 hr
          | pinf => trivial
          | ninf => trivial
          | nan => trivial
      · have hov := Dbl.round_overflow (x + y) (by
          have e : (2 : ℚ) ^ (1024 : Int) = 2 * (2 : ℚ) ^ (1023 : Int) := by norm_num
          rw [e]
          linarith [not_lt.mp hbig])
        rw [hov]
        exact ⟨by simp [Dbl.le_iff, Dbl.le, e2, Dbl.div_def, Dbl.div], Or.inr (by
          simp [e2, Dbl.div_def, Dbl.div]), by simp [e2, Dbl.div_def, Dbl.div, Dbl.valid]⟩


/-! ## Stored medians -/

/-- The price-per-area of an accepted reference row is not `<= 0`, and it is what `to_double`
returned for a field of the row. -/
theorem accepted_row_value (i_eur i_loc i_st : Int) (so : Bool) (line : Str) (kv : Str × Dbl)
    (h : accepted_row i_eur i_loc i_st so line = some kv) :
    ¬ (kv.2 ≤ 0) ∧ ∃ f, to_double f = some kv.2 := by
  unfold accepted_row at h
  simp only at h
  split at h
  · split at h
    · exact absurd h (by simp)
    · rename_i eur hd
      split at h
      · rename_i hc
        simp only [Option.some.injEq] at h
        rw [← h]
        exact ⟨hc.1, _, hd⟩
      · exact absurd h (by simp)
  · exact absurd h (by simp)

/-- Every accumulated value of a group that is a number is a positive double. -/
theorem accepted_values_good (i_eur i_loc i_st : Int) (so : Bool) (lines : List Str) (k : Str)
    (v : Dbl) (hv : v ∈ accepted_values i_eur i_loc i_st so lines k) (hn : v ≠ Dbl.nan) :
    (0 : Dbl) < v ∧ v.valid := by
  obtain ⟨kv, hkv, _, rfl⟩ := accepted_values_mem _ _ _ _ _ _ _ hv
  rw [List.mem_filterMap] at hkv
  obtain ⟨line, _, hl⟩ := hkv
  obtain ⟨h1, f, hf⟩ := accepted_row_value i_eur i_loc i_st so line kv hl
  have hpos := Dbl.pos_of_not_le _ h1 hn
  exact ⟨hpos, to_double_valid f _ hf hpos⟩

/-- A non-empty list of numbers has a least and a greatest element. -/
theorem exists_min_max (v : List Dbl) (hne : v ≠ []) (hn : ∀ x ∈ v, x ≠ Dbl.nan) :
    ∃ lo ∈ v, ∃ hi ∈ v, ∀ x ∈ v, lo ≤ x ∧ x ≤ hi := by
  induction v with
  | nil => exact absurd rfl hne
  | cons a r ih =>
    have ha : a ≠ Dbl.nan := hn a (List.mem_cons_self _ _)
    by_cases hr : r = []
    · subst hr
      exact ⟨a, List.mem_singleton_self a, a, List.mem_singleton_self a, fun x hx => by
        rw [List.mem_singleton] at hx; subst hx; exact ⟨Dbl.refl_le ha, Dbl.refl_le ha⟩⟩
    · obtain ⟨lo, hlo, hi, hhi, hall⟩ := ih hr (fun x hx => hn x (List.mem_cons_of_mem _ hx))
      have hlon : lo ≠ Dbl.nan := hn lo (List.mem_cons_of_mem _ hlo)
      have hhin : hi ≠ Dbl.nan := hn hi (List.mem_cons_of_mem _ hhi)
      have hmin : ∃ l2 ∈ a :: r, l2 ≤ a ∧ l2 ≤ lo := by
        rcases Dbl.total_le ha hlon with h | h
        · exact ⟨a, List.mem_cons_self _ _, Dbl.refl_le ha, h⟩
        · exact ⟨lo, List.mem_cons_of_mem _ hlo, h, Dbl.refl_le hlon⟩
      have hmax : ∃ h2 ∈ a :: r, a ≤ h2 ∧ hi ≤ h2 := by
        rcases Dbl.total_le ha hhin with h | h
        · exact ⟨hi, List.mem_cons_of_mem _ hhi, h, Dbl.refl_le hhin⟩
        · exact ⟨a, List.mem_cons_self _ _, Dbl.refl_le ha, h⟩
      obtain ⟨l2, hl2, hl2a, hl2lo⟩ := hmin
      obtain ⟨h2, hh2, hh2a, hh2hi⟩ := hmax
      refine ⟨l2, hl2, h2, hh2, ?_⟩
      intro x hx
      rw [List.mem_cons] at hx
      rcases hx with hx | hx
      · subst hx
        exact ⟨hl2a, hh2a⟩
      · exact ⟨Dbl.trans_le hl2lo (hall x hx).1, Dbl.trans_le (hall x hx).2 hh2hi⟩

/-- The median of a non-empty list of positive doubles is a double that is at least one of
the elements, and at most one of them unless the sum of the two central elements overflows,
which makes it `+inf`. -/
theorem median_inplace_between (D : DblSort) (v : List Dbl) (hne : v ≠ [])
    (hpos : ∀ x ∈ v, (0 : Dbl) < x) (hval : ∀ x ∈ v, x.valid) :
    ∃ a ∈ v, ∃ b ∈ v, a ≤ median_inplace D v
      ∧ (median_inplace D v ≤ b ∨ median_inplace D v = Dbl.pinf)
      ∧ (median_inplace D v).valid := by
  have hnan : ∀ x ∈ v, x ≠ Dbl.nan := fun x hx => (Dbl.ne_nan_of_lt (hpos x hx)).2
  have hswo := strict_weak_lt v hnan
  have hperm := D.perm v hswo
  have hsorted : (D.run v).Sorted (· ≤ ·) := by
    refine List.Pairwise.imp_of_mem ?_ (D.sorted v hswo)
    intro a b ha hb hab
    exact (Dbl.not_lt_iff (hnan b (hperm.subset hb)) (hnan a (hperm.subset ha))).mp
      (by rw [Dbl.lt_iff, hab]; simp)
  have hlen : (D.run v).length = v.length := hperm.length_eq
  have hlpos : 0 < v.length := List.length_pos.mpr hne
  have hmem : ∀ i, i < (D.run v).length → (D.run v).getD i 0 ∈ v := by
    intro i hi
    exact hperm.subset (List.getElem?_mem (getD_eq_of_lt _ i hi))
  unfold median_inplace
  simp only [hne, if_false]
  split
  · have hm := hmem (v.length / 2) (by omega)
    have hn := hnan _ hm
    exact ⟨_, hm, _, hm, Dbl.refl_le hn, Or.inl (Dbl.refl_le hn), hval _ hm⟩
  · have h1 : v.length / 2 - 1 < (D.run v).length := by omega
    have h2 : v.length / 2 < (D.run v).length := by omega
    have ha := hmem _ h1
    have hb := hmem _ h2
    have hle : (D.run v).getD (v.length / 2 - 1) 0 ≤ (D.run v).getD (v.length / 2) 0 := by
      rw [List.getD_eq_getElem _ _ h1, List.getD_eq_getElem _ _ h2]
      exact List.pairwise_iff_getElem.mp hsorted _ _ h1 h2 (by omega)
    have := avg_bounds _ _ (hpos _ ha) (hval _ ha) (hpos _ hb) (hval _ hb) hle
    exact ⟨_, ha, _, hb, this.1, this.2.1, this.2.2⟩

/-- A stored median is the median of a non-empty group. -/
theorem reference_pass_median_mem (D : DblSort) (i_eur i_loc i_st : Int) (so : Bool)
    (minN : Int) (lines : List Str) (t : Tables) (k : Str) (m : Dbl)
    (h1 : 0 ≤ i_eur) (h2 : 0 ≤ i_loc) (h3 : 0 ≤ i_st) (hmin : 1 ≤ minN)
    (ht : reference_pass D i_eur i_loc i_st so minN lines = some t)
    (hm : t.key_median.find k = some m) :
    accepted_values i_eur i_loc i_st so lines k ≠ []
      ∧ m = median_inplace D (accepted_values i_eur i_loc i_st so lines k) := by
  obtain ⟨T, hT, hfind⟩ := reference_pass_find D i_eur i_loc i_st so minN lines h1 h2 h3 hmin
  rw [ht] at hT
  injection hT with hT
  subst hT
  rw [(hfind k).1] at hm
  split at hm
  · rename_i hc
    simp only [Option.some.injEq] at hm
    refine ⟨?_, hm.symm⟩
    intro he
    rw [he] at hc
    simp only [List.length_nil, Nat.cast_zero] at hc
    omega
  · exact absurd hm (by simp)

/-- The stored median of a group of numbers is a positive double within the group's range,
or `+inf`. -/
theorem reference_pass_median_good (D : DblSort) (i_eur i_loc i_st : Int) (so : Bool)
    (minN : Int) (lines : List Str) (t : Tables) (k : Str) (m : Dbl)
    (h1 : 0 ≤ i_eur) (h2 : 0 ≤ i_loc) (h3 : 0 ≤ i_st) (hmin : 1 ≤ minN)
    (ht : reference_pass D i_eur i_loc i_st so minN lines = some t)
    (hm : t.key_median.find k = some m)
    (hn : ∀ x ∈ accepted_values i_eur i_loc i_st so lines k, x ≠ Dbl.nan) :
    (∃ lo ∈ accepted_values i_eur i_loc i_st so lines k,
        ∃ hi ∈ accepted_values i_eur i_loc i_st so lines k,
          (∀ x ∈ accepted_values i_eur i_loc i_st so lines k, lo ≤ x ∧ x ≤ hi)
            ∧ lo ≤ m ∧ (m ≤ hi ∨ m = Dbl.pinf))
      ∧ (0 : Dbl) < m ∧ m.valid := by
  obtain ⟨hne, hmed⟩ :=
    reference_pass_median_mem D i_eur i_loc i_st so minN lines t k m h1 h2 h3 hmin ht hm
  have hgood := fun x hx => accepted_values_good i_eur i_loc i_st so lines k x hx (hn x hx)
  obtain ⟨a, ha, b, hb, hab1, hab2, hv⟩ := median_inplace_between D _ hne
    (fun x hx => (hgood x hx).1) (fun x hx => (hgood x hx).2)
  obtain ⟨lo, hlo, hi, hhi, hall⟩ := exists_min_max _ hne hn
  rw [← hmed] at hab1 hab2 hv
  refine ⟨⟨lo, hlo, hi, hhi, hall, Dbl.trans_le (hall a ha).1 hab1, ?_⟩,
    Dbl.lt_le_trans (hgood a ha).1 hab1, hv⟩
  rcases hab2 with h | h
  · exact Or.inl (Dbl.trans_le h (hall b hb).2)
  · exact Or.inr h

/-- The deal ratio `med / eur` of a positive median and a price-per-area that is not `<= 0`
exceeds 1 exactly when `eur < med`, and equals 1 exactly when `eur` and `med` are the same
finite value. -/
theorem deal_vs_one (eur med : Dbl) (he : ¬ (eur ≤ 0)) (ve : eur.valid) (hm : (0 : Dbl) < med)
    (vm : med.valid) :
    ((1 : Dbl) < med / eur ↔ eur < med)
      ∧ (med / eur = 1 ↔ eur = med ∧ eur ≠ Dbl.pinf) := by
  cases eur with
  | nan =>
    cases med with
    | nan => exact absurd hm (by decide)
    | ninf => exact absurd hm (by decide)
    | pinf => exact ⟨by decide, by decide⟩
    | fin m =>
      have : Dbl.fin m / Dbl.nan = Dbl.nan := rfl
      rw [this]
      refine ⟨by simp [Dbl.lt_iff, Dbl.lt], ?_⟩
      constructor
      · intro h; exact absurd h (by decide)
      · rintro ⟨h, _⟩; exact absurd h (by simp)
  | ninf => exact absurd (by decide) he
  | pinf =>
    cases med with
    | nan => exact absurd hm (by decide)
    | ninf => exact absurd hm (by decide)
    | pinf => exact ⟨by decide, by decide⟩
    | fin m =>
      have : Dbl.fin m / Dbl.pinf = Dbl.fin 0 := rfl
      rw [this]
      refine ⟨?_, ?_⟩
      · rw [Dbl.ofNat_eq, Dbl.fin_lt_fin]
        simp [Dbl.lt_iff, Dbl.lt]
      · constructor
        · intro h
          rw [Dbl.ofNat_eq] at h
          injection h with h
          norm_num at h
        · rintro ⟨h, _⟩; exact absurd h (by simp)
  | fin p =>
    have hp : 0 < p := by
      by_contra hcon
      exact he (by rw [Dbl.ofNat_eq, Dbl.fin_le_fin]; simpa using not_lt.mp hcon)
    have dp : is_double p := ve
    cases med with
    | nan => exact absurd hm (by decide)
    | ninf => exact absurd hm (by decide)
    | pinf =>
      have : Dbl.pinf / Dbl.fin p = Dbl.pinf := by
        rw [Dbl.div_def]
        simp [Dbl.div, le_of_lt hp]
      rw [this]
      refine ⟨by simp [Dbl.lt_iff, Dbl.lt, Dbl.ofNat_eq], ?_⟩
      constructor
      · intro h; exact absurd h (by decide)
      · rintro ⟨h, _⟩; exact absurd h (by simp)
    | fin m =>
      have hm0 : 0 < m := (Dbl.fin_pos m).mp hm
      have dm : is_double m := vm
      have hdiv : Dbl.fin m / Dbl.fin p = Dbl.round (m / p) := by
        rw [Dbl.div_def]
        simp [Dbl.div, ne_of_gt hp]
      rw [hdiv, Dbl.fin_lt_fin]
      have hone : (1 : Dbl) ≠ Dbl.nan := by decide
      rcases lt_trichotomy p m with hlt | heq | hgt
      · have h1 := round_div_gt_one p m hp hlt dp dm
        refine ⟨⟨fun _ => hlt, fun _ => h1⟩, ?_⟩
        constructor
        · intro h
          rw [h] at h1
          exact absurd h1 (by decide)
        · rintro ⟨h, _⟩
          injection h with h
          exact absurd h (ne_of_lt hlt)
      · subst heq
        rw [div_self (ne_of_gt hp), Dbl.round_one]
        refine ⟨⟨fun h => absurd h (by decide), fun h => absurd h (lt_irrefl _)⟩, ?_⟩
        constructor
        · intro _; exact ⟨rfl, by simp⟩
        · intro _; rw [Dbl.ofNat_eq]; simp
      · have h1 := round_div_lt_one p m hm0 hgt dp dm
        refine ⟨⟨fun h => ?_, fun h => absurd h (not_lt.mpr (le_of_lt hgt))⟩, ?_⟩
        · exact absurd (Dbl.trans_lt h h1) (by decide)
        · constructor
          · intro h
            rw [h] at h1
            exact absurd h1 (by decide)
          · rintro ⟨h, _⟩
            injection h with h
            exact absurd h (ne_of_gt hgt)

/-- For one positive median, the lower of two prices never has the smaller deal ratio. -/
theorem deal_mono (med eur eur2 : Dbl) (hm : (0 : Dbl) < med) (h2 : eur2 < eur)
    (he2 : (0 : Dbl) < eur2) :
    ¬ (med / eur2 < med / eur) ∧ (eur ≠ Dbl.pinf → med / eur ≤ med / eur2) := by
  cases eur2 with
  | nan => exact absurd he2 (by decide)
  | ninf => exact absurd he2 (by decide)
  | pinf => exact absurd h2 (by cases eur <;> simp [Dbl.lt_iff, Dbl.lt])
  | fin p2 =>
    have hp2 : 0 < p2 := (Dbl.fin_pos p2).mp he2
    cases med with
    | nan => exact absurd hm (by decide)
    | ninf => exact absurd hm (by decide)
    | pinf =>
      have e2 : Dbl.pinf / Dbl.fin p2 = Dbl.pinf := by
        rw [Dbl.div_def]
        simp [Dbl.div, le_of_lt hp2]
      rw [e2]
      cases eur with
      | nan => exact absurd h2 (by simp [Dbl.lt_iff, Dbl.lt])
      | ninf => exact absurd h2 (by simp [Dbl.lt_iff, Dbl.lt])
      | pinf => exact ⟨by decide, fun h => absurd rfl h⟩
      | fin p =>
        have hp : 0 < p := lt_trans hp2 ((Dbl.fin_lt_fin _ _).mp h2)
        have e1 : Dbl.pinf / Dbl.fin p = Dbl.pinf := by
          rw [Dbl.div_def]
          simp [Dbl.div, le_of_lt hp]
        rw [e1]
        exact ⟨by decide, fun _ => by decide⟩
    | fin m =>
      have hm0 : 0 < m := (Dbl.fin_pos m).mp hm
      have e2 : Dbl.fin m / Dbl.fin p2 = Dbl.round (m / p2) := by
        rw [Dbl.div_def]
        simp [Dbl.div, ne_of_gt hp2]
      rw [e2]
      cases eur with
      | nan => exact absurd h2 (by simp [Dbl.lt_iff, Dbl.lt])
      | ninf => exact absurd h2 (by simp [Dbl.lt_iff, Dbl.lt])
      | pinf =>
        have e1 : Dbl.fin m / Dbl.pinf = Dbl.fin 0 := rfl
        rw [e1]
        have h0 := Dbl.round_nonneg (m / p2) (le_of_lt (div_pos hm0 hp2))
        rw [Dbl.ofNat_eq] at h0
        simp only [Nat.cast_zero] at h0
        exact ⟨fun h => Dbl.lt_imp_not_ge h h0, fun h => absurd rfl h⟩
      | fin p =>
        have hlt : p2 < p := (Dbl.fin_lt_fin _ _).mp h2
        have hp : 0 < p := lt_trans hp2 hlt
        have e1 : Dbl.fin m / Dbl.fin p = Dbl.round (m / p) := by
          rw [Dbl.div_def]
          simp [Dbl.div, ne_of_gt hp]
        rw [e1]
        have hle := Dbl.round_mono (m / p) (m / p2) (le_of_lt (div_pos hm0 hp))
          (div_le_div_of_nonneg_left (le_of_lt hm0) hp2 (le_of_lt hlt))
        exact ⟨fun h => Dbl.lt_imp_not_ge h hle, fun _ => hle⟩

/-- C17, refuted as stated: against a table holding the median 950 for `Town | Oak` (the table
of the reference file with the one row `950,Town,Oak` and minimum sample count 1), the two
candidates priced 3777.5420537981086 and 3777.542053798109 are scored in the same group with
different prices-per-area, and the quotients `950 / eur` round to the same double: the
candidate with the lower price does not have the strictly larger deal ratio. -/
theorem deal_ratio_order_counterexample :
    reference_pass insertionDblSort 0 1 2 false 1 ["950,Town,Oak".toList]
        = some { key_median := near_cfg.key_median, key_n := near_cfg.key_n }
      ∧ ∃ lo hi, scorable near_cfg near_row_low lo 950 ∧ scorable near_cfg near_row_high hi 950
        ∧ (scored_entry near_cfg (parse_csv_line near_row_low) lo 950).key
            = (scored_entry near_cfg (parse_csv_line near_row_high) hi 950).key
        ∧ lo < hi
        ∧ (scored_entry near_cfg (parse_csv_line near_row_low) lo 950).deal
            = (scored_entry near_cfg (parse_csv_line near_row_high) hi 950).deal
        ∧ ¬ ((scored_entry near_cfg (parse_csv_line near_row_high) hi 950).deal
            < (scored_entry near_cfg (parse_csv_line near_row_low) lo 950).deal) := by
  refine ⟨by decide!, Dbl.round (37775420537981086 / 10 ^ 13),
    Dbl.round (3777542053798109 / 10 ^ 12), ?_, ?_, ?_, ?_, ?_, ?_⟩
  · exact ⟨by decide, by decide, by decide!, by decide!, by decide, by decide⟩
  · exact ⟨by decide, by decide, by decide!, by decide!, by decide, by decide⟩
  · decide
  · decide!
  · decide!
  · decide!

/-- C17, amended: against tables built by the reference pass, a scored candidate with
price-per-area `eur` and group median `med`, the accumulated values of its group being numbers
(none is NaN), is offered with a deal ratio that exceeds 1 exactly when `eur < med` and equals 1
exactly when `eur = med` and `eur` is finite; and a second scored candidate of the same group
(same grouping key) with a lower price-per-area never has the smaller deal ratio: its deal
ratio is at least as large when `eur` is finite, and the two can be equal through rounding. -/
theorem deal_ratio_order (D : DblSort) (i_eur i_loc i_st : Int) (street_only : Bool)
    (minN : Int) (lines : List Str) (t : Tables) (S : DealSort) (c : CandCfg) (st : CandState)
    (line : Str) (eur med : Dbl) :
    0 ≤ i_eur → 0 ≤ i_loc → 0 ≤ i_st → 1 ≤ minN →
    reference_pass D i_eur i_loc i_st street_only minN lines = some t →
    c.key_median = t.key_median →
    0 ≤ c.in_url → 0 ≤ c.in_eur → 0 ≤ c.in_loc → 0 ≤ c.in_st →
    scorable c line eur med →
    (∀ x ∈ accepted_values i_eur i_loc i_st street_only lines
        (scored_entry c (parse_csv_line line) eur med).key, x ≠ Dbl.nan) →
    cand_row S c st line
        = some { best := push_best S c.top_n st.best
                   (scored_entry c (parse_csv_line line) eur med)
                 in_rows := st.in_rows + 1
                 scored_rows := st.scored_rows + 1 }
      ∧ (1 < (scored_entry c (parse_csv_line line) eur med).deal ↔ eur < med)
      ∧ ((scored_entry c (parse_csv_line line) eur med).deal = 1 ↔ eur = med ∧ eur ≠ Dbl.pinf)
      ∧ (∀ line2 eur2 med2, scorable c line2 eur2 med2 →
          (scored_entry c (parse_csv_line line2) eur2 med2).key
            = (scored_entry c (parse_csv_line line) eur med).key →
          eur2 < eur →
          ¬ ((scored_entry c (parse_csv_line line2) eur2 med2).deal
              < (scored_entry c (parse_csv_line line) eur med).deal)
            ∧ (eur ≠ Dbl.pinf →
                (scored_entry c (parse_csv_line line) eur med).deal
                  ≤ (scored_entry c (parse_csv_line line2) eur2 med2).deal)) := by
  intro h1 h2 h3 hmin ht hc g1 g2 g3 g4 hs hn
  obtain ⟨hb, hl, hd, hpos, hst, hk⟩ := hs
  have hgood : (0 : Dbl) < med ∧ med.valid := by
    rw [hc] at hk
    exact (reference_pass_median_good D i_eur i_loc i_st street_only minN lines t _ med h1 h2
      h3 hmin ht hk hn).2
  have hvalid : eur.valid := by
    by_cases hnan : eur = Dbl.nan
    · rw [hnan]; trivial
    · exact to_double_valid _ eur hd (Dbl.pos_of_not_le eur hpos hnan)
  have hone := deal_vs_one eur med hpos hvalid hgood.1 hgood.2
  refine ⟨cand_row_scored S c st line eur med g1 g2 g3 g4 hb hl hd hpos hst hk, hone.1, hone.2,
    ?_⟩
  intro line2 eur2 med2 hs2 hkey hlt
  obtain ⟨_, _, _, hpos2, _, hk2⟩ := hs2
  have hkey2 : grouping_key c.street_only
      (norm_space ((parse_csv_line line2).getD c.in_loc.toNat []))
      (norm_space ((parse_csv_line line2).getD c.in_st.toNat []))
    = grouping_key c.street_only
      (norm_space ((parse_csv_line line).getD c.in_loc.toNat []))
      (norm_space ((parse_csv_line line).getD c.in_st.toNat [])) := hkey
  rw [hkey2, hk] at hk2
  simp only [Option.some.injEq] at hk2
  subst hk2
  exact deal_mono med eur eur2 hgood.1 hlt
    (Dbl.pos_of_not_le eur2 hpos2 (Dbl.ne_nan_of_lt hlt).1)

/-- C17 in the end-to-end scenario (median 1200): the candidate at 1150 has a deal ratio
above 1, and the candidate at 800 of the same group has a deal ratio at least as large. -/
theorem deal_ratio_order_witness :
    (1 < (scored_entry oak_cfg (parse_csv_line oak_row_1150) 1150 1200).deal ↔
        (1150 : Dbl) < 1200)
      ∧ (scored_entry oak_cfg (parse_csv_line oak_row_1150) 1150 1200).deal
          ≤ (scored_entry oak_cfg (parse_csv_line oak_row_800) 800 1200).deal := by
  have h := deal_ratio_order insertionDblSort 0 1 2 false 5 oak_market.tail
    { key_median := [("Town | Oak".toList, 1200)], key_n := [("Town | Oak".toList, 5)] }
    insertionDealSort oak_cfg {} oak_row_1150 1150 1200
    (by decide) (by decide) (by decide) (by decide) (by decide!) rfl
    (by decide) (by decide) (by decide) (by decide)
    ⟨by decide, by decide, by decide!, by decide, by decide, by decide⟩ (by decide!)
  exact ⟨h.2.1, (h.2.2.2 oak_row_800 800 1200
    ⟨by decide, by decide, by decide!, by decide, by decide, by decide⟩ (by decide)
    (by decide)).2 (by decide)⟩


end Aruodas
